import Mathlib

/-!
# elemental-node-map: the matcher (`internal/match/match.go`)

A shallow embedding of the identity matcher: the canonicalizers, the node
index, the per-strategy lookups and `Match` itself, followed by the properties
proved about them.

Conventions of the embedding

* A Go `string` is a Lean `String`; positions returned by `strings.Index` and
  `strings.LastIndex` are counted in characters.  The source only compares
  such a position with `0` and with `len(value)-1`, and only slices at it, so
  for well-formed UTF-8 text nothing depends on the unit.  `len(suffix)` in
  `trimHexSuffix` is kept as the UTF-8 byte length.
* A Go `map[string]string` (labels, annotations) is an association list; a Go
  `map[string][]K8sNode` is a total function giving `[]` for an absent key; a
  Go set `map[string]struct{}` is the list of its keys in insertion order.
* Whatever the Go runtime and standard library decide and the source does not
  (the order in which `range` visits a map, `unicode.ToLower`, `net.ParseIP`)
  is a field of `Runtime`; every theorem holds for every `Runtime`.
* A function returning `([]NodeMatch, bool)` returns `Option (List NodeMatch)`:
  `(nil, false)` is `none`, `(matches, true)` is `some matches`.
* The `float64` confidences are the rationals their decimal literals denote.
* Go orders strings bytewise; on UTF-8 text that is the lexicographic order of
  the characters, written `a.data ≤ b.data`.
-/

namespace ElementalNodeMap

/-! ## Data model (`internal/types/types.go`, `internal/match/match.go`) -/

/-- K8sNode is a normalized view of a Kubernetes node. -/
structure K8sNode where
  Name : String := ""
  UID : String := ""
  Labels : List (String × String) := []
  ProviderID : String := ""
  MachineID : String := ""
  MachineName : String := ""
  InternalIPs : List String := []
  ExternalIPs : List String := []
  Annotations : List (String × String) := []
  deriving DecidableEq, Repr

/-- InventoryHost is a normalized view of a Rancher Elemental inventory host. -/
structure InventoryHost where
  ID : String := ""
  UID : String := ""
  Namespace : String := ""
  MachineName : String := ""
  Hostname : String := ""
  MachineID : String := ""
  SystemUUID : String := ""
  ProviderID : String := ""
  IPs : List String := []
  Labels : List (String × String) := []
  Metadata : List (String × String) := []
  deriving DecidableEq, Repr

/-- The six constants of type `Method`. -/
inductive Method where
  | MethodMachineID
  | MethodProviderID
  | MethodInternalIP
  | MethodExternalIP
  | MethodMachineName
  | MethodHostname
  deriving DecidableEq, Repr

open Method

/-- The string value of a `Method` constant. -/
def Method.text : Method → String
  | MethodMachineID => "machine-id"
  | MethodProviderID => "provider-id"
  | MethodInternalIP => "internal-ip"
  | MethodExternalIP => "external-ip"
  | MethodMachineName => "machine-name"
  | MethodHostname => "hostname"

/-- The table `methodConfidence`. -/
def methodConfidence : Method → ℚ
  | MethodMachineID => 98 / 100
  | MethodProviderID => 95 / 100
  | MethodInternalIP => 9 / 10
  | MethodExternalIP => 85 / 100
  | MethodMachineName => 75 / 100
  | MethodHostname => 7 / 10

/-- One candidate node of a host. -/
structure NodeMatch where
  Node : K8sNode
  Method : Method
  Confidence : ℚ
  Explanation : String
  deriving DecidableEq

/-- A host with its candidates. -/
structure HostMatch where
  Host : InventoryHost
  Candidates : List NodeMatch
  Method : Method
  Confidence : ℚ
  deriving DecidableEq

/-- The four partitions returned by `Match`. -/
structure Result where
  Matches : List HostMatch := []
  Ambiguous : List HostMatch := []
  UnmatchedHosts : List InventoryHost := []
  UnmatchedNodes : List K8sNode := []
  deriving DecidableEq

/-- The six lookup tables over the node set. -/
structure nodeIndex where
  byMachineID : String → List K8sNode
  byProviderID : String → List K8sNode
  byInternalIP : String → List K8sNode
  byExternalIP : String → List K8sNode
  byMachineName : String → List K8sNode
  byHostname : String → List K8sNode

/-! ## What the Go runtime and standard library decide -/

/-- The behaviour the source takes from outside itself.
`rangeKeys` and `rangeEntries` are the orders in which `range` visits the keys
of a `map[string]struct{}` and the entries of a `map[string]NodeMatch`, given
in insertion order: any rearrangement.  `toLowerRune` is `unicode.ToLower`, of
which only the ASCII behaviour is fixed here, and that it never gives one of
the letters `A` to `Z`.  `parseIP` is `net.ParseIP`
followed by the canonical text of the address (`To4().String()` for an IPv4 or
IPv4-mapped address, `String()` otherwise), `none` when the text does not
parse. -/
structure Runtime where
  rangeKeys : List String → List String
  rangeKeys_perm : ∀ l, (rangeKeys l).Perm l
  rangeEntries : List (String × NodeMatch) → List (String × NodeMatch)
  rangeEntries_perm : ∀ l, (rangeEntries l).Perm l
  toLowerRune : Char → Char
  toLowerRune_ascii : ∀ c : Char, c.toNat < 128 → toLowerRune c = c.toLower
  toLowerRune_not_upper : ∀ c : Char, (toLowerRune c).isUpper = false
  parseIP : String → Option String

/-! ## Standard-library string functions -/

/-- The predicate `unicode.IsSpace`. -/
def isSpace (c : Char) : Bool :=
  let n := c.toNat
  (9 ≤ n && n ≤ 13) || n = 32 || n = 0x85 || n = 0xA0 || n = 0x1680 ||
    (0x2000 ≤ n && n ≤ 0x200A) || n = 0x2028 || n = 0x2029 || n = 0x202F ||
    n = 0x205F || n = 0x3000

/-- The function `strings.TrimSpace`. -/
def TrimSpace (s : String) : String :=
  ⟨((s.data.dropWhile isSpace).reverse.dropWhile isSpace).reverse⟩

/-- The function `strings.ToLower`: `unicode.ToLower` on every character. -/
def ToLower (R : Runtime) (s : String) : String :=
  ⟨s.data.map R.toLowerRune⟩

/-- The call `strings.TrimSuffix(s, ".")`: without its last character when
that is a dot. -/
def TrimSuffixDot (s : String) : String :=
  if s.data.getLast? = some '.' then ⟨s.data.dropLast⟩ else s

/-- The call `strings.Index(s, c)` for a one-character separator: the position
of its first occurrence, `-1` when there is none. -/
def Index (s : String) (c : Char) : Int :=
  if c ∈ s.data then ((s.data.takeWhile (fun x => x ≠ c)).length : Int) else -1

/-- The call `strings.LastIndex(s, c)` for a one-character separator: the
position of its last occurrence, `-1` when there is none. -/
def LastIndex (s : String) (c : Char) : Int :=
  if c ∈ s.data then
    (s.data.length : Int) - 1 - ((s.data.reverse.takeWhile (fun x => x ≠ c)).length : Int)
  else -1

/-- The slice `s[:idx]`. -/
def sliceTo (s : String) (idx : Int) : String := ⟨s.data.take idx.toNat⟩

/-- The slice `s[idx:]`. -/
def sliceFrom (s : String) (idx : Int) : String := ⟨s.data.drop idx.toNat⟩

/-- The length `len(s)` of a string, in bytes of its UTF-8 form. -/
def byteLen (s : String) : Nat := (s.data.map Char.utf8Size).sum

/-! ## Canonicalizers (`internal/match/match.go`) -/

/-- The assignment `set[value] = struct{}{}` on a set of strings. -/
def setInsert (set : List String) (value : String) : List String :=
  if value ∈ set then set else set ++ [value]

/-- The call `sort.Strings(out)`; Go orders strings bytewise, which on UTF-8
text is the lexicographic order of the characters. -/
def sortStrings (out : List String) : List String :=
  out.insertionSort (fun a b => a.data ≤ b.data)

/-- The function `uniqueSorted`. -/
def uniqueSorted (R : Runtime) (values : List String) : List String :=
  match values with
  | [] => []
  | _ => sortStrings (R.rangeKeys (values.foldl setInsert []))

/-- The function `normalizeID`. -/
def normalizeID (R : Runtime) (value : String) : String :=
  let value := TrimSpace value
  if value = "" then "" else ToLower R value

/-- The function `normalizedIDs`. -/
def normalizedIDs (R : Runtime) (values : List String) : List String :=
  uniqueSorted R ((values.map (normalizeID R)).filter (fun key => key ≠ ""))

/-- The function `normalizeHostname`. -/
def normalizeHostname (R : Runtime) (value : String) : String :=
  let value := TrimSpace value
  if value = "" then "" else ToLower R (TrimSuffixDot value)

/-- The test of `trimHexSuffix` on one character of the suffix. -/
def notLowerHex (r : Char) : Bool :=
  (r < '0' || r > '9') && (r < 'a' || r > 'f')

/-- The function `trimHexSuffix`. -/
def trimHexSuffix (value : String) : String :=
  let idx := LastIndex value '-'
  if idx ≤ 0 then value
  else
    let suffix := sliceFrom value (idx + 1)
    if byteLen suffix ≠ 8 then value
    else if suffix.data.any notLowerHex then value
    else sliceTo value idx

/-- The function `normalizedHostnames`. -/
def normalizedHostnames (R : Runtime) (value : String) : List String :=
  let full := normalizeHostname R value
  if full = "" then []
  else
    let idx := Index full '.'
    let short := if idx > 0 then sliceTo full idx else full
    let variants := [full]
    let variants := if short ≠ full then variants ++ [short] else variants
    let trimmed := trimHexSuffix full
    let trimmedShort := trimHexSuffix short
    let variants :=
      if trimmed ≠ full then
        if trimmedShort ≠ short then variants ++ [trimmed] ++ [trimmedShort]
        else variants ++ [trimmed]
      else if trimmedShort ≠ short then variants ++ [trimmedShort]
      else variants
    uniqueSorted R variants

/-- The function `labelValue`; `values[key]` is the empty string for an absent
key. -/
def labelValue (values : List (String × String)) (key : String) : String :=
  if values.isEmpty then ""
  else
    let value := TrimSpace ((values.lookup key).getD "")
    if value = "" then "" else value

/-- The function `normalizeMachineNameValue`. -/
def normalizeMachineNameValue (value : String) : String :=
  let value := TrimSpace value
  if value = "" then ""
  else
    let idx := LastIndex value '/'
    if idx ≥ 0 ∧ idx < (value.length : Int) - 1 then TrimSpace (sliceFrom value (idx + 1))
    else
      let idx := LastIndex value ':'
      if idx ≥ 0 ∧ idx < (value.length : Int) - 1 then TrimSpace (sliceFrom value (idx + 1))
      else value

/-- The label and annotation keys read by `nodeMachineNames`, in its order. -/
def machineNameKeys : List String :=
  ["cluster.x-k8s.io/machine", "machine.cattle.io/name", "machine.cattle.io/machine",
   "cattle.io/machine", "cattle.io/machine-name", "rke.cattle.io/machine",
   "rke.cattle.io/machine-name", "management.cattle.io/machine",
   "provisioning.cattle.io/machine", "fleet.cattle.io/machine",
   "elemental.cattle.io/machine-name", "elemental.cattle.io/machine"]

/-- The function `nodeMachineNames`. -/
def nodeMachineNames (R : Runtime) (node : K8sNode) : List String :=
  let keys := [node.MachineName] ++ machineNameKeys.map (labelValue node.Labels)
    ++ machineNameKeys.map (labelValue node.Annotations)
  let variants := keys.foldl
    (fun variants key =>
      if key = "" then variants
      else variants ++ normalizedHostnames R (normalizeMachineNameValue key)) []
  uniqueSorted R variants

/-- The function `normalizedIPs`. -/
def normalizedIPs (R : Runtime) (values : List String) : List String :=
  let keys := values.foldl
    (fun keys value =>
      let value := TrimSpace value
      if value = "" then keys
      else
        match R.parseIP value with
        | none => keys
        | some text => keys ++ [text]) []
  uniqueSorted R keys

/-- The function `nodeKey`. -/
def nodeKey (node : K8sNode) : String :=
  if node.UID ≠ "" then node.UID else node.Name

/-- The function `stableMatchSort`: `sort.SliceStable` with `left < right` on
the node names as its `less`, that is, a stable sort into an order in which no
name is followed by a smaller one. -/
def stableMatchSort (xs : List NodeMatch) : List NodeMatch :=
  xs.insertionSort (fun a b => a.Node.Name.data ≤ b.Node.Name.data)

/-! ## The index (`buildIndex`) -/

/-- The assignment `m[key] = append(m[key], node)`. -/
def mapAppend (m : String → List K8sNode) (key : String) (node : K8sNode) :
    String → List K8sNode :=
  fun k => if k = key then m k ++ [node] else m k

/-- The loop `for _, key := range keys { m[key] = append(m[key], node) }`. -/
def mapAppendAll (m : String → List K8sNode) (keys : List String) (node : K8sNode) :
    String → List K8sNode :=
  keys.foldl (fun m key => mapAppend m key node) m

/-- The index with six empty tables. -/
def emptyIndex : nodeIndex :=
  { byMachineID := fun _ => [], byProviderID := fun _ => [], byInternalIP := fun _ => [],
    byExternalIP := fun _ => [], byMachineName := fun _ => [], byHostname := fun _ => [] }

/-- The body of the loop of `buildIndex` for one node. -/
def indexNode (R : Runtime) (idx : nodeIndex) (node : K8sNode) : nodeIndex :=
  { byMachineID :=
      let key := normalizeID R node.MachineID
      if key ≠ "" then mapAppend idx.byMachineID key node else idx.byMachineID
    byProviderID :=
      let key := normalizeID R node.ProviderID
      if key ≠ "" then mapAppend idx.byProviderID key node else idx.byProviderID
    byInternalIP := mapAppendAll idx.byInternalIP (normalizedIPs R node.InternalIPs) node
    byExternalIP := mapAppendAll idx.byExternalIP (normalizedIPs R node.ExternalIPs) node
    byMachineName := mapAppendAll idx.byMachineName (nodeMachineNames R node) node
    byHostname := mapAppendAll idx.byHostname (normalizedHostnames R node.Name) node }

/-- The function `buildIndex`. -/
def buildIndex (R : Runtime) (nodes : List K8sNode) : nodeIndex :=
  nodes.foldl (indexNode R) emptyIndex

/-! ## The strategies -/

/-- The inner loop body of `matchByKeys`: one node found under `key`. -/
def addCandidate (method : Method) (reason key : String)
    (candidates : List (String × NodeMatch)) (node : K8sNode) : List (String × NodeMatch) :=
  let keyID := nodeKey node
  if candidates.any (fun e => e.1 = keyID) then candidates
  else candidates ++ [(keyID,
    { Node := node, Method := method, Confidence := methodConfidence method,
      Explanation := reason ++ "=" ++ key })]

/-- The map `candidates` of `matchByKeys` after its two nested loops, entries
in insertion order. -/
def collectCandidates (keys : List String) (index : String → List K8sNode) (method : Method)
    (reason : String) : List (String × NodeMatch) :=
  keys.foldl (fun candidates key => (index key).foldl (addCandidate method reason key) candidates) []

/-- The function `matchByKeys`. -/
def matchByKeys (R : Runtime) (keys : List String) (index : String → List K8sNode)
    (method : Method) (reason : String) : Option (List NodeMatch) :=
  if keys.isEmpty then none
  else
    let candidates := collectCandidates keys index method reason
    if candidates.isEmpty then none
    else some (stableMatchSort ((R.rangeEntries candidates).map Prod.snd))

/-- The function `matchByMachineID`. -/
def matchByMachineID (R : Runtime) (host : InventoryHost) (index : nodeIndex) :
    Option (List NodeMatch) :=
  matchByKeys R (normalizedIDs R [host.MachineID, host.SystemUUID]) index.byMachineID
    MethodMachineID "machine-id"

/-- The function `matchByProviderID`. -/
def matchByProviderID (R : Runtime) (host : InventoryHost) (index : nodeIndex) :
    Option (List NodeMatch) :=
  matchByKeys R (normalizedIDs R [host.ProviderID]) index.byProviderID
    MethodProviderID "provider-id"

/-- The function `matchByInternalIP`. -/
def matchByInternalIP (R : Runtime) (host : InventoryHost) (index : nodeIndex) :
    Option (List NodeMatch) :=
  matchByKeys R (normalizedIPs R host.IPs) index.byInternalIP MethodInternalIP "internal-ip"

/-- The function `matchByExternalIP`. -/
def matchByExternalIP (R : Runtime) (host : InventoryHost) (index : nodeIndex) :
    Option (List NodeMatch) :=
  matchByKeys R (normalizedIPs R host.IPs) index.byExternalIP MethodExternalIP "external-ip"

/-- The function `matchByMachineName`. -/
def matchByMachineName (R : Runtime) (host : InventoryHost) (index : nodeIndex) :
    Option (List NodeMatch) :=
  matchByKeys R (normalizedHostnames R host.MachineName) index.byMachineName
    MethodMachineName "machine-name"

/-- The function `matchByHostname`. -/
def matchByHostname (R : Runtime) (host : InventoryHost) (index : nodeIndex) :
    Option (List NodeMatch) :=
  match matchByMachineName R host index with
  | some found => some found
  | none =>
    let keys := normalizedHostnames R host.Hostname
    if keys.isEmpty then none
    else matchByKeys R keys index.byHostname MethodHostname "hostname"

/-! ## `Match` -/

/-- The method `addMatch`, on the result and the set `nodeSeen`.  Both branches
of the source read `matches[0]`, which panics on an empty list: `none`. -/
def addMatch (r : Result) (host : InventoryHost) (found : List NodeMatch)
    (nodeSeen : List String) : Option (Result × List String) :=
  match found with
  | [] => none
  | first :: _ =>
    let entry : HostMatch :=
      { Host := host, Candidates := found, Method := first.Method,
        Confidence := first.Confidence }
    let r :=
      if found.length = 1 then { r with Matches := r.Matches ++ [entry] }
      else { r with Ambiguous := r.Ambiguous ++ [entry] }
    some (r, found.foldl (fun seen candidate => setInsert seen (nodeKey candidate.Node)) nodeSeen)

/-- The function `collectUnmatched`. -/
def collectUnmatched (nodes : List K8sNode) (nodeSeen : List String) : List K8sNode :=
  nodes.filter (fun node => nodeKey node ∉ nodeSeen)

/-- The strategies tried by the loop of `Match` for one host, in the order of
the source: the candidates of the first one that answers. -/
def firstAnswer (R : Runtime) (host : InventoryHost) (index : nodeIndex) :
    Option (List NodeMatch) :=
  match matchByMachineID R host index with
  | some found => some found
  | none =>
  match matchByProviderID R host index with
  | some found => some found
  | none =>
  match matchByInternalIP R host index with
  | some found => some found
  | none =>
  match matchByExternalIP R host index with
  | some found => some found
  | none => matchByHostname R host index

/-- The body of the loop of `Match` for one host. -/
def matchHost (R : Runtime) (index : nodeIndex) (st : Result × List String)
    (host : InventoryHost) : Option (Result × List String) :=
  match firstAnswer R host index with
  | some found => addMatch st.1 host found st.2
  | none => some ({ st.1 with UnmatchedHosts := st.1.UnmatchedHosts ++ [host] }, st.2)

/-- The function `Match`; `none` stands for a run that panics. -/
def Match (R : Runtime) (hosts : List InventoryHost) (nodes : List K8sNode) : Option Result :=
  let index := buildIndex R nodes
  match hosts.foldlM (matchHost R index) (({} : Result), ([] : List String)) with
  | none => none
  | some (result, nodeSeen) =>
    some { result with
      UnmatchedNodes := result.UnmatchedNodes ++ collectUnmatched nodes nodeSeen }

/-! ## Two concrete runtimes -/

/-- Decimal value of a run of digits, `none` unless it is a field of a dotted
quad: one to three digits, no leading zero, at most 255. -/
def quadField (cs : List Char) : Option Nat :=
  if cs.isEmpty || cs.length > 3 || !cs.all Char.isDigit then none
  else if cs.length > 1 && cs.head? = some '0' then none
  else
    let n := cs.foldl (fun n c => 10 * n + (c.toNat - 48)) 0
    if n ≤ 255 then some n else none

/-- A parser of dotted-quad IPv4 text, standing for `net.ParseIP` in the
concrete runtimes (IPv6 text is not recognised by it). -/
def parseDottedQuad (s : String) : Option String :=
  match (s.data.splitOn '.').map quadField with
  | [some _, some _, some _, some _] => some s
  | _ => none

/-- A runtime in which `range` visits a map in insertion order. -/
def Runtime.inOrder : Runtime :=
  { rangeKeys := fun l => l
    rangeKeys_perm := fun l => List.Perm.refl l
    rangeEntries := fun l => l
    rangeEntries_perm := fun l => List.Perm.refl l
    toLowerRune := Char.toLower
    toLowerRune_ascii := fun _ _ => rfl
    toLowerRune_not_upper := by
      intro c
      by_cases h : c.isUpper = true
      · have hc : c = Char.ofNat c.toNat := (Char.ofNat_toNat c).symm
        have hr : 65 ≤ c.toNat ∧ c.toNat ≤ 90 := by
          simp only [Char.isUpper, Bool.and_eq_true, decide_eq_true_eq, ge_iff_le,
            UInt32.le_def, Fin.le_def] at h
          exact h
        rw [hc]
        obtain ⟨h1, h2⟩ := hr
        interval_cases c.toNat <;> decide
      · have h2 : c.isUpper = false := by simpa using h
        have : Char.toLower c = c := by
          unfold Char.toLower
          have h3 : ¬ (c.toNat ≥ 65 ∧ c.toNat ≤ 90) := by
            intro h4
            apply h
            simp only [Char.isUpper, Bool.and_eq_true, decide_eq_true_eq, ge_iff_le,
              UInt32.le_def, Fin.le_def]
            exact h4
          simp only [h3, if_false]
        rw [this, h2]
    parseIP := parseDottedQuad }

/-- A runtime in which `range` visits a map in reverse insertion order. -/
def Runtime.reversed : Runtime :=
  { Runtime.inOrder with
    rangeKeys := fun l => l.reverse
    rangeKeys_perm := fun l => List.reverse_perm l
    rangeEntries := fun l => l.reverse
    rangeEntries_perm := fun l => List.reverse_perm l }

/-! ## Hexadecimal digits (`internal/k8s/client.go`) -/

/-- The function `isHexRune` (`internal/k8s/client.go`): a hexadecimal digit
of either case. -/
def isHexRune (r : Char) : Bool :=
  (r ≥ '0' && r ≤ '9') || (r ≥ 'a' && r ≤ 'f') || (r ≥ 'A' && r ≤ 'F')

/-- The hexadecimal digits. -/
def hexRunes : List Char := "0123456789abcdefABCDEF".data

/-! ## Vocabulary of the statements -/

/-- The table of the index a strategy looks its keys up in. -/
def table : Method → nodeIndex → String → List K8sNode
  | MethodMachineID, index => index.byMachineID
  | MethodProviderID, index => index.byProviderID
  | MethodInternalIP, index => index.byInternalIP
  | MethodExternalIP, index => index.byExternalIP
  | MethodMachineName, index => index.byMachineName
  | MethodHostname, index => index.byHostname

/-- The canonical keys of a host for a strategy: what `matchByMachineID`, ...,
`matchByHostname` pass to `matchByKeys`. -/
def hostKeys (R : Runtime) : Method → InventoryHost → List String
  | MethodMachineID, host => normalizedIDs R [host.MachineID, host.SystemUUID]
  | MethodProviderID, host => normalizedIDs R [host.ProviderID]
  | MethodInternalIP, host => normalizedIPs R host.IPs
  | MethodExternalIP, host => normalizedIPs R host.IPs
  | MethodMachineName, host => normalizedHostnames R host.MachineName
  | MethodHostname, host => normalizedHostnames R host.Hostname

/-- The keys under which `buildIndex` files a node in the table of a
strategy. -/
def nodeKeys (R : Runtime) : Method → K8sNode → List String
  | MethodMachineID, node =>
    if normalizeID R node.MachineID ≠ "" then [normalizeID R node.MachineID] else []
  | MethodProviderID, node =>
    if normalizeID R node.ProviderID ≠ "" then [normalizeID R node.ProviderID] else []
  | MethodInternalIP, node => normalizedIPs R node.InternalIPs
  | MethodExternalIP, node => normalizedIPs R node.ExternalIPs
  | MethodMachineName, node => nodeMachineNames R node
  | MethodHostname, node => normalizedHostnames R node.Name

/-- The strategy of a method: the lookup that `matchByMachineID`, ...,
`matchByHostname` make for it. -/
def strategy (R : Runtime) (m : Method) (host : InventoryHost) (index : nodeIndex) :
    Option (List NodeMatch) :=
  matchByKeys R (hostKeys R m host) (table m index) m m.text

/-- The fixed priority order of the strategies. -/
def strategyOrder : List Method :=
  [MethodMachineID, MethodProviderID, MethodInternalIP, MethodExternalIP, MethodMachineName,
   MethodHostname]

/-- Whether looking the host's canonical keys of a strategy up in its table
returns at least one node. -/
def lookupHits (R : Runtime) (index : nodeIndex) (host : InventoryHost) (m : Method) : Bool :=
  (hostKeys R m host).any (fun key => !(table m index key).isEmpty)

/-- The first strategy, in priority order, whose lookup returns at least one
node. -/
def winningStrategy (R : Runtime) (index : nodeIndex) (host : InventoryHost) : Option Method :=
  strategyOrder.find? (lookupHits R index host)

/-- The entry `addMatch` appends for a host: the candidates of its first
answering strategy, with the method and confidence of the first of them. -/
def entryOf (R : Runtime) (index : nodeIndex) (host : InventoryHost) : Option HostMatch :=
  match firstAnswer R host index with
  | some (first :: rest) =>
    some { Host := host, Candidates := first :: rest, Method := first.Method,
           Confidence := first.Confidence }
  | _ => none

/-- Whether a node key is the key of a candidate of one of the hosts. -/
def seenBy (R : Runtime) (index : nodeIndex) (hosts : List InventoryHost) (key : String) : Bool :=
  hosts.any (fun host =>
    ((firstAnswer R host index).getD []).any (fun c => nodeKey c.Node = key))

/-- The methods and candidate nodes of a list of entries. -/
def entryNodes (entries : List HostMatch) : List (Method × List K8sNode) :=
  entries.map (fun e => (e.Method, e.Candidates.map (fun c => c.Node)))

/-! ## Concrete inputs -/

/-- A node with a machine-ID. -/
def nodeA : K8sNode := { Name := "node-a", UID := "a", MachineID := "mid-1" }

/-- A node with the same machine-ID up to case, and an internal IP. -/
def nodeB : K8sNode :=
  { Name := "node-b", UID := "b", MachineID := "MID-1", InternalIPs := ["10.0.0.2"] }

/-- A host with the machine-ID of `nodeA` and `nodeB` and the IP of `nodeB`. -/
def hostAB : InventoryHost := { ID := "host-1", MachineID := "mid-1", IPs := ["10.0.0.2"] }

/-- Two nodes with the same name and machine-ID and different UIDs. -/
def twinOne : K8sNode := { Name := "node", UID := "1", MachineID := "mid-1" }

/-- The second of the two nodes with the same name. -/
def twinTwo : K8sNode := { Name := "node", UID := "2", MachineID := "mid-1" }

/-- The host of `TestMatchHostnameHexSuffix`. -/
def suffixHost : InventoryHost :=
  { ID := "host-1", Hostname := "smtl001-w-asus-1c32d8c7-cd47-2da5-19b7-bcfce773e4da" }

/-- The node of `TestMatchHostnameHexSuffix`. -/
def suffixNode : K8sNode :=
  { Name := "smtl001-w-asus-1c32d8c7-cd47-2da5-19b7-bcfce773e4da-62c86a9b", UID := "node-1" }

/-- The host of `TestMatchMachineNameFromNodeLabels`. -/
def labelHost : InventoryHost :=
  { ID := "host-1", MachineName := "shared-mtl-001-a9070xt-b26pf-v24bp" }

/-- The node of `TestMatchMachineNameFromNodeLabels`. -/
def labelNode : K8sNode :=
  { Name := "node-1", UID := "node-1",
    Labels := [("cluster.x-k8s.io/machine", "shared-mtl-001-a9070xt-b26pf-v24bp")] }

/-! ## The hostname variants in the words of the specification -/

/-- In the words of the specification: `s` cut at its first `.` (all of `s`
when it has none). -/
def specShort (s : String) : String := ⟨s.data.takeWhile (fun c => c ≠ '.')⟩

/-- Exactly eight hexadecimal characters. -/
def isHexSegment (seg : String) : Bool := seg.length = 8 && seg.data.all isHexRune

/-- In the words of the specification: `s` without the segment after its last
`-`, when that segment is exactly eight hexadecimal characters. -/
def specStrip (s : String) : String :=
  let idx := LastIndex s '-'
  if idx ≥ 0 ∧ isHexSegment (sliceFrom s (idx + 1)) = true then sliceTo s idx else s

/-- The short form with the guard of the code: `s` cut at its first `.`, unless
`s` begins with it. -/
def guardedShort (s : String) : String :=
  if s.data.head? = some '.' then s else specShort s

/-- The suffix stripping with the guard of the code: `s` without the segment
after its last `-`, when that segment is exactly eight hexadecimal characters
and something precedes the `-`. -/
def guardedStrip (s : String) : String :=
  if sliceTo s (LastIndex s '-') = "" then s else specStrip s

/-! ## The machine-name canonicalizer (`internal/k8s/client.go`, `internal/rancher/normalize.go`) -/

/-- The function `normalizeMachineName` of `internal/k8s/client.go`. -/
def k8s.normalizeMachineName (value : String) : String :=
  let value := TrimSpace value
  if value = "" then ""
  else
    let idx := LastIndex value '/'
    if idx ≥ 0 ∧ idx < (value.length : Int) - 1 then TrimSpace (sliceFrom value (idx + 1))
    else
      let idx := LastIndex value ':'
      if idx ≥ 0 ∧ idx < (value.length : Int) - 1 then TrimSpace (sliceFrom value (idx + 1))
      else value

/-- The function `normalizeMachineName` of `internal/rancher/normalize.go`. -/
def rancher.normalizeMachineName (value : String) : String :=
  let value := TrimSpace value
  if value = "" then ""
  else
    let idx := LastIndex value '/'
    if idx ≥ 0 ∧ idx < (value.length : Int) - 1 then TrimSpace (sliceFrom value (idx + 1))
    else
      let idx := LastIndex value ':'
      if idx ≥ 0 ∧ idx < (value.length : Int) - 1 then TrimSpace (sliceFrom value (idx + 1))
      else value

/-- In the words of the specification: the trimmed value when it contains
neither `/` nor `:`, otherwise what follows the last occurrence of `/` or `:`
in the trimmed value. -/
def specMachineName (value : String) : String :=
  let value := TrimSpace value
  if '/' ∉ value.data ∧ ':' ∉ value.data then value
  else ⟨(value.data.reverse.takeWhile (fun c => c ≠ '/' ∧ c ≠ ':')).reverse⟩

/-! ## The machine name of a node (`internal/k8s/client.go`) -/

/-- The value `values[key]` of a `map[string]string`: empty for an absent key. -/
def mapGet (values : List (String × String)) (key : String) : String :=
  (values.lookup key).getD ""

/-- The statement `for i, r := range value`: the characters of a string, each
with the byte offset at which it starts. -/
def rangeString : List Char → Nat → List (Nat × Char)
  | [], _ => []
  | r :: rest, offset => (offset, r) :: rangeString rest (offset + r.utf8Size)

/-- The test of `isUUID` on the character `r` at offset `i`. -/
def uuidRune (p : Nat × Char) : Bool :=
  if p.1 = 8 ∨ p.1 = 13 ∨ p.1 = 18 ∨ p.1 = 23 then p.2 = '-' else isHexRune p.2

/-- The function `isUUID`. -/
def isUUID (value : String) : Bool :=
  if byteLen value ≠ 36 then false else (rangeString value.data 0).all uuidRune

/-- The function `uniqueStrings`: the state of its loop is the set `seen` and
the slice `out`. -/
def uniqueStrings (values : List String) : List String :=
  (values.foldl
    (fun (st : List String × List String) value =>
      if value = "" then st
      else if value ∈ st.1 then st
      else (setInsert st.1 value, st.2 ++ [value]))
    (([] : List String), ([] : List String))).2

/-- One loop of `machineNameCandidates`, over the labels or the annotations. -/
def appendCandidates (values : List (String × String)) (candidates : List String) :
    List String :=
  machineNameKeys.foldl
    (fun candidates key =>
      let value := TrimSpace (mapGet values key)
      if value ≠ "" then candidates ++ [k8s.normalizeMachineName value] else candidates)
    candidates

/-- The function `machineNameCandidates`. -/
def machineNameCandidates (labels annotations : List (String × String)) : List String :=
  uniqueStrings (appendCandidates annotations (appendCandidates labels []))

/-- The function `nodeMachineName`. -/
def nodeMachineName (labels annotations : List (String × String)) : String :=
  let candidates := machineNameCandidates labels annotations
  match candidates.find? (fun candidate => candidate ≠ "" && !isUUID candidate) with
  | some candidate => candidate
  | none => candidates.head?.getD ""

/-- In the words of the specification: 36 characters in the 8-4-4-4-12
pattern, a `-` at the positions 8, 13, 18 and 23 and a hexadecimal digit at
every other. -/
def uuidShaped (value : String) : Bool :=
  value.length = 36 && value.data.enum.all uuidRune

/-- In the words of the specification: the canonicalized non-blank values of
the known machine-name keys, in key order. -/
def specValues (values : List (String × String)) : List String :=
  ((machineNameKeys.map (mapGet values)).filter (fun value => TrimSpace value ≠ "")).map
    k8s.normalizeMachineName

/-- In the words of the specification: the first candidate that is not
UUID-shaped, the candidates being taken first from the labels and then from
the annotations; the first candidate when all are UUID-shaped; the empty
string when there is none. -/
def specNodeMachineName (labels annotations : List (String × String)) : String :=
  let candidates := specValues labels ++ specValues annotations
  match candidates.find? (fun candidate => !uuidShaped candidate) with
  | some candidate => candidate
  | none => candidates.head?.getD ""

/-! ## Raw records (`internal/rancher/normalize.go`) -/

/-- A value held in a `map[string]any`: what `encoding/json` decodes with
`UseNumber` (nil, bool, `json.Number`, string, `[]any`, `map[string]any`), and
the two further types the type switches of the package name, `[]string` and
`map[string]string`.  A map is the list of its entries. -/
inductive Value where
  | null
  | bool (b : Bool)
  | number (text : String)
  | str (s : String)
  | list (items : List Value)
  | object (fields : List (String × Value))
  | strings (items : List String)
  | stringMap (fields : List (String × String))

/-- The entries of a map in the order in which `fmt` prints them: by key. -/
def sortEntries (entries : List (String × String)) : List (String × String) :=
  entries.insertionSort (fun a b => a.1.data ≤ b.1.data)

/-- The text `key:value` of one printed map entry. -/
def entryText (entry : String × String) : String := entry.1 ++ ":" ++ entry.2

mutual
/-- The call `fmt.Sprintf("%v", value)`. -/
def sprint : Value → String
  | .null => "<nil>"
  | .bool b => if b then "true" else "false"
  | .number text => text
  | .str s => s
  | .list items => "[" ++ " ".intercalate (sprintItems items) ++ "]"
  | .object fields =>
    "map[" ++ " ".intercalate ((sortEntries (sprintFields fields)).map entryText) ++ "]"
  | .strings items => "[" ++ " ".intercalate items ++ "]"
  | .stringMap fields => "map[" ++ " ".intercalate ((sortEntries fields).map entryText) ++ "]"
/-- The texts of the items of a `[]any`. -/
def sprintItems : List Value → List String
  | [] => []
  | item :: rest => sprint item :: sprintItems rest
/-- The keys and value texts of the entries of a `map[string]any`. -/
def sprintFields : List (String × Value) → List (String × String)
  | [] => []
  | (key, value) :: rest => (key, sprint value) :: sprintFields rest
end

/-- The call `strings.Split(path, ".")`. -/
def splitDots (path : String) : List String :=
  (path.data.splitOn '.').map String.mk

/-- The lookup `asMap[part]` in a `map[string]any`. -/
def lookupField : List (String × Value) → String → Option Value
  | [], _ => none
  | (key, value) :: rest, part => if key = part then some value else lookupField rest part

/-- The loop of `getValue` over the parts of the path. -/
def walk : Value → List String → Option Value
  | current, [] => some current
  | .object asMap, part :: rest =>
    match lookupField asMap part with
    | some next => walk next rest
    | none => none
  | _, _ :: _ => none

/-- The function `getValue`; `(nil, false)` is `none`. -/
def getValue (raw : List (String × Value)) (path : String) : Option Value :=
  walk (.object raw) (splitDots path)

/-- The function `getString`; a result with `false` is `none`. -/
def getString (raw : List (String × Value)) (path : String) : Option String :=
  match getValue raw path with
  | none => none
  | some (.str typed) => if typed ≠ "" then some typed else none
  | some typed => some (sprint typed)

/-- The function `firstString`. -/
def firstString (raw : List (String × Value)) : List String → String
  | [] => ""
  | path :: rest =>
    match getString raw path with
    | some value => value
    | none => firstString raw rest

/-! ## Requests and retries (`internal/rancher/client.go`, `management.go`) -/

/-- An `error` value: an `*APIError` with its status code and wrapped error, or
any other error. -/
inductive GoError where
  | api (StatusCode : Int) (Err : String)
  | other (msg : String)
  deriving DecidableEq

/-- What happens to one request: `httpClient.Do` fails, or the service answers
with a status and a body, which the JSON decoder accepts (`some`) or not. -/
inductive Reply (α : Type) where
  | failed (msg : String)
  | answered (StatusCode : Int) (body : Option α)

/-- What a call leaves behind: the requests issued and the waits made. -/
inductive Event where
  | request
  | sleep (milliseconds : Nat)
  deriving DecidableEq

/-- The type `listResponse`. -/
structure listResponse where
  Data : List (List (String × Value)) := []
  Links : List (String × String) := []
  PaginationNext : String := ""

/-- The constant `defaultRetries`. -/
def defaultRetries : Nat := 3

/-- The text of the error `fmt.Errorf("status %d", resp.StatusCode)`. -/
def statusError (StatusCode : Int) : String := "status " ++ toString StatusCode

/-- The status checks and the decoding shared by `doRequest` and
`doJSONRequest`; the text of the decoder's error is abbreviated as `decode`. -/
def readReply {α : Type} (reply : Reply α) : Except GoError α :=
  match reply with
  | .failed msg => .error (.other msg)
  | .answered status body =>
    if status = 401 ∨ status = 403 then .error (.api status (statusError status))
    else if status < 200 ∨ status ≥ 300 then .error (.api status (statusError status))
    else
      match body with
      | none => .error (.api status "decode")
      | some payload => .ok payload

/-- The function `doRequest`, given what happens to the request. -/
def doRequest (reply : Reply listResponse) : Except GoError listResponse := readReply reply

/-- The function `doJSONRequest` with a `*map[string]any` as `out`, given what
happens to the request. -/
def doJSONRequest (reply : Reply (List (String × Value))) :
    Except GoError (List (String × Value)) := readReply reply

/-- The function `shouldRetry`. -/
def shouldRetry : GoError → Bool
  | .api StatusCode _ => StatusCode ≥ 500
  | .other _ => true

/-- The function `backoff`, in milliseconds. -/
def backoff (attempt : Int) : Nat :=
  if attempt ≤ 0 then 250 else if attempt = 1 then 600 else 1200

/-- The loop of `fetchPage` from one attempt on, `remaining` being
`defaultRetries - attempt`; `server` tells what happens to each request. -/
def fetchPageFrom (server : Nat → Reply listResponse) :
    Nat → Nat → Option GoError → List Event → Except GoError listResponse × List Event
  | 0, _, lastErr, trace => (.error (lastErr.getD (.other "rancher request failed")), trace)
  | remaining + 1, attempt, _, trace =>
    match doRequest (server attempt) with
    | .error err =>
      if shouldRetry err then
        fetchPageFrom server remaining (attempt + 1) (some err)
          (trace ++ [.request, .sleep (backoff attempt)])
      else (.error err, trace ++ [.request])
    | .ok resp => (.ok resp, trace ++ [.request])

/-- The function `fetchPage`: its result and the requests and waits it made. -/
def fetchPage (server : Nat → Reply listResponse) :
    Except GoError listResponse × List Event :=
  fetchPageFrom server defaultRetries 0 none []

/-- The retry loop of `GenerateKubeconfig` from one attempt on. -/
def generateFrom (server : Nat → Reply (List (String × Value))) :
    Nat → Nat → Option GoError → List Event →
      Except GoError (List (String × Value)) × List Event
  | 0, _, lastErr, trace =>
    match lastErr with
    | some err => (.error err, trace)
    | none => (.ok [], trace)
  | remaining + 1, attempt, _, trace =>
    match doJSONRequest (server attempt) with
    | .error err =>
      if shouldRetry err then
        generateFrom server remaining (attempt + 1) (some err)
          (trace ++ [.request, .sleep (backoff attempt)])
      else (.error err, trace ++ [.request])
    | .ok payload => (.ok payload, trace ++ [.request])

/-- The part of a `Client` that `GenerateKubeconfig` reads. -/
structure Client where
  baseURL : Option String
  token : String := ""

/-- The function `GenerateKubeconfig`: its result, the text whose bytes it
returns or an error, and the requests and waits it made. -/
def GenerateKubeconfig (c : Client) (server : Nat → Reply (List (String × Value)))
    (clusterID : String) : Except GoError String × List Event :=
  if clusterID = "" then (.error (.other "cluster ID is required"), [])
  else if c.baseURL = none then (.error (.other "rancher base URL is required"), [])
  else
    match generateFrom server defaultRetries 0 none [] with
    | (.error err, trace) => (.error err, trace)
    | (.ok payload, trace) =>
      let config := firstString payload ["config", "kubeconfig"]
      if config = "" then (.error (.other "rancher kubeconfig response missing config"), trace)
      else (.ok config, trace)

/-- The requests and waits of `k` failed attempts that are retried, the first
of them being attempt number `attempt`. -/
def retryTrace : Nat → Nat → List Event
  | _, 0 => []
  | attempt, k + 1 => [.request, .sleep (backoff attempt)] ++ retryTrace (attempt + 1) k

/-- The number of requests in a trace. -/
def requestCount (trace : List Event) : Nat := trace.count .request

/-- A reply that is a transport-level failure or has a status of 500 or more. -/
def Reply.retryable {α : Type} : Reply α → Bool
  | .failed _ => true
  | .answered StatusCode _ => StatusCode ≥ 500

/-! ## The machine names by node (`internal/rancher/machines.go`) -/

/-- The type `Machine`. -/
structure Machine where
  ID : String := ""
  Name : String := ""
  ClusterName : String := ""
  NodeName : String := ""
  ProviderID : String := ""
  Labels : List (String × String) := []
  Annotations : List (String × String) := []

/-- The assignment `m[key] = value` on a `map[string]string`, a map being the
function from a key to its value, `none` for an absent key. -/
def mapSet (m : String → Option String) (key value : String) : String → Option String :=
  fun k => if k = key then some value else m k

/-- The function `MachineNameMap`. -/
def MachineNameMap (machines : List Machine) (clusterName : String) : String → Option String :=
  machines.foldl
    (fun mapByNode machine =>
      if clusterName ≠ "" ∧ machine.ClusterName ≠ "" ∧ machine.ClusterName ≠ clusterName then
        mapByNode
      else if machine.NodeName = "" ∨ machine.Name = "" then mapByNode
      else mapSet mapByNode machine.NodeName machine.Name)
    (fun _ => none)

/-! ## The kubeconfig cache (`internal/rancher/kubeconfig_cache.go`) -/

/-- A file of the disk: its bytes and its modification time, in nanoseconds. -/
structure CacheFile where
  data : List (Fin 256)
  modTime : Int

/-- The state of the file system and the clock: the file at each path, the
time now in nanoseconds, and the paths on which an operation fails with a
permission error. -/
structure Disk where
  files : String → Option CacheFile
  now : Int
  denied : String → Bool

/-- The error of an operation of the file system. -/
inductive FsError where
  | notExist
  | permission
  deriving DecidableEq

/-- What `kubeconfigCachePath` computes from outside the program: the directory
`filepath.Join(base, "elemental-node-map")` and, for a key, the file name
`kubeconfig-<hex of the first 16 bytes of sha256(key)>.yaml`. -/
structure CacheEnv where
  dir : String
  name : String → String

/-- The function `kubeconfigCachePath`; it never returns an error. -/
def kubeconfigCachePath (E : CacheEnv) (key : String) : String :=
  E.dir ++ "/" ++ E.name key

/-- The call `os.Stat(path)`, of which only the modification time is used. -/
def Stat (d : Disk) (path : String) : Except FsError Int :=
  if d.denied path then .error .permission
  else
    match d.files path with
    | none => .error .notExist
    | some file => .ok file.modTime

/-- The call `os.ReadFile(path)`. -/
def ReadFile (d : Disk) (path : String) : Except FsError (List (Fin 256)) :=
  if d.denied path then .error .permission
  else
    match d.files path with
    | none => .error .notExist
    | some file => .ok file.data

/-- The call `os.MkdirAll(dir, 0700)`; directories are not part of the state. -/
def MkdirAll (d : Disk) (dir : String) : Except FsError Disk :=
  if d.denied dir then .error .permission else .ok d

/-- The call `os.WriteFile(path, data, 0600)`: the file at `path` gets the bytes
`data` and the time now as its modification time. -/
def WriteFile (d : Disk) (path : String) (data : List (Fin 256)) : Except FsError Disk :=
  if d.denied path then .error .permission
  else
    .ok { d with files := fun p => if p = path then some ⟨data, d.now⟩ else d.files p }

/-- The four results of `LoadCachedKubeconfig` other than the error; `data` is
`none` for `nil`. -/
structure Loaded where
  data : Option (List (Fin 256))
  age : Int
  hit : Bool
  deriving DecidableEq

/-- The function `LoadCachedKubeconfig`; `time.Since(info.ModTime())` is the
time now less the modification time. -/
def LoadCachedKubeconfig (E : CacheEnv) (d : Disk) (key : String) (ttl : Int) :
    Except FsError Loaded :=
  let path := kubeconfigCachePath E key
  match Stat d path with
  | .error err => if err = .notExist then .ok ⟨none, 0, false⟩ else .error err
  | .ok modTime =>
    let age := d.now - modTime
    if ttl > 0 ∧ age > ttl then .ok ⟨none, age, false⟩
    else
      match ReadFile d path with
      | .error err => .error err
      | .ok data => .ok ⟨some data, age, true⟩

/-- The function `SaveCachedKubeconfig`: its error, or the disk after it; the
directory `filepath.Dir(path)` is the directory of the cache. -/
def SaveCachedKubeconfig (E : CacheEnv) (d : Disk) (key : String) (data : List (Fin 256)) :
    Except FsError Disk :=
  let path := kubeconfigCachePath E key
  match MkdirAll d E.dir with
  | .error err => .error err
  | .ok d1 => WriteFile d1 path data

/-- The disk after the time `elapsed` has passed. -/
def Disk.elapse (d : Disk) (elapsed : Int) : Disk :=
  { d with now := d.now + elapsed }

/-- A disk without files, at time 0, on which no operation is refused. -/
def emptyDisk : Disk :=
  { files := fun _ => none, now := 0, denied := fun _ => false }

/-- An environment whose cache directory is `/cache/elemental-node-map` and
whose file name for a key is made of the key itself. -/
def plainEnv : CacheEnv :=
  { dir := "/cache/elemental-node-map", name := fun key => "kubeconfig-" ++ key ++ ".yaml" }

/-- A second host with the machine-ID of `nodeA`. -/
def hostTwo : InventoryHost := { ID := "host-2", MachineID := "mid-1" }

/-! ## Reading raw records (`internal/rancher/normalize.go`) -/

/-- The dotted path `k1.k2...kn` of a list of segments. -/
def joinDots (segments : List String) : String :=
  ⟨[ '.' ].intercalate (segments.map String.data)⟩

/-- In the words of the specification: the path resolves from a value to a leaf
when the value is a keyed container holding the first segment and, for a
further segment, the value under it resolves along the remaining segments. -/
inductive Reaches : Value → List String → Value → Prop where
  | leaf (fields : List (String × Value)) (key : String) (found : Value) :
      lookupField fields key = some found → Reaches (.object fields) [key] found
  | step (fields : List (String × Value)) (key : String) (next : Value) (rest : List String)
      (found : Value) :
      lookupField fields key = some next → rest ≠ [] → Reaches next rest found →
      Reaches (.object fields) (key :: rest) found

/-- The function `filterStrings`. -/
def filterStrings (values : List String) : List String :=
  values.foldl
    (fun out value =>
      let trimmed := TrimSpace value
      if trimmed ≠ "" then out ++ [trimmed] else out)
    []

/-- The keys tried by `extractIPStringsFromMap` and
`extractIPStringsFromStringMap`, in their order. -/
def ipKeys : List String := ["address", "ip", "ipAddress", "value"]

/-- The loop of `extractIPStringsFromMap` over the keys. -/
def extractIPStringsFromMapLoop (value : List (String × Value)) : List String → List String
  | [] => []
  | key :: rest =>
    match lookupField value key with
    | some raw => [sprint raw]
    | none => extractIPStringsFromMapLoop value rest

/-- The function `extractIPStringsFromMap`. -/
def extractIPStringsFromMap (value : List (String × Value)) : List String :=
  extractIPStringsFromMapLoop value ipKeys

/-- The loop of `extractIPStringsFromStringMap` over the keys. -/
def extractIPStringsFromStringMapLoop (value : List (String × String)) :
    List String → List String
  | [] => []
  | key :: rest =>
    match value.lookup key with
    | some raw => [raw]
    | none => extractIPStringsFromStringMapLoop value rest

/-- The function `extractIPStringsFromStringMap`. -/
def extractIPStringsFromStringMap (value : List (String × String)) : List String :=
  extractIPStringsFromStringMapLoop value ipKeys

mutual
/-- The function `extractIPStrings`. -/
def extractIPStrings : Value → List String
  | .strings typed => typed
  | .list typed => extractIPItems typed
  | .object typed => extractIPStringsFromMap typed
  | .stringMap typed => extractIPStringsFromStringMap typed
  | .str typed => if typed = "" then [] else [typed]
  | _ => []
/-- The loop of `extractIPStrings` over the items of a `[]any`. -/
def extractIPItems : List Value → List String
  | [] => []
  | item :: rest => extractIPStrings item ++ extractIPItems rest
end

/-- The function `getIPSlice`; a result with `false` is `none`. -/
def getIPSlice (raw : List (String × Value)) (path : String) : Option (List String) :=
  match getValue raw path with
  | none => none
  | some value =>
    let ips := filterStrings (extractIPStrings value)
    if ips.length = 0 then none else some ips

/-- In the words of the specification: the value of the first key present
among `address`, `ip`, `ipAddress`, `value`, in that order. -/
def specEntryIP (fields : List (String × Value)) : Option Value :=
  match lookupField fields "address" with
  | some found => some found
  | none =>
    match lookupField fields "ip" with
    | some found => some found
    | none =>
      match lookupField fields "ipAddress" with
      | some found => some found
      | none => lookupField fields "value"

/-- In the words of the specification: the texts trimmed, the blank ones
dropped, the order kept. -/
def specTrimmed (values : List String) : List String :=
  (values.map TrimSpace).filter (fun value => value ≠ "")

/-- The function `getStringMap`; a result with `false` is `none`. -/
def getStringMap (raw : List (String × Value)) (path : String) :
    Option (List (String × String)) :=
  match getValue raw path with
  | none => none
  | some (.stringMap typed) => if typed.length > 0 then some typed else none
  | some (.object typed) =>
    let out := typed.map (fun entry => (entry.1, sprint entry.2))
    if out.length = 0 then none else some out
  | some _ => none

/-- The function `firstStringMap`; `nil` is the empty list. -/
def firstStringMap (raw : List (String × Value)) : List String → List (String × String)
  | [] => []
  | path :: rest =>
    match getStringMap raw path with
    | some value => value
    | none => firstStringMap raw rest

/-- The assignment `merged[key] = value` on a map given as the list of its
entries. -/
def entriesSet (merged : List (String × String)) (key value : String) :
    List (String × String) :=
  if merged.any (fun entry => entry.1 = key) then
    merged.map (fun entry => if entry.1 = key then (key, value) else entry)
  else merged ++ [(key, value)]

/-- The function `mergeLabels`; `nil` is the empty list. -/
def mergeLabels (maps : List (List (String × String))) : List (String × String) :=
  maps.foldl (fun merged m => m.foldl (fun merged entry => entriesSet merged entry.1 entry.2) merged)
    []

/-- The function `normalizeMachine`. -/
def normalizeMachine (raw : List (String × Value)) : Machine :=
  { ID := firstString raw ["id", "metadata.name"]
    Name := rancher.normalizeMachineName
      (firstString raw ["metadata.name", "name", "id", "spec.machineName", "spec.machine.name"])
    ClusterName := firstString raw
      ["spec.clusterName", "status.clusterName",
       "metadata.labels.cluster.x-k8s.io/cluster-name",
       "metadata.labels.provisioning.cattle.io/cluster-name",
       "metadata.labels.cluster-name", "metadata.labels.cluster"]
    NodeName := rancher.normalizeMachineName
      (firstString raw
        ["status.nodeRef.name", "status.nodeName", "spec.nodeRef.name", "spec.nodeName",
         "status.node"])
    ProviderID := firstString raw ["spec.providerID", "status.providerID"]
    Labels := mergeLabels [firstStringMap raw ["metadata.labels"]]
    Annotations := firstStringMap raw ["metadata.annotations"] }

/-- A raw machine record whose only cluster name is the label
`cluster.x-k8s.io/cluster-name`. -/
def labelledMachine (c : String) : List (String × Value) :=
  [("metadata", .object
    [("name", .str "machine-1"),
     ("labels", .object [("cluster.x-k8s.io/cluster-name", .str c)])])]

/-- A raw machine record whose only cluster name is the label
`provisioning.cattle.io/cluster-name`. -/
def provisionedMachine (c : String) : List (String × Value) :=
  [("metadata", .object
    [("name", .str "machine-1"),
     ("labels", .object [("provisioning.cattle.io/cluster-name", .str c)])])]

/-! ## Resolving a cluster (`internal/rancher/management.go`) -/

/-- The type `Cluster`. -/
structure Cluster where
  ID : String := ""
  Name : String := ""
  deriving DecidableEq

/-- The function `normalizeCluster`. -/
def normalizeCluster (raw : List (String × Value)) : Cluster :=
  { ID := firstString raw ["id"], Name := firstString raw ["name"] }

/-- The function `joinClusterIDs`. -/
def joinClusterIDs (clusters : List Cluster) : String :=
  ", ".intercalate
    (clusters.foldl (fun parts cluster => if cluster.ID ≠ "" then parts ++ [cluster.ID] else parts)
      [])

/-- The errors of `ResolveCluster`: `rancher cluster is required`, the error of
`ListClusters`, `cluster %q not found` and `multiple clusters named %q: %s`,
the last two with their arguments. -/
inductive ResolveError where
  | required
  | listing (err : GoError)
  | notFound (identifier : String)
  | multiple (identifier : String) (ids : String)
  deriving DecidableEq

/-- The loop of `ResolveCluster` over the clusters: the cluster it returns
from, or the name matches it has collected at the end. -/
def resolveLoop (identifier : String) : List Cluster → List Cluster → Cluster ⊕ List Cluster
  | [], nameMatches => .inr nameMatches
  | cluster :: rest, nameMatches =>
    if cluster.ID = identifier then .inl cluster
    else if cluster.Name = identifier then resolveLoop identifier rest (nameMatches ++ [cluster])
    else resolveLoop identifier rest nameMatches

/-- The function `ResolveCluster`, given the result of `ListClusters`. -/
def ResolveCluster (listed : Except GoError (List Cluster)) (identifier : String) :
    Except ResolveError Cluster :=
  if identifier = "" then .error .required
  else
    match listed with
    | .error err => .error (.listing err)
    | .ok clusters =>
      match resolveLoop identifier clusters [] with
      | .inl cluster => .ok cluster
      | .inr nameMatches =>
        match nameMatches with
        | [single] => .ok single
        | [] => .error (.notFound identifier)
        | _ => .error (.multiple identifier (joinClusterIDs nameMatches))

/-! ## Further standard-library string functions -/

/-- The loop of `strings.Index(s, substr)`: the position, counted from `offset`,
of the first place at which `substr` starts, `-1` when there is none.
Positions count characters; the source counts bytes and uses the position only
to cut the string there. -/
def indexFrom (substr : List Char) : List Char → Nat → Int
  | [], offset => if substr = [] then (offset : Int) else -1
  | c :: rest, offset =>
    if substr.isPrefixOf (c :: rest) then (offset : Int) else indexFrom substr rest (offset + 1)

/-- The function `strings.Index` for a string `substr`. -/
def IndexString (s substr : String) : Int := indexFrom substr.data s.data 0

/-- The function `strings.Contains`. -/
def Contains (s substr : String) : Bool := IndexString s substr ≥ 0

/-- The function `strings.ContainsAny`. -/
def ContainsAny (s chars : String) : Bool := s.data.any (fun c => c ∈ chars.data)

/-- The function `strings.HasPrefix`. -/
def HasPrefix (s start : String) : Bool := start.data.isPrefixOf s.data

/-- The function `strings.HasSuffix`. -/
def HasSuffix (s ending : String) : Bool := ending.data.isSuffixOf s.data

/-- The function `strings.TrimSuffix`. -/
def TrimSuffix (s ending : String) : String :=
  if HasSuffix s ending then ⟨s.data.take (s.data.length - ending.data.length)⟩ else s

/-- The call `strings.ReplaceAll(s, old, new)` for an `old` of two characters. -/
def replacePair (first second : Char) (new : List Char) : List Char → List Char
  | [] => []
  | [a] => [a]
  | a :: b :: rest =>
    if a = first ∧ b = second then new ++ replacePair first second new rest
    else a :: replacePair first second new (b :: rest)

/-! ## Filtering nodes by label patterns (`cmd/match.go`, `cmd/nodes.go`) -/

/-- What the package `regexp` does: `Compile` gives an error or the function
`MatchString` of the compiled expression, and `QuoteMeta` quotes a text. -/
structure RegexLib where
  Compile : String → Except String (String → Bool)
  QuoteMeta : String → String

/-- The type `labelMatcher`. -/
abbrev labelMatcher := String → Bool

/-- The function `regexPattern`; a result with `false` is `none`. -/
def regexPattern (raw : String) : Option String :=
  let raw := TrimSpace raw
  if HasPrefix raw "re:" then some (TrimSpace (sliceFrom raw 3))
  else if HasPrefix raw "regex:" then some (TrimSpace (sliceFrom raw 6))
  else if byteLen raw ≥ 2 ∧ HasPrefix raw "/" ∧ HasSuffix raw "/" then
    some ⟨(raw.data.drop 1).dropLast⟩
  else none

/-- The function `wildcardToRegex`. -/
def wildcardToRegex (lib : RegexLib) (pattern : String) : String :=
  let quoted := lib.QuoteMeta pattern
  let quoted : String := ⟨replacePair '\\' '*' ".*".data quoted.data⟩
  let quoted : String := ⟨replacePair '\\' '?' ".".data quoted.data⟩
  "^" ++ quoted ++ "$"

/-- The errors of `buildLabelMatchers`: `invalid label regex %q: %w` and
`invalid label pattern %q: %w`, with their arguments. -/
inductive LabelError where
  | invalidRegex (pattern err : String)
  | invalidPattern (pattern err : String)
  deriving DecidableEq

/-- The loop of `buildLabelMatchers` over the patterns. -/
def buildLabelMatchersFrom (R : Runtime) (lib : RegexLib) :
    List String → List labelMatcher → Except LabelError (List labelMatcher)
  | [], matchers => .ok matchers
  | raw :: rest, matchers =>
    let pattern := TrimSpace raw
    if pattern = "" then buildLabelMatchersFrom R lib rest matchers
    else
      match regexPattern pattern with
      | some expr =>
        match lib.Compile ("(?i)" ++ expr) with
        | .error err => .error (.invalidRegex pattern err)
        | .ok rx => buildLabelMatchersFrom R lib rest (matchers ++ [rx])
      | none =>
        if ContainsAny pattern "*?" then
          match lib.Compile ("(?i)" ++ wildcardToRegex lib pattern) with
          | .error err => .error (.invalidPattern pattern err)
          | .ok rx => buildLabelMatchersFrom R lib rest (matchers ++ [rx])
        else
          let pattern := ToLower R pattern
          buildLabelMatchersFrom R lib rest
            (matchers ++ [fun value => Contains (ToLower R value) pattern])

/-- The function `buildLabelMatchers`. -/
def buildLabelMatchers (R : Runtime) (lib : RegexLib) (patterns : List String) :
    Except LabelError (List labelMatcher) :=
  buildLabelMatchersFrom R lib patterns []

/-- The function `labelsMatchAny`; its result does not depend on the order in
which `range` visits the labels. -/
def labelsMatchAny (labels : List (String × String)) (matchers : List labelMatcher) : Bool :=
  if labels.length = 0 ∨ matchers.length = 0 then false
  else labels.any (fun label => matchers.any (fun m => m label.1 || m label.2))

/-- The function `filterNodesByLabelPatterns`: the nodes and the error it
returns, `none` for `nil`. -/
def filterNodesByLabelPatterns (R : Runtime) (lib : RegexLib) (nodes : List K8sNode)
    (patterns : List String) : List K8sNode × Option LabelError :=
  match buildLabelMatchers R lib patterns with
  | .error err => (nodes, some err)
  | .ok matchers =>
    if matchers.length = 0 then (nodes, none)
    else
      (nodes.foldl
        (fun filtered node =>
          if labelsMatchAny node.Labels matchers then filtered ++ [node] else filtered) [],
        none)

/-- In the words of the specification: a plain pattern has no `*` and no `?`
and, trimmed, is not in the form `re:`, `regex:` or `/.../`. -/
def plainPattern (raw : String) : Bool :=
  '*' ∉ (TrimSpace raw).data ∧ '?' ∉ (TrimSpace raw).data ∧
    ¬ "re:".data <+: (TrimSpace raw).data ∧ ¬ "regex:".data <+: (TrimSpace raw).data ∧
    ¬ (2 ≤ (TrimSpace raw).data.length ∧ (TrimSpace raw).data.head? = some '/' ∧
      (TrimSpace raw).data.getLast? = some '/')

/-- In the words of the specification: the text contains the pattern, ignoring
case. -/
def containsFold (R : Runtime) (text pattern : String) : Prop :=
  (ToLower R pattern).data <:+: (ToLower R text).data

/-- In the words of the specification: the node has at least one label whose
key or value contains some non-blank trimmed pattern, ignoring case. -/
def labelHit (R : Runtime) (patterns : List String) (node : K8sNode) : Prop :=
  ∃ label ∈ node.Labels, ∃ raw ∈ patterns, TrimSpace raw ≠ "" ∧
    (containsFold R label.1 (TrimSpace raw) ∨ containsFold R label.2 (TrimSpace raw))

/-- A package `regexp` that compiles nothing; the plain patterns do not use it. -/
def RegexLib.absent : RegexLib :=
  { Compile := fun _ => .error "unsupported", QuoteMeta := fun s => s }

/-- A node with a zone label. -/
def zoneNode : K8sNode :=
  { Name := "node-z", UID := "z", Labels := [("topology.kubernetes.io/zone", "EU-West-1a")] }


/-! ## Deriving the Rancher URLs (`internal/rancher/derive.go`) -/

/-- The type `url.URL`; `User` holds the text of the user information, `none`
for `nil`. -/
structure URL where
  Scheme : String := ""
  Opaque : String := ""
  User : Option String := none
  Host : String := ""
  Path : String := ""
  RawPath : String := ""
  OmitHost : Bool := false
  ForceQuery : Bool := false
  RawQuery : String := ""
  Fragment : String := ""
  RawFragment : String := ""
  deriving DecidableEq

/-- What the package `net/url` does outside the method `String`: `Parse`, the
escaping of a host, and the methods `EscapedPath` and `EscapedFragment`. -/
structure UrlLib where
  Parse : String → Except String URL
  escapeHost : String → String
  EscapedPath : URL → String
  EscapedFragment : URL → String

/-- The method `String` of `url.URL`. -/
def URL.String (lib : UrlLib) (u : URL) : String :=
  let buf := if u.Scheme ≠ "" then u.Scheme ++ ":" else ""
  let buf :=
    if u.Opaque ≠ "" then buf ++ u.Opaque
    else
      let buf :=
        if u.Scheme ≠ "" ∨ u.Host ≠ "" ∨ u.User ≠ none then
          if u.OmitHost = true ∧ u.Host = "" ∧ u.User = none then buf
          else
            let buf := if u.Host ≠ "" ∨ u.Path ≠ "" ∨ u.User ≠ none then buf ++ "//" else buf
            let buf :=
              match u.User with
              | some ui => buf ++ ui ++ "@"
              | none => buf
            if u.Host ≠ "" then buf ++ lib.escapeHost u.Host else buf
        else buf
      let path := lib.EscapedPath u
      let buf :=
        if path ≠ "" ∧ path.data.head? ≠ some '/' ∧ u.Host ≠ "" then buf ++ "/" else buf
      let buf :=
        if buf = "" ∧ ':' ∈ path.data.takeWhile (fun c => c ≠ '/') then buf ++ "./" else buf
      buf ++ path
  let buf := if u.ForceQuery = true ∨ u.RawQuery ≠ "" then buf ++ "?" ++ u.RawQuery else buf
  if u.Fragment ≠ "" then buf ++ "#" ++ lib.EscapedFragment u else buf

/-- The constant `DefaultInventoryPath`. -/
def DefaultInventoryPath : String := "/v1/elemental.cattle.io.machineinventories"

/-- The function `BaseURLFromServer`; the text of the error of `Parse` is
appended to the message as `%w` does. -/
def BaseURLFromServer (lib : UrlLib) (server : String) : Except String String :=
  match lib.Parse server with
  | .error err => .error ("invalid kubeconfig server URL: " ++ err)
  | .ok parsed =>
    if parsed.Scheme = "" ∨ parsed.Host = "" then
      .error ("invalid kubeconfig server URL: " ++ server)
    else
      let path := parsed.Path
      let path :=
        if IndexString path "/k8s/" ≥ 0 then sliceTo path (IndexString path "/k8s/")
        else if IndexString path "/k8s" ≥ 0 then sliceTo path (IndexString path "/k8s")
        else path
      let parsed := { parsed with Path := TrimSuffix path "/", RawQuery := "", Fragment := "" }
      .ok (parsed.String lib)

/-- The function `InventoryURLFromServer`. -/
def InventoryURLFromServer (lib : UrlLib) (server : String) : Except String String :=
  match BaseURLFromServer lib server with
  | .error err => .error err
  | .ok base => .ok (TrimSuffix base "/" ++ DefaultInventoryPath)

/-- The results of `url.Parse` on the server strings used below; on any other
string this table gives an error.  A string that ends in a bare `?` is parsed
with `ForceQuery` set and an empty `RawQuery`; the text before `@` is the user
information; the path is kept as it is written, doubled `/` included; and a
string without scheme, or with nothing between `//` and the path, has no host. -/
def sampleParse (server : String) : Except String URL :=
  if server = "https://rancher.example.com/k8s/clusters/local" then
    .ok { Scheme := "https", Host := "rancher.example.com", Path := "/k8s/clusters/local" }
  else if server = "https://rancher.example.com/rancher/k8s/clusters/c-123" then
    .ok { Scheme := "https", Host := "rancher.example.com",
          Path := "/rancher/k8s/clusters/c-123" }
  else if server = "https://rancher.example.com/k8s/clusters/local?" then
    .ok { Scheme := "https", Host := "rancher.example.com", Path := "/k8s/clusters/local",
          ForceQuery := true }
  else if server = "https://rancher.example.com/k8s/clusters/local?x=1#top" then
    .ok { Scheme := "https", Host := "rancher.example.com", Path := "/k8s/clusters/local",
          RawQuery := "x=1", Fragment := "top" }
  else if server = "https://rancher.example.com/rancher///k8s/clusters/local" then
    .ok { Scheme := "https", Host := "rancher.example.com",
          Path := "/rancher///k8s/clusters/local" }
  else if server = "https://admin@rancher.example.com/k8s/clusters/local" then
    .ok { Scheme := "https", User := some "admin", Host := "rancher.example.com",
          Path := "/k8s/clusters/local" }
  else if server = "rancher.example.com/k8s/clusters/local" then
    .ok { Path := "rancher.example.com/k8s/clusters/local" }
  else if server = "https:///k8s/clusters/local" then
    .ok { Scheme := "https", Path := "/k8s/clusters/local" }
  else .error "parse"

/-- The package `net/url` on the server strings of `sampleParse`, whose hosts,
paths and fragments are written back as they are. -/
def sampleUrlLib : UrlLib :=
  { Parse := sampleParse, escapeHost := fun host => host,
    EscapedPath := fun u => u.Path, EscapedFragment := fun u => u.Fragment }

instance containsFold.decidable (R : Runtime) (text pattern : String) :
    Decidable (containsFold R text pattern) :=
  inferInstanceAs (Decidable ((ToLower R pattern).data <:+: (ToLower R text).data))

instance labelHit.decidable (R : Runtime) (patterns : List String) (node : K8sNode) :
    Decidable (labelHit R patterns node) :=
  inferInstanceAs (Decidable (∃ label ∈ node.Labels, ∃ raw ∈ patterns, TrimSpace raw ≠ "" ∧
    (containsFold R label.1 (TrimSpace raw) ∨ containsFold R label.2 (TrimSpace raw))))

/-! # Properties -/

theorem mem_foldl_setInsert (values acc : List String) (x : String) :
    x ∈ values.foldl setInsert acc ↔ x ∈ acc ∨ x ∈ values := by
  induction values generalizing acc with
  | nil => simp
  | cons v vs ih =>
    rw [List.foldl_cons, ih]
    unfold setInsert
    split
    · constructor
      · rintro (h | h)
        · exact Or.inl h
        · exact Or.inr (List.mem_cons_of_mem _ h)
      · rintro (h | h)
        · exact Or.inl h
        · rcases List.mem_cons.1 h with h | h
          · subst h; left; assumption
          · exact Or.inr h
    · simp only [List.mem_append, List.mem_singleton, List.mem_cons]
      tauto

theorem nodup_foldl_setInsert (values acc : List String) (h : acc.Nodup) :
    (values.foldl setInsert acc).Nodup := by
  induction values generalizing acc with
  | nil => simpa
  | cons v vs ih =>
    rw [List.foldl_cons]
    apply ih
    unfold setInsert
    split
    · exact h
    · rename_i hv
      rw [List.nodup_append]
      refine ⟨h, List.nodup_singleton _, ?_⟩
      intro a ha hb
      rw [List.mem_singleton] at hb
      subst hb
      exact hv ha

theorem sortStrings_perm (l : List String) : (sortStrings l).Perm l :=
  List.perm_insertionSort _ l

theorem sortStrings_sorted (l : List String) :
    (sortStrings l).Sorted (fun a b => a.data ≤ b.data) := by
  haveI : IsTotal String (fun a b => a.data ≤ b.data) := ⟨fun a b => le_total a.data b.data⟩
  haveI : IsTrans String (fun a b => a.data ≤ b.data) := ⟨fun a b c h1 h2 => le_trans h1 h2⟩
  exact List.sorted_insertionSort _ l

theorem uniqueSorted_perm (R : Runtime) (values : List String) :
    (uniqueSorted R values).Perm (values.foldl setInsert []) := by
  cases values with
  | nil => simp [uniqueSorted]
  | cons v vs =>
    simp only [uniqueSorted]
    exact (sortStrings_perm _).trans (R.rangeKeys_perm _)

theorem mem_uniqueSorted (R : Runtime) (values : List String) (x : String) :
    x ∈ uniqueSorted R values ↔ x ∈ values := by
  rw [(uniqueSorted_perm R values).mem_iff, mem_foldl_setInsert]
  simp

theorem nodup_uniqueSorted (R : Runtime) (values : List String) :
    (uniqueSorted R values).Nodup :=
  (uniqueSorted_perm R values).nodup_iff.2 (nodup_foldl_setInsert values [] List.nodup_nil)

theorem sorted_uniqueSorted (R : Runtime) (values : List String) :
    (uniqueSorted R values).Sorted (fun a b => a.data ≤ b.data) := by
  cases values with
  | nil => simp [uniqueSorted]
  | cons v vs => exact sortStrings_sorted _

theorem uniqueSorted_eq_nil (R : Runtime) (values : List String) :
    uniqueSorted R values = [] ↔ values = [] := by
  constructor
  · intro h
    cases values with
    | nil => rfl
    | cons v vs =>
      have : v ∈ uniqueSorted R (v :: vs) := (mem_uniqueSorted R _ v).2 (List.mem_cons_self _ _)
      rw [h] at this
      cases this
  · rintro rfl
    rfl

/-- The result of `uniqueSorted` does not depend on the order in which the
runtime visits the set. -/
theorem uniqueSorted_runtime (R R' : Runtime) (values : List String) :
    uniqueSorted R values = uniqueSorted R' values :=
  haveI : IsAntisymm String (fun a b => a.data ≤ b.data) :=
    ⟨fun _ _ h1 h2 => String.ext (le_antisymm h1 h2)⟩
  List.eq_of_perm_of_sorted
    ((uniqueSorted_perm R values).trans (uniqueSorted_perm R' values).symm)
    (sorted_uniqueSorted R values) (sorted_uniqueSorted R' values)

theorem mapAppendAll_apply (m : String → List K8sNode) (keys : List String) (node : K8sNode)
    (k : String) (h : keys.Nodup) :
    mapAppendAll m keys node k = if k ∈ keys then m k ++ [node] else m k := by
  unfold mapAppendAll
  induction keys generalizing m with
  | nil => simp
  | cons a as ih =>
    rw [List.foldl_cons, ih _ (List.nodup_cons.1 h).2]
    have ha : a ∉ as := (List.nodup_cons.1 h).1
    by_cases hk : k = a
    · subst hk
      simp [mapAppend, ha]
    · by_cases hk2 : k ∈ as
      · simp [mapAppend, hk, hk2]
      · simp [mapAppend, hk, hk2]

theorem nodeKeys_nodup (R : Runtime) (m : Method) (node : K8sNode) :
    (nodeKeys R m node).Nodup := by
  cases m <;> simp only [nodeKeys]
  · split <;> simp
  · split <;> simp
  · exact nodup_uniqueSorted _ _
  · exact nodup_uniqueSorted _ _
  · exact nodup_uniqueSorted _ _
  · unfold normalizedHostnames
    simp only
    split
    · exact List.nodup_nil
    · exact nodup_uniqueSorted _ _

theorem table_indexNode (R : Runtime) (m : Method) (idx : nodeIndex) (node : K8sNode)
    (k : String) :
    table m (indexNode R idx node) k =
      if k ∈ nodeKeys R m node then table m idx k ++ [node] else table m idx k := by
  cases m
  · simp only [table, indexNode, nodeKeys]
    by_cases h : normalizeID R node.MachineID = ""
    · simp [h]
    · simp only [ne_eq, h, not_false_eq_true, if_true, List.mem_singleton, mapAppend]
  · simp only [table, indexNode, nodeKeys]
    by_cases h : normalizeID R node.ProviderID = ""
    · simp [h]
    · simp only [ne_eq, h, not_false_eq_true, if_true, List.mem_singleton, mapAppend]
  · exact mapAppendAll_apply _ _ _ _ (nodeKeys_nodup R MethodInternalIP node)
  · exact mapAppendAll_apply _ _ _ _ (nodeKeys_nodup R MethodExternalIP node)
  · exact mapAppendAll_apply _ _ _ _ (nodeKeys_nodup R MethodMachineName node)
  · exact mapAppendAll_apply _ _ _ _ (nodeKeys_nodup R MethodHostname node)

theorem table_foldl_indexNode (R : Runtime) (m : Method) (nodes : List K8sNode)
    (idx : nodeIndex) (k : String) :
    table m (nodes.foldl (indexNode R) idx) k =
      table m idx k ++ nodes.filter (fun n => decide (k ∈ nodeKeys R m n)) := by
  induction nodes generalizing idx with
  | nil => simp
  | cons n ns ih =>
    rw [List.foldl_cons, ih, table_indexNode]
    by_cases h : k ∈ nodeKeys R m n
    · simp [h, List.filter_cons]
    · simp [h, List.filter_cons]

/-- What `buildIndex` stores under a key: the nodes filed under it, in the
order of the node list. -/
theorem table_buildIndex (R : Runtime) (m : Method) (nodes : List K8sNode) (k : String) :
    table m (buildIndex R nodes) k = nodes.filter (fun n => decide (k ∈ nodeKeys R m n)) := by
  unfold buildIndex
  rw [table_foldl_indexNode]
  cases m <;> simp [table, emptyIndex]

theorem collectCandidates_eq (keys : List String) (index : String → List K8sNode)
    (method : Method) (reason : String) (acc : List (String × NodeMatch)) :
    keys.foldl (fun candidates key =>
        (index key).foldl (addCandidate method reason key) candidates) acc =
      (keys.flatMap (fun key => (index key).map (fun node => (key, node)))).foldl
        (fun candidates p => addCandidate method reason p.1 candidates p.2) acc := by
  induction keys generalizing acc with
  | nil => rfl
  | cons k ks ih =>
    rw [List.foldl_cons, ih, List.flatMap_cons, List.foldl_append, List.foldl_map]

theorem addCandidate_mem_of_mem (method : Method) (reason key : String)
    (cands : List (String × NodeMatch)) (node : K8sNode) (e : String × NodeMatch)
    (h : e ∈ cands) : e ∈ addCandidate method reason key cands node := by
  unfold addCandidate
  simp only
  split
  · exact h
  · exact List.mem_append_left _ h

theorem addCandidate_mem (method : Method) (reason key : String)
    (cands : List (String × NodeMatch)) (node : K8sNode) (e : String × NodeMatch)
    (h : e ∈ addCandidate method reason key cands node) :
    e ∈ cands ∨ e = (nodeKey node,
      { Node := node, Method := method, Confidence := methodConfidence method,
        Explanation := reason ++ "=" ++ key }) := by
  unfold addCandidate at h
  simp only at h
  split at h
  · exact Or.inl h
  · rcases List.mem_append.1 h with h | h
    · exact Or.inl h
    · exact Or.inr (List.mem_singleton.1 h)

theorem addCandidate_has_key (method : Method) (reason key : String)
    (cands : List (String × NodeMatch)) (node : K8sNode) :
    ∃ e ∈ addCandidate method reason key cands node, e.1 = nodeKey node := by
  unfold addCandidate
  simp only
  split
  · rename_i h
    rw [List.any_eq_true] at h
    obtain ⟨e, he, hk⟩ := h
    exact ⟨e, he, by simpa using hk⟩
  · exact ⟨_, List.mem_append_right _ (List.mem_singleton_self _), rfl⟩

theorem addCandidate_nodup (method : Method) (reason key : String)
    (cands : List (String × NodeMatch)) (node : K8sNode)
    (h : (cands.map Prod.fst).Nodup) :
    ((addCandidate method reason key cands node).map Prod.fst).Nodup := by
  unfold addCandidate
  simp only
  split
  · exact h
  · rename_i hk
    rw [List.map_append, List.nodup_append]
    refine ⟨h, by simp, ?_⟩
    intro a ha hb
    simp only [List.map_cons, List.map_nil, List.mem_singleton] at hb
    subst hb
    apply hk
    rw [List.any_eq_true]
    obtain ⟨e, he, hfst⟩ := List.mem_map.1 ha
    exact ⟨e, he, by simpa using hfst⟩

/-- What the two loops of `matchByKeys` leave in the map `candidates`. -/
theorem foldl_addCandidate (method : Method) (reason : String)
    (pairs : List (String × K8sNode)) (acc : List (String × NodeMatch)) :
    (∀ e ∈ acc, e ∈ pairs.foldl
        (fun candidates p => addCandidate method reason p.1 candidates p.2) acc) ∧
    (∀ e ∈ pairs.foldl (fun candidates p => addCandidate method reason p.1 candidates p.2) acc,
      e ∈ acc ∨ ∃ p ∈ pairs, e = (nodeKey p.2,
        { Node := p.2, Method := method, Confidence := methodConfidence method,
          Explanation := reason ++ "=" ++ p.1 })) ∧
    (∀ p ∈ pairs, ∃ e ∈ pairs.foldl
        (fun candidates p => addCandidate method reason p.1 candidates p.2) acc,
      e.1 = nodeKey p.2) ∧
    ((acc.map Prod.fst).Nodup → ((pairs.foldl
        (fun candidates p => addCandidate method reason p.1 candidates p.2) acc).map
          Prod.fst).Nodup) := by
  induction pairs generalizing acc with
  | nil =>
    refine ⟨fun e he => he, fun e he => Or.inl he, ?_, fun h => h⟩
    intro p hp
    cases hp
  | cons q qs ih =>
    simp only [List.foldl_cons]
    obtain ⟨h1, h2, h3, h4⟩ := ih (addCandidate method reason q.1 acc q.2)
    refine ⟨?_, ?_, ?_, ?_⟩
    · intro e he
      exact h1 e (addCandidate_mem_of_mem _ _ _ _ _ _ he)
    · intro e he
      rcases h2 e he with h | ⟨p, hp, rfl⟩
      · rcases addCandidate_mem _ _ _ _ _ _ h with h | rfl
        · exact Or.inl h
        · exact Or.inr ⟨q, List.mem_cons_self _ _, rfl⟩
      · exact Or.inr ⟨p, List.mem_cons_of_mem _ hp, rfl⟩
    · intro p hp
      rcases List.mem_cons.1 hp with rfl | hp
      · obtain ⟨e, he, hk⟩ := addCandidate_has_key method reason p.1 acc p.2
        exact ⟨e, h1 e he, hk⟩
      · exact h3 p hp
    · intro h
      exact h4 (addCandidate_nodup _ _ _ _ _ h)

theorem mem_pairs (keys : List String) (index : String → List K8sNode)
    (p : String × K8sNode) :
    p ∈ keys.flatMap (fun key => (index key).map (fun node => (key, node))) ↔
      p.1 ∈ keys ∧ p.2 ∈ index p.1 := by
  rw [List.mem_flatMap]
  constructor
  · rintro ⟨k, hk, hp⟩
    obtain ⟨n, hn, rfl⟩ := List.mem_map.1 hp
    exact ⟨hk, hn⟩
  · rintro ⟨hk, hn⟩
    exact ⟨p.1, hk, List.mem_map.2 ⟨p.2, hn, rfl⟩⟩

/-- The entries of the map `candidates`: their keys are distinct, each is the
entry made for a node found under one of the keys, and every node found under
one of the keys has an entry under its node key. -/
theorem collectCandidates_spec (keys : List String) (index : String → List K8sNode)
    (method : Method) (reason : String) :
    ((collectCandidates keys index method reason).map Prod.fst).Nodup ∧
    (∀ e ∈ collectCandidates keys index method reason,
      ∃ key ∈ keys, ∃ node ∈ index key, e = (nodeKey node,
        { Node := node, Method := method, Confidence := methodConfidence method,
          Explanation := reason ++ "=" ++ key })) ∧
    (∀ key ∈ keys, ∀ node ∈ index key,
      ∃ e ∈ collectCandidates keys index method reason, e.1 = nodeKey node) := by
  unfold collectCandidates
  rw [collectCandidates_eq]
  obtain ⟨_, h2, h3, h4⟩ := foldl_addCandidate method reason
    (keys.flatMap (fun key => (index key).map (fun node => (key, node)))) []
  refine ⟨h4 (by simp), ?_, ?_⟩
  · intro e he
    rcases h2 e he with h | ⟨p, hp, rfl⟩
    · cases h
    · rw [mem_pairs] at hp
      exact ⟨p.1, hp.1, p.2, hp.2, rfl⟩
  · intro key hkey node hnode
    exact h3 (key, node) ((mem_pairs keys index (key, node)).2 ⟨hkey, hnode⟩)

theorem stableMatchSort_perm (xs : List NodeMatch) : (stableMatchSort xs).Perm xs :=
  List.perm_insertionSort _ xs

theorem stableMatchSort_sorted (xs : List NodeMatch) :
    (stableMatchSort xs).Sorted (fun a b => a.Node.Name.data ≤ b.Node.Name.data) := by
  haveI : IsTotal NodeMatch (fun a b => a.Node.Name.data ≤ b.Node.Name.data) :=
    ⟨fun a b => le_total a.Node.Name.data b.Node.Name.data⟩
  haveI : IsTrans NodeMatch (fun a b => a.Node.Name.data ≤ b.Node.Name.data) :=
    ⟨fun a b c h1 h2 => le_trans h1 h2⟩
  exact List.sorted_insertionSort _ xs

theorem matchByKeys_perm (R : Runtime) (keys : List String) (index : String → List K8sNode)
    (method : Method) (reason : String) (found : List NodeMatch)
    (h : matchByKeys R keys index method reason = some found) :
    found.Perm ((collectCandidates keys index method reason).map Prod.snd) ∧
      collectCandidates keys index method reason ≠ [] ∧ keys ≠ [] := by
  unfold matchByKeys at h
  split at h
  · cases h
  · rename_i hk
    simp only at h
    split at h
    · cases h
    · rename_i hc
      injection h with h
      subst h
      refine ⟨(stableMatchSort_perm _).trans ((R.rangeEntries_perm _).map _), ?_, ?_⟩
      · intro h0
        exact hc (by simp [h0])
      · intro h0
        exact hk (by simp [h0])

theorem matchByKeys_eq_none (R : Runtime) (keys : List String) (index : String → List K8sNode)
    (method : Method) (reason : String) :
    matchByKeys R keys index method reason = none ↔ ∀ key ∈ keys, index key = [] := by
  obtain ⟨_, h2, h3⟩ := collectCandidates_spec keys index method reason
  unfold matchByKeys
  constructor
  · intro h
    split at h
    · rename_i hk
      intro key hkey
      rw [List.isEmpty_iff] at hk
      rw [hk] at hkey
      cases hkey
    · simp only at h
      split at h
      · rename_i hc
        rw [List.isEmpty_iff] at hc
        intro key hkey
        cases hn : index key with
        | nil => rfl
        | cons n ns =>
          obtain ⟨e, he, _⟩ := h3 key hkey n (by rw [hn]; exact List.mem_cons_self _ _)
          rw [hc] at he
          cases he
      · cases h
  · intro h
    split
    · rfl
    · simp only
      split
      · rfl
      · rename_i hc
        exfalso
        apply hc
        rw [List.isEmpty_iff]
        cases hcc : collectCandidates keys index method reason with
        | nil => rfl
        | cons e es =>
          obtain ⟨key, hkey, node, hnode, _⟩ := h2 e (by rw [hcc]; exact List.mem_cons_self _ _)
          rw [h key hkey] at hnode
          cases hnode

/-- What `matchByKeys` returns when it answers: a non-empty list, sorted by
node name, with distinct node keys, made of the entries for the nodes found
under the keys. -/
theorem matchByKeys_some (R : Runtime) (keys : List String) (index : String → List K8sNode)
    (method : Method) (reason : String) (found : List NodeMatch)
    (h : matchByKeys R keys index method reason = some found) :
    found ≠ [] ∧
    found.Sorted (fun a b => a.Node.Name.data ≤ b.Node.Name.data) ∧
    (found.map (fun c => nodeKey c.Node)).Nodup ∧
    (∀ c ∈ found, ∃ key ∈ keys, ∃ node ∈ index key,
      c = { Node := node, Method := method, Confidence := methodConfidence method,
            Explanation := reason ++ "=" ++ key }) ∧
    (∀ key ∈ keys, ∀ node ∈ index key, ∃ c ∈ found, nodeKey c.Node = nodeKey node) := by
  obtain ⟨hperm, hne, _⟩ := matchByKeys_perm R keys index method reason found h
  obtain ⟨h1, h2, h3⟩ := collectCandidates_spec keys index method reason
  have hfst : (collectCandidates keys index method reason).map Prod.fst =
      ((collectCandidates keys index method reason).map Prod.snd).map
        (fun c => nodeKey c.Node) := by
    rw [List.map_map]
    apply List.map_congr_left
    intro e he
    obtain ⟨key, _, node, _, rfl⟩ := h2 e he
    rfl
  refine ⟨?_, ?_, ?_, ?_, ?_⟩
  · intro h0
    subst h0
    have := hperm.symm.eq_nil
    simp only [List.map_eq_nil_iff] at this
    exact hne this
  · have hfound : found = stableMatchSort
        ((R.rangeEntries (collectCandidates keys index method reason)).map Prod.snd) := by
      unfold matchByKeys at h
      split at h
      · cases h
      · simp only at h
        split at h
        · cases h
        · injection h with h
          exact h.symm
    rw [hfound]
    exact stableMatchSort_sorted _
  · rw [(hperm.map _).nodup_iff, ← hfst]
    exact h1
  · intro c hc
    obtain ⟨e, he, rfl⟩ := List.mem_map.1 (hperm.mem_iff.1 hc)
    obtain ⟨key, hkey, node, hnode, rfl⟩ := h2 e he
    exact ⟨key, hkey, node, hnode, rfl⟩
  · intro key hkey node hnode
    obtain ⟨e, he, hk⟩ := h3 key hkey node hnode
    refine ⟨e.2, hperm.mem_iff.2 (List.mem_map.2 ⟨e, he, rfl⟩), ?_⟩
    obtain ⟨key', _, node', _, rfl⟩ := h2 e he
    exact hk

theorem strategy_eq_none (R : Runtime) (m : Method) (host : InventoryHost) (index : nodeIndex) :
    strategy R m host index = none ↔ lookupHits R index host m = false := by
  unfold strategy lookupHits
  rw [matchByKeys_eq_none]
  constructor
  · intro h
    rw [Bool.eq_false_iff]
    intro hany
    rw [List.any_eq_true] at hany
    obtain ⟨key, hkey, hk⟩ := hany
    rw [h key hkey] at hk
    simp at hk
  · intro h key hkey
    by_contra hne
    rw [Bool.eq_false_iff] at h
    apply h
    rw [List.any_eq_true]
    refine ⟨key, hkey, ?_⟩
    cases hx : table m index key with
    | nil => exact absurd hx hne
    | cons a as => rfl

theorem matchByHostname_eq (R : Runtime) (host : InventoryHost) (index : nodeIndex) :
    matchByHostname R host index =
      match strategy R MethodMachineName host index with
      | some found => some found
      | none => strategy R MethodHostname host index := by
  unfold matchByHostname
  have h1 : matchByMachineName R host index = strategy R MethodMachineName host index := rfl
  rw [h1]
  cases strategy R MethodMachineName host index with
  | some found => rfl
  | none =>
    simp only
    split
    · rename_i hk
      symm
      rw [strategy, matchByKeys_eq_none]
      intro key hkey
      rw [List.isEmpty_iff] at hk
      simp only [hostKeys] at hkey
      rw [hk] at hkey
      cases hkey
    · rfl

/-- The loop body of `Match` tries the strategies in the fixed order and takes
the answer of the first one whose lookup returns a node. -/
theorem firstAnswer_eq (R : Runtime) (host : InventoryHost) (index : nodeIndex) :
    firstAnswer R host index =
      (winningStrategy R index host).bind (fun m => strategy R m host index) := by
  unfold firstAnswer
  rw [matchByHostname_eq]
  have e1 : matchByMachineID R host index = strategy R MethodMachineID host index := rfl
  have e2 : matchByProviderID R host index = strategy R MethodProviderID host index := rfl
  have e3 : matchByInternalIP R host index = strategy R MethodInternalIP host index := rfl
  have e4 : matchByExternalIP R host index = strategy R MethodExternalIP host index := rfl
  rw [e1, e2, e3, e4]
  unfold winningStrategy strategyOrder
  have hs : ∀ m, (strategy R m host index = none ∧ lookupHits R index host m = false) ∨
      (∃ found, strategy R m host index = some found ∧ lookupHits R index host m = true) := by
    intro m
    cases hm : strategy R m host index with
    | none => exact Or.inl ⟨rfl, (strategy_eq_none R m host index).1 hm⟩
    | some found =>
      refine Or.inr ⟨found, rfl, ?_⟩
      cases hl : lookupHits R index host m with
      | true => rfl
      | false =>
        rw [(strategy_eq_none R m host index).2 hl] at hm
        cases hm
  rcases hs MethodMachineID with ⟨a1, b1⟩ | ⟨f1, a1, b1⟩ <;>
  rcases hs MethodProviderID with ⟨a2, b2⟩ | ⟨f2, a2, b2⟩ <;>
  rcases hs MethodInternalIP with ⟨a3, b3⟩ | ⟨f3, a3, b3⟩ <;>
  rcases hs MethodExternalIP with ⟨a4, b4⟩ | ⟨f4, a4, b4⟩ <;>
  rcases hs MethodMachineName with ⟨a5, b5⟩ | ⟨f5, a5, b5⟩ <;>
  rcases hs MethodHostname with ⟨a6, b6⟩ | ⟨f6, a6, b6⟩ <;>
  simp [List.find?, a1, a2, a3, a4, a5, a6, b1, b2, b3, b4, b5, b6]

theorem strategy_ne_nil (R : Runtime) (m : Method) (host : InventoryHost) (index : nodeIndex) :
    strategy R m host index ≠ some [] := by
  intro h
  exact (matchByKeys_some R _ _ _ _ _ h).1 rfl

theorem firstAnswer_some (R : Runtime) (host : InventoryHost) (index : nodeIndex)
    (found : List NodeMatch) (h : firstAnswer R host index = some found) :
    ∃ m, winningStrategy R index host = some m ∧ strategy R m host index = some found := by
  rw [firstAnswer_eq] at h
  cases hw : winningStrategy R index host with
  | none => rw [hw] at h; cases h
  | some m => rw [hw] at h; exact ⟨m, rfl, h⟩

theorem firstAnswer_ne_nil (R : Runtime) (host : InventoryHost) (index : nodeIndex) :
    firstAnswer R host index ≠ some [] := by
  intro h
  obtain ⟨m, _, hm⟩ := firstAnswer_some R host index [] h
  exact strategy_ne_nil R m host index hm

theorem mem_foldl_seen (found : List NodeMatch) (seen : List String) (key : String) :
    key ∈ found.foldl (fun seen candidate => setInsert seen (nodeKey candidate.Node)) seen ↔
      key ∈ seen ∨ ∃ c ∈ found, nodeKey c.Node = key := by
  induction found generalizing seen with
  | nil => simp
  | cons c cs ih =>
    rw [List.foldl_cons, ih]
    have hins : key ∈ setInsert seen (nodeKey c.Node) ↔ key ∈ seen ∨ nodeKey c.Node = key := by
      unfold setInsert
      split
      · constructor
        · exact Or.inl
        · rintro (h | h)
          · exact h
          · subst h; assumption
      · rw [List.mem_append, List.mem_singleton]
        constructor
        · rintro (h | h)
          · exact Or.inl h
          · exact Or.inr h.symm
        · rintro (h | h)
          · exact Or.inl h
          · exact Or.inr h.symm
    rw [hins]
    simp only [List.mem_cons, exists_eq_or_imp]
    tauto

theorem seenBy_cons (R : Runtime) (index : nodeIndex) (host : InventoryHost)
    (hosts : List InventoryHost) (key : String) :
    seenBy R index (host :: hosts) key = true ↔
      (∃ c ∈ (firstAnswer R host index).getD [], nodeKey c.Node = key) ∨
        seenBy R index hosts key = true := by
  simp only [seenBy, List.any_cons, Bool.or_eq_true, List.any_eq_true, decide_eq_true_eq]

/-- The state of the loop of `Match` after a list of hosts. -/
theorem foldlM_matchHost (R : Runtime) (index : nodeIndex) (hosts : List InventoryHost)
    (r0 : Result) (seen0 : List String) :
    ∃ seen1, hosts.foldlM (matchHost R index) (r0, seen0) = some
        ({ Matches := r0.Matches ++
             (hosts.filterMap (entryOf R index)).filter (fun e => e.Candidates.length = 1)
           Ambiguous := r0.Ambiguous ++
             (hosts.filterMap (entryOf R index)).filter (fun e => e.Candidates.length ≠ 1)
           UnmatchedHosts := r0.UnmatchedHosts ++
             hosts.filter (fun host => (firstAnswer R host index).isNone)
           UnmatchedNodes := r0.UnmatchedNodes }, seen1) ∧
      ∀ key, key ∈ seen1 ↔ key ∈ seen0 ∨ seenBy R index hosts key = true := by
  induction hosts generalizing r0 seen0 with
  | nil =>
    refine ⟨seen0, ?_, ?_⟩
    · simp [List.foldlM]
    · intro key
      simp [seenBy]
  | cons host hosts ih =>
    rw [List.foldlM_cons]
    cases hfa : firstAnswer R host index with
    | none =>
      have hstep : matchHost R index (r0, seen0) host =
          some ({ r0 with UnmatchedHosts := r0.UnmatchedHosts ++ [host] }, seen0) := by
        simp [matchHost, hfa]
      rw [hstep]
      obtain ⟨seen1, h1, h2⟩ := ih { r0 with UnmatchedHosts := r0.UnmatchedHosts ++ [host] } seen0
      refine ⟨seen1, ?_, ?_⟩
      · simp only [Option.some_bind, Option.bind_eq_bind] at h1 ⊢
        rw [h1]
        simp [entryOf, hfa, List.filter_cons]
      · intro key
        rw [h2 key]
        simp [seenBy, hfa]
    | some found =>
      cases found with
      | nil => exact absurd hfa (firstAnswer_ne_nil R host index)
      | cons first rest =>
        have hstep : matchHost R index (r0, seen0) host =
            addMatch r0 host (first :: rest) seen0 := by
          simp [matchHost, hfa]
        rw [hstep]
        by_cases hlen : (first :: rest).length = 1
        · simp only [addMatch, hlen, if_true]
          obtain ⟨seen1, h1, h2⟩ := ih
            { r0 with Matches := r0.Matches ++
                [HostMatch.mk host (first :: rest) first.Method first.Confidence] }
            ((first :: rest).foldl
              (fun seen candidate => setInsert seen (nodeKey candidate.Node)) seen0)
          refine ⟨seen1, ?_, ?_⟩
          · simp only [Option.some_bind, Option.bind_eq_bind] at h1 ⊢
            rw [h1]
            simp [entryOf, hfa, List.filter_cons, hlen]
          · intro key
            rw [h2 key, mem_foldl_seen]
            rw [seenBy_cons, hfa, Option.getD_some]
            exact or_assoc
        · have hrest : ¬ rest = [] := by
            intro h
            apply hlen
            simp [h]
          simp only [addMatch, hlen, if_false]
          obtain ⟨seen1, h1, h2⟩ := ih
            { r0 with Ambiguous := r0.Ambiguous ++
                [HostMatch.mk host (first :: rest) first.Method first.Confidence] }
            ((first :: rest).foldl
              (fun seen candidate => setInsert seen (nodeKey candidate.Node)) seen0)
          refine ⟨seen1, ?_, ?_⟩
          · simp only [Option.some_bind, Option.bind_eq_bind] at h1 ⊢
            rw [h1]
            simp [entryOf, hfa, List.filter_cons, hrest]
          · intro key
            rw [h2 key, mem_foldl_seen]
            rw [seenBy_cons, hfa, Option.getD_some]
            exact or_assoc

/-- The result of `Match` in closed form: it always returns, and its four lists
are read off the hosts and nodes in input order. -/
theorem Match_eq (R : Runtime) (hosts : List InventoryHost) (nodes : List K8sNode) :
    Match R hosts nodes = some
      { Matches := (hosts.filterMap (entryOf R (buildIndex R nodes))).filter
          (fun e => e.Candidates.length = 1)
        Ambiguous := (hosts.filterMap (entryOf R (buildIndex R nodes))).filter
          (fun e => e.Candidates.length ≠ 1)
        UnmatchedHosts := hosts.filter
          (fun host => (firstAnswer R host (buildIndex R nodes)).isNone)
        UnmatchedNodes := nodes.filter
          (fun node => !seenBy R (buildIndex R nodes) hosts (nodeKey node)) } := by
  obtain ⟨seen1, h1, h2⟩ := foldlM_matchHost R (buildIndex R nodes) hosts {} []
  unfold Match
  simp only [h1, List.nil_append]
  congr 2
  unfold collectUnmatched
  apply List.filter_congr
  intro node _
  have := h2 (nodeKey node)
  simp only [List.not_mem_nil, false_or] at this
  cases hs : seenBy R (buildIndex R nodes) hosts (nodeKey node) with
  | true => simp [this, hs]
  | false => simp [this, hs]

theorem strategy_candidates (R : Runtime) (m : Method) (host : InventoryHost) (index : nodeIndex)
    (found : List NodeMatch) (h : strategy R m host index = some found) :
    ∀ c ∈ found, c.Method = m ∧ c.Confidence = methodConfidence m ∧
      ∃ key ∈ hostKeys R m host, c.Node ∈ table m index key ∧
        c.Explanation = m.text ++ "=" ++ key := by
  intro c hc
  obtain ⟨key, hkey, node, hnode, rfl⟩ := (matchByKeys_some R _ _ _ _ _ h).2.2.2.1 c hc
  exact ⟨rfl, rfl, key, hkey, hnode, rfl⟩

/-- The entry of a host is the answer of its winning strategy. -/
theorem entryOf_spec (R : Runtime) (index : nodeIndex) (host : InventoryHost) (e : HostMatch)
    (h : entryOf R index host = some e) :
    e.Host = host ∧ ∃ m, winningStrategy R index host = some m ∧
      strategy R m host index = some e.Candidates ∧ e.Method = m ∧
      e.Confidence = methodConfidence m := by
  unfold entryOf at h
  split at h
  · rename_i first rest hfa
    injection h with h
    subst h
    obtain ⟨m, hw, hs⟩ := firstAnswer_some R host index _ hfa
    obtain ⟨hm, hc, _⟩ := strategy_candidates R m host index _ hs first (List.mem_cons_self _ _)
    exact ⟨rfl, m, hw, hs, hm, hc⟩
  · cases h

theorem entryOf_eq_none (R : Runtime) (index : nodeIndex) (host : InventoryHost) :
    entryOf R index host = none ↔ firstAnswer R host index = none := by
  unfold entryOf
  constructor
  · intro h
    split at h
    · cases h
    · rename_i hne
      cases hfa : firstAnswer R host index with
      | none => rfl
      | some found =>
        cases found with
        | nil => exact absurd hfa (firstAnswer_ne_nil R host index)
        | cons first rest => exact absurd hfa (hne first rest)
  · intro h
    rw [h]

theorem firstAnswer_eq_none (R : Runtime) (index : nodeIndex) (host : InventoryHost) :
    firstAnswer R host index = none ↔ winningStrategy R index host = none := by
  rw [firstAnswer_eq]
  cases hw : winningStrategy R index host with
  | none => simp
  | some m =>
    simp only [Option.some_bind, reduceCtorEq, iff_false]
    intro hs
    have hl : lookupHits R index host m = true := by
      have := List.find?_some hw
      exact this
    rw [(strategy_eq_none R m host index).1 hs] at hl
    cases hl

theorem winningStrategy_eq_none (R : Runtime) (index : nodeIndex) (host : InventoryHost) :
    winningStrategy R index host = none ↔
      ∀ m ∈ strategyOrder, lookupHits R index host m = false := by
  unfold winningStrategy
  rw [List.find?_eq_none]
  constructor
  · intro h m hm
    simpa using h m hm
  · intro h m hm
    simp [h m hm]

theorem mem_filter_split {α : Type} (p : α → Bool) (l : List α) (x : α) :
    x ∈ l.filter p ++ l.filter (fun a => !p a) ↔ x ∈ l := by
  rw [List.mem_append, List.mem_filter, List.mem_filter]
  cases p x <;> simp

/-- The entries of `Matches` and `Ambiguous` are the entries of the hosts. -/
theorem mem_entries (R : Runtime) (index : nodeIndex) (hosts : List InventoryHost)
    (e : HostMatch) :
    e ∈ (hosts.filterMap (entryOf R index)).filter (fun e => e.Candidates.length = 1) ++
        (hosts.filterMap (entryOf R index)).filter (fun e => e.Candidates.length ≠ 1) ↔
      ∃ host ∈ hosts, entryOf R index host = some e := by
  have h := mem_filter_split (fun e : HostMatch => decide (e.Candidates.length = 1))
    (hosts.filterMap (entryOf R index)) e
  simp only [ne_eq, decide_not] at h ⊢
  rw [h, List.mem_filterMap]

/-- C1: `Match` returns, and classifies every host by the first strategy, in
the order machine-id, provider-id, internal-ip, external-ip, machine-name,
hostname, whose lookup of the host's canonical keys in its table returns at
least one node: the host has an entry, every entry of the host has that
strategy as Method and the answer of that strategy alone as candidates, and
the host is in UnmatchedHosts exactly when all six lookups are empty. -/
theorem Match_first_strategy (R : Runtime) (hosts : List InventoryHost) (nodes : List K8sNode) :
    ∃ r, Match R hosts nodes = some r ∧ ∀ host ∈ hosts,
      (host ∈ r.UnmatchedHosts ↔
        ∀ m ∈ strategyOrder, lookupHits R (buildIndex R nodes) host m = false) ∧
      (∀ m, winningStrategy R (buildIndex R nodes) host = some m →
        (∃ e ∈ r.Matches ++ r.Ambiguous, e.Host = host) ∧
        ∀ e ∈ r.Matches ++ r.Ambiguous, e.Host = host →
          e.Method = m ∧ strategy R m host (buildIndex R nodes) = some e.Candidates ∧
            ∀ c ∈ e.Candidates, c.Method = m) := by
  refine ⟨_, Match_eq R hosts nodes, ?_⟩
  intro host hhost
  simp only
  refine ⟨?_, ?_⟩
  · rw [List.mem_filter, Option.isNone_iff_eq_none, firstAnswer_eq_none,
      winningStrategy_eq_none]
    exact ⟨fun h => h.2, fun h => ⟨hhost, h⟩⟩
  · intro m hm
    refine ⟨?_, ?_⟩
    · cases he : entryOf R (buildIndex R nodes) host with
      | none =>
        rw [entryOf_eq_none, firstAnswer_eq_none, hm] at he
        cases he
      | some e =>
        exact ⟨e, (mem_entries R _ hosts e).2 ⟨host, hhost, he⟩, (entryOf_spec R _ host e he).1⟩
    · intro e he hhe
      obtain ⟨host', _, he'⟩ := (mem_entries R _ hosts e).1 he
      obtain ⟨h1, m', hw, hs, hmeth, _⟩ := entryOf_spec R _ host' e he'
      rw [hhe] at h1
      subst h1
      rw [hm] at hw
      injection hw with hw
      subst hw
      exact ⟨hmeth, hs, fun c hc => (strategy_candidates R m host _ _ hs c hc).1⟩

theorem entries_hosts (R : Runtime) (index : nodeIndex) (hosts : List InventoryHost) :
    (hosts.filterMap (entryOf R index)).map (fun e => e.Host) =
      hosts.filter (fun host => (firstAnswer R host index).isSome) := by
  induction hosts with
  | nil => rfl
  | cons host hosts ih =>
    cases he : entryOf R index host with
    | none =>
      have := (entryOf_eq_none R index host).1 he
      simp [List.filterMap_cons, he, List.filter_cons, this, ih]
    | some e =>
      have hh := (entryOf_spec R index host e he).1
      have hfa : (firstAnswer R host index).isSome = true := by
        cases hfa : firstAnswer R host index with
        | none =>
          rw [(entryOf_eq_none R index host).2 hfa] at he
          cases he
        | some found => rfl
      simp [List.filterMap_cons, he, List.filter_cons, hfa, ih, hh]

theorem filter_split_perm {α : Type} (p : α → Bool) (l : List α) :
    (l.filter p ++ l.filter (fun a => !p a)).Perm l := by
  induction l with
  | nil => simp
  | cons a l ih =>
    cases hp : p a
    · simp only [List.filter_cons, hp, Bool.false_eq_true, if_false, Bool.not_false, if_true]
      exact List.perm_middle.trans (ih.cons a)
    · simp only [List.filter_cons, hp, if_true, Bool.not_true, Bool.false_eq_true, if_false,
        List.cons_append]
      exact ih.cons a

/-- C3: every input host, counted by position, is the Host of exactly one
entry among Matches, Ambiguous and UnmatchedHosts: the hosts of the three
lists, put together, are a rearrangement of the input host list, and the three
lengths add up to the number of hosts. -/
theorem Match_hosts_partition (R : Runtime) (hosts : List InventoryHost) (nodes : List K8sNode) :
    ∃ r, Match R hosts nodes = some r ∧
      (r.Matches.map (fun e => e.Host) ++ r.Ambiguous.map (fun e => e.Host) ++
        r.UnmatchedHosts).Perm hosts ∧
      r.Matches.length + r.Ambiguous.length + r.UnmatchedHosts.length = hosts.length := by
  refine ⟨_, Match_eq R hosts nodes, ?_⟩
  simp only
  have hperm : (((hosts.filterMap (entryOf R (buildIndex R nodes))).filter
        (fun e => e.Candidates.length = 1)).map (fun e => e.Host) ++
      ((hosts.filterMap (entryOf R (buildIndex R nodes))).filter
        (fun e => e.Candidates.length ≠ 1)).map (fun e => e.Host) ++
      hosts.filter (fun host => (firstAnswer R host (buildIndex R nodes)).isNone)).Perm
      hosts := by
    rw [← List.map_append]
    have h1 := filter_split_perm (fun e : HostMatch => decide (e.Candidates.length = 1))
      (hosts.filterMap (entryOf R (buildIndex R nodes)))
    simp only [ne_eq, decide_not]
    have h2 := (h1.map (fun e => e.Host)).append_right
      (hosts.filter (fun host => (firstAnswer R host (buildIndex R nodes)).isNone))
    refine h2.trans ?_
    rw [entries_hosts]
    have h3 := filter_split_perm (fun host => (firstAnswer R host (buildIndex R nodes)).isSome)
      hosts
    have h4 : (fun host => !(firstAnswer R host (buildIndex R nodes)).isSome) =
        fun host => (firstAnswer R host (buildIndex R nodes)).isNone := by
      funext host
      cases firstAnswer R host (buildIndex R nodes) <;> rfl
    rw [h4] at h3
    exact h3
  refine ⟨hperm, ?_⟩
  have := hperm.length_eq
  simp only [List.length_append, List.length_map] at this ⊢
  omega

theorem seenBy_iff (R : Runtime) (index : nodeIndex) (hosts : List InventoryHost) (key : String) :
    seenBy R index hosts key = true ↔
      ∃ host ∈ hosts, ∃ e, entryOf R index host = some e ∧
        ∃ c ∈ e.Candidates, nodeKey c.Node = key := by
  unfold seenBy
  rw [List.any_eq_true]
  constructor
  · rintro ⟨host, hhost, h⟩
    rw [List.any_eq_true] at h
    obtain ⟨c, hc, hk⟩ := h
    cases hfa : firstAnswer R host index with
    | none => rw [hfa] at hc; cases hc
    | some found =>
      rw [hfa] at hc
      cases found with
      | nil => cases hc
      | cons first rest =>
        have he : entryOf R index host = some (HostMatch.mk host (first :: rest) first.Method
            first.Confidence) := by
          simp only [entryOf, hfa]
        exact ⟨host, hhost, _, he, c, hc, by simpa using hk⟩
  · rintro ⟨host, hhost, e, he, c, hc, hk⟩
    refine ⟨host, hhost, ?_⟩
    rw [List.any_eq_true]
    refine ⟨c, ?_, by simpa using hk⟩
    obtain ⟨_, m, hw, hs, _⟩ := entryOf_spec R index host e he
    rw [firstAnswer_eq, hw]
    simp only [Option.some_bind, hs, Option.getD_some]
    exact hc

/-- C4: for every input node, exactly one of the two holds: its node key is
the key of a candidate of an entry of Matches or Ambiguous, or the node is in
UnmatchedNodes; and UnmatchedNodes holds input nodes only. -/
theorem Match_nodes_partition (R : Runtime) (hosts : List InventoryHost) (nodes : List K8sNode) :
    ∃ r, Match R hosts nodes = some r ∧
      (∀ n ∈ nodes,
        Xor' (∃ e ∈ r.Matches ++ r.Ambiguous, ∃ c ∈ e.Candidates, nodeKey c.Node = nodeKey n)
          (n ∈ r.UnmatchedNodes)) ∧
      ∀ n ∈ r.UnmatchedNodes, n ∈ nodes := by
  refine ⟨_, Match_eq R hosts nodes, ?_, ?_⟩
  · intro n hn
    simp only
    have hiff : (∃ e ∈ (hosts.filterMap (entryOf R (buildIndex R nodes))).filter
          (fun e => e.Candidates.length = 1) ++
          (hosts.filterMap (entryOf R (buildIndex R nodes))).filter
            (fun e => e.Candidates.length ≠ 1),
          ∃ c ∈ e.Candidates, nodeKey c.Node = nodeKey n) ↔
        seenBy R (buildIndex R nodes) hosts (nodeKey n) = true := by
      rw [seenBy_iff]
      constructor
      · rintro ⟨e, he, c, hc, hk⟩
        obtain ⟨host, hhost, he'⟩ := (mem_entries R _ hosts e).1 he
        exact ⟨host, hhost, e, he', c, hc, hk⟩
      · rintro ⟨host, hhost, e, he, c, hc, hk⟩
        exact ⟨e, (mem_entries R _ hosts e).2 ⟨host, hhost, he⟩, c, hc, hk⟩
    rw [hiff, List.mem_filter]
    cases hs : seenBy R (buildIndex R nodes) hosts (nodeKey n) with
    | true =>
      left
      exact ⟨rfl, by simp⟩
    | false =>
      right
      exact ⟨⟨hn, by simp⟩, by simp⟩
  · intro n hn
    simp only at hn
    exact (List.mem_filter.1 hn).1

/-- C5: every entry of Matches has exactly one candidate, every entry of
Ambiguous has at least two, and the candidates of an entry all carry the
Method of the entry. -/
theorem Match_candidate_counts (R : Runtime) (hosts : List InventoryHost) (nodes : List K8sNode) :
    ∃ r, Match R hosts nodes = some r ∧
      (∀ e ∈ r.Matches, e.Candidates.length = 1 ∧ ∀ c ∈ e.Candidates, c.Method = e.Method) ∧
      (∀ e ∈ r.Ambiguous, 2 ≤ e.Candidates.length ∧ ∀ c ∈ e.Candidates, c.Method = e.Method) := by
  refine ⟨_, Match_eq R hosts nodes, ?_, ?_⟩
  · intro e he
    simp only at he
    obtain ⟨he1, he2⟩ := List.mem_filter.1 he
    obtain ⟨host, _, he'⟩ := List.mem_filterMap.1 he1
    obtain ⟨_, m, _, hs, hm, _⟩ := entryOf_spec R _ host e he'
    refine ⟨by simpa using he2, ?_⟩
    intro c hc
    rw [hm]
    exact (strategy_candidates R m host _ _ hs c hc).1
  · intro e he
    simp only at he
    obtain ⟨he1, he2⟩ := List.mem_filter.1 he
    obtain ⟨host, _, he'⟩ := List.mem_filterMap.1 he1
    obtain ⟨_, m, _, hs, hm, _⟩ := entryOf_spec R _ host e he'
    have hne : e.Candidates ≠ [] := fun h0 => strategy_ne_nil R m host _ (h0 ▸ hs)
    have h1 : e.Candidates.length ≠ 1 := by simpa using he2
    have h0 : e.Candidates.length ≠ 0 := fun h => hne (List.length_eq_zero.1 h)
    refine ⟨by omega, ?_⟩
    intro c hc
    rw [hm]
    exact (strategy_candidates R m host _ _ hs c hc).1

/-- C7: the candidate list of every entry of Matches and Ambiguous is sorted
by node name in ascending lexicographic order (no candidate is followed by one
with a smaller name) and holds no two candidates with the same node key. -/
theorem Match_candidates_sorted (R : Runtime) (hosts : List InventoryHost)
    (nodes : List K8sNode) :
    ∃ r, Match R hosts nodes = some r ∧ ∀ e ∈ r.Matches ++ r.Ambiguous,
      e.Candidates.Sorted (fun a b => a.Node.Name.data ≤ b.Node.Name.data) ∧
      (e.Candidates.map (fun c => nodeKey c.Node)).Nodup := by
  refine ⟨_, Match_eq R hosts nodes, ?_⟩
  intro e he
  obtain ⟨host, _, he'⟩ := (mem_entries R _ hosts e).1 he
  obtain ⟨_, m, _, hs, _⟩ := entryOf_spec R _ host e he'
  obtain ⟨_, h2, h3, _⟩ := matchByKeys_some R _ _ _ _ _ hs
  exact ⟨h2, h3⟩

theorem table_subset (R : Runtime) (m : Method) (nodes : List K8sNode) (key : String)
    (n : K8sNode) (h : n ∈ table m (buildIndex R nodes) key) :
    n ∈ nodes ∧ key ∈ nodeKeys R m n := by
  rw [table_buildIndex, List.mem_filter] at h
  exact ⟨h.1, by simpa using h.2⟩

/-- With pairwise distinct node keys, the answer of a strategy holds exactly
the nodes filed under one of the host's keys, each once. -/
theorem strategy_nodes (R : Runtime) (m : Method) (host : InventoryHost) (nodes : List K8sNode)
    (hkeys : (nodes.map nodeKey).Nodup) (found : List NodeMatch)
    (h : strategy R m host (buildIndex R nodes) = some found) :
    (found.map (fun c => c.Node)).Nodup ∧
    ∀ n, n ∈ found.map (fun c => c.Node) ↔
      ∃ key ∈ hostKeys R m host, n ∈ table m (buildIndex R nodes) key := by
  obtain ⟨_, _, h3, h4, h5⟩ := matchByKeys_some R _ _ _ _ _ h
  refine ⟨?_, ?_⟩
  · have : found.map (fun c => nodeKey c.Node) = (found.map (fun c => c.Node)).map nodeKey := by
      rw [List.map_map]
      rfl
    rw [this] at h3
    exact List.Nodup.of_map _ h3
  · intro n
    constructor
    · intro hn
      obtain ⟨c, hc, rfl⟩ := List.mem_map.1 hn
      obtain ⟨key, hkey, node, hnode, rfl⟩ := h4 c hc
      exact ⟨key, hkey, hnode⟩
    · rintro ⟨key, hkey, hn⟩
      obtain ⟨c, hc, hk⟩ := h5 key hkey n hn
      obtain ⟨key', _, node, hnode, rfl⟩ := h4 c hc
      have h1 := (table_subset R m nodes key' node hnode).1
      have h2 := (table_subset R m nodes key n hn).1
      have : node = n := List.inj_on_of_nodup_map hkeys h1 h2 hk
      subst this
      exact List.mem_map.2 ⟨_, hc, rfl⟩

theorem winningStrategy_machineID (R : Runtime) (index : nodeIndex) (host : InventoryHost)
    (h : lookupHits R index host MethodMachineID = true) :
    winningStrategy R index host = some MethodMachineID := by
  simp [winningStrategy, strategyOrder, List.find?, h]

theorem lookupHits_of_mem (R : Runtime) (index : nodeIndex) (host : InventoryHost) (m : Method)
    (key : String) (n : K8sNode) (hkey : key ∈ hostKeys R m host) (hn : n ∈ table m index key) :
    lookupHits R index host m = true := by
  unfold lookupHits
  rw [List.any_eq_true]
  refine ⟨key, hkey, ?_⟩
  cases ht : table m index key with
  | nil => rw [ht] at hn; cases hn
  | cons a as => rfl

/-- C2, as amended: with pairwise distinct node keys, the candidates of every
entry are exactly the nodes filed, in the table of the entry's strategy (the
winning strategy of its host), under at least one of the host's canonical
keys, each node once; and if the host's machine-ID keys find a node A and its
internal-IP keys find a node B that its machine-ID keys do not find, the entry
has Method machine-id and references A and not B. -/
theorem Match_candidates_exact (R : Runtime) (hosts : List InventoryHost) (nodes : List K8sNode)
    (hkeys : (nodes.map nodeKey).Nodup) :
    ∃ r, Match R hosts nodes = some r ∧ ∀ e ∈ r.Matches ++ r.Ambiguous,
      winningStrategy R (buildIndex R nodes) e.Host = some e.Method ∧
      (e.Candidates.map (fun c => c.Node)).Nodup ∧
      (∀ n, n ∈ e.Candidates.map (fun c => c.Node) ↔
        ∃ key ∈ hostKeys R e.Method e.Host, n ∈ table e.Method (buildIndex R nodes) key) ∧
      ∀ A B : K8sNode,
        (∃ key ∈ hostKeys R MethodMachineID e.Host,
          A ∈ table MethodMachineID (buildIndex R nodes) key) →
        (∃ key ∈ hostKeys R MethodInternalIP e.Host,
          B ∈ table MethodInternalIP (buildIndex R nodes) key) →
        (¬ ∃ key ∈ hostKeys R MethodMachineID e.Host,
          B ∈ table MethodMachineID (buildIndex R nodes) key) →
        e.Method = MethodMachineID ∧ A ∈ e.Candidates.map (fun c => c.Node) ∧
          B ∉ e.Candidates.map (fun c => c.Node) := by
  refine ⟨_, Match_eq R hosts nodes, ?_⟩
  intro e he
  obtain ⟨host, _, he'⟩ := (mem_entries R _ hosts e).1 he
  obtain ⟨hh, m, hw, hs, hm, _⟩ := entryOf_spec R _ host e he'
  subst hh
  subst hm
  obtain ⟨hnd, hmem⟩ := strategy_nodes R e.Method e.Host nodes hkeys _ hs
  refine ⟨hw, hnd, hmem, ?_⟩
  rintro A B ⟨key, hkey, hA⟩ _ hB
  have hwin := winningStrategy_machineID R _ e.Host
    (lookupHits_of_mem R _ e.Host MethodMachineID key A hkey hA)
  rw [hw] at hwin
  injection hwin with hwin
  refine ⟨hwin, ?_, ?_⟩
  · rw [hmem, hwin]
    exact ⟨key, hkey, hA⟩
  · rw [hmem, hwin]
    exact hB

/-- C2, counterexample to the claim as stated: the node keys are distinct, the
host's machine-ID finds `nodeA`, its internal IP finds the different node
`nodeB`, and the host's entry, of Method machine-id, references `nodeB` too,
because the machine-ID finds it as well. -/
theorem Match_candidates_exact_counterexample :
    ([nodeA, nodeB].map nodeKey).Nodup ∧ nodeB ≠ nodeA ∧
    "mid-1" ∈ hostKeys Runtime.inOrder MethodMachineID hostAB ∧
    nodeA ∈ table MethodMachineID (buildIndex Runtime.inOrder [nodeA, nodeB]) "mid-1" ∧
    "10.0.0.2" ∈ hostKeys Runtime.inOrder MethodInternalIP hostAB ∧
    nodeB ∈ table MethodInternalIP (buildIndex Runtime.inOrder [nodeA, nodeB]) "10.0.0.2" ∧
    (Match Runtime.inOrder [hostAB] [nodeA, nodeB]).map
        (fun r => (entryNodes r.Matches, entryNodes r.Ambiguous)) =
      some ([], [(MethodMachineID, [nodeA, nodeB])]) := by
  decide

/-- C2, witness: the amended claim at `hostAB` and the nodes `nodeA`, `nodeB`. -/
theorem Match_candidates_exact_witness :
    ([nodeA, nodeB].map nodeKey).Nodup ∧
    ∃ r, Match Runtime.inOrder [hostAB] [nodeA, nodeB] = some r ∧
      ∀ e ∈ r.Matches ++ r.Ambiguous,
        winningStrategy Runtime.inOrder (buildIndex Runtime.inOrder [nodeA, nodeB]) e.Host =
          some e.Method ∧
        (e.Candidates.map (fun c => c.Node)).Nodup ∧
        (∀ n, n ∈ e.Candidates.map (fun c => c.Node) ↔
          ∃ key ∈ hostKeys Runtime.inOrder e.Method e.Host,
            n ∈ table e.Method (buildIndex Runtime.inOrder [nodeA, nodeB]) key) ∧
        ∀ A B : K8sNode,
          (∃ key ∈ hostKeys Runtime.inOrder MethodMachineID e.Host,
            A ∈ table MethodMachineID (buildIndex Runtime.inOrder [nodeA, nodeB]) key) →
          (∃ key ∈ hostKeys Runtime.inOrder MethodInternalIP e.Host,
            B ∈ table MethodInternalIP (buildIndex Runtime.inOrder [nodeA, nodeB]) key) →
          (¬ ∃ key ∈ hostKeys Runtime.inOrder MethodMachineID e.Host,
            B ∈ table MethodMachineID (buildIndex Runtime.inOrder [nodeA, nodeB]) key) →
          e.Method = MethodMachineID ∧ A ∈ e.Candidates.map (fun c => c.Node) ∧
            B ∉ e.Candidates.map (fun c => c.Node) :=
  ⟨by decide, Match_candidates_exact Runtime.inOrder [hostAB] [nodeA, nodeB] (by decide)⟩

theorem mem_normalizedIDs (R : Runtime) (values : List String) (key : String) :
    key ∈ normalizedIDs R values ↔ key ≠ "" ∧ ∃ v ∈ values, normalizeID R v = key := by
  unfold normalizedIDs
  rw [mem_uniqueSorted, List.mem_filter, List.mem_map]
  constructor
  · rintro ⟨h1, h2⟩
    exact ⟨by simpa using h2, h1⟩
  · rintro ⟨h1, h2⟩
    exact ⟨h2, by simpa using h1⟩

theorem mem_table_machineID (R : Runtime) (nodes : List K8sNode) (key : String) (n : K8sNode) :
    n ∈ table MethodMachineID (buildIndex R nodes) key ↔
      n ∈ nodes ∧ key ≠ "" ∧ normalizeID R n.MachineID = key := by
  rw [table_buildIndex, List.mem_filter]
  simp only [nodeKeys, decide_eq_true_eq]
  constructor
  · rintro ⟨h1, h2⟩
    refine ⟨h1, ?_⟩
    split at h2
    · rename_i hne
      rw [List.mem_singleton] at h2
      subst h2
      exact ⟨hne, rfl⟩
    · cases h2
  · rintro ⟨h1, h2, h3⟩
    refine ⟨h1, ?_⟩
    subst h3
    simp [h2]

/-- C6: when exactly two nodes of the list, with distinct node keys, have a
machine-ID that canonicalizes to the non-empty value `k`, and the machine-ID or
system-UUID of a host canonicalizes to `k` and neither canonicalizes to the
machine-ID of another node, `Match` files the host under Ambiguous, not under
Matches or UnmatchedHosts: its entry has Method machine-id, exactly those two
nodes as candidates, each of Method machine-id, sorted by node name. -/
theorem Match_shared_machineID (R : Runtime) (hosts : List InventoryHost) (nodes : List K8sNode)
    (host : InventoryHost) (a b : K8sNode) (k : String)
    (hhost : host ∈ hosts) (hk : k ≠ "")
    (hnodes : nodes.filter (fun n => decide (normalizeID R n.MachineID = k)) = [a, b])
    (hab : nodeKey a ≠ nodeKey b)
    (hhk : normalizeID R host.MachineID = k ∨ normalizeID R host.SystemUUID = k)
    (hother : ∀ n ∈ nodes, normalizeID R n.MachineID ≠ "" →
      normalizeID R n.MachineID = normalizeID R host.MachineID ∨
        normalizeID R n.MachineID = normalizeID R host.SystemUUID →
      normalizeID R n.MachineID = k) :
    ∃ r, Match R hosts nodes = some r ∧
      (∃ e ∈ r.Ambiguous, e.Host = host) ∧
      (∀ e ∈ r.Matches, e.Host ≠ host) ∧
      host ∉ r.UnmatchedHosts ∧
      ∀ e ∈ r.Ambiguous, e.Host = host →
        e.Method = MethodMachineID ∧
        (∀ c ∈ e.Candidates, c.Method = MethodMachineID) ∧
        (e.Candidates.map (fun c => c.Node)).Perm [a, b] ∧
        e.Candidates.Sorted (fun x y => x.Node.Name.data ≤ y.Node.Name.data) := by
  have hfa : ∀ n, n ∈ [a, b] ↔ n ∈ nodes ∧ normalizeID R n.MachineID = k := by
    intro n
    rw [← hnodes, List.mem_filter]
    simp
  have ha := (hfa a).1 (by simp)
  have hb := (hfa b).1 (by simp)
  have hkey : k ∈ hostKeys R MethodMachineID host := by
    simp only [hostKeys]
    rw [mem_normalizedIDs]
    refine ⟨hk, ?_⟩
    rcases hhk with h | h
    · exact ⟨_, List.mem_cons_self _ _, h⟩
    · exact ⟨_, List.mem_cons_of_mem _ (List.mem_cons_self _ _), h⟩
  have hatab : a ∈ table MethodMachineID (buildIndex R nodes) k :=
    (mem_table_machineID R nodes k a).2 ⟨ha.1, hk, ha.2⟩
  have hbtab : b ∈ table MethodMachineID (buildIndex R nodes) k :=
    (mem_table_machineID R nodes k b).2 ⟨hb.1, hk, hb.2⟩
  have hwin : winningStrategy R (buildIndex R nodes) host = some MethodMachineID :=
    winningStrategy_machineID R _ host (lookupHits_of_mem R _ host MethodMachineID k a hkey hatab)
  -- what every entry of the host looks like
  have hentry : ∀ e, entryOf R (buildIndex R nodes) host = some e →
      e.Method = MethodMachineID ∧ (∀ c ∈ e.Candidates, c.Method = MethodMachineID) ∧
      (e.Candidates.map (fun c => c.Node)).Perm [a, b] ∧
      e.Candidates.Sorted (fun x y => x.Node.Name.data ≤ y.Node.Name.data) := by
    intro e he
    obtain ⟨_, m, hw, hs, hm, _⟩ := entryOf_spec R _ host e he
    rw [hwin] at hw
    injection hw with hw
    subst hw
    obtain ⟨_, hsorted, hnd, hc4, hc5⟩ := matchByKeys_some R _ _ _ _ _ hs
    refine ⟨hm, fun c hc => (strategy_candidates R _ host _ _ hs c hc).1, ?_, hsorted⟩
    have hsub : ∀ c ∈ e.Candidates, c.Node ∈ [a, b] := by
      intro c hc
      obtain ⟨key, hkey', node, hnode, rfl⟩ := hc4 c hc
      obtain ⟨hn1, hn2, hn3⟩ := (mem_table_machineID R nodes key node).1 hnode
      simp only [hostKeys] at hkey'
      obtain ⟨_, v, hv, hv2⟩ := (mem_normalizedIDs R _ key).1 hkey'
      have hv' : v = host.MachineID ∨ v = host.SystemUUID := by simpa using hv
      have : normalizeID R node.MachineID = k := by
        apply hother node hn1 (by rw [hn3]; exact hn2)
        rcases hv' with rfl | rfl
        · exact Or.inl (hn3.trans hv2.symm)
        · exact Or.inr (hn3.trans hv2.symm)
      exact (hfa node).2 ⟨hn1, this⟩
    have hnd' : (e.Candidates.map (fun c => c.Node)).Nodup := by
      have : e.Candidates.map (fun c => nodeKey c.Node) =
          (e.Candidates.map (fun c => c.Node)).map nodeKey := by
        rw [List.map_map]
        rfl
      rw [this] at hnd
      exact List.Nodup.of_map _ hnd
    have hane : a ≠ b := fun h => hab (by rw [h])
    have hnd2 : [a, b].Nodup := by simp [hane]
    rw [List.perm_ext_iff_of_nodup hnd' hnd2]
    intro n
    constructor
    · intro hn
      obtain ⟨c, hc, rfl⟩ := List.mem_map.1 hn
      exact hsub c hc
    · intro hn
      have hn' : n = a ∨ n = b := by simpa using hn
      rcases hn' with rfl | rfl
      · obtain ⟨c, hc, hck⟩ := hc5 k hkey n hatab
        have := hsub c hc
        have hc' : c.Node = n ∨ c.Node = b := by simpa using this
        rcases hc' with h | h
        · exact List.mem_map.2 ⟨c, hc, h⟩
        · rw [h] at hck
          exact absurd hck.symm hab
      · obtain ⟨c, hc, hck⟩ := hc5 k hkey n hbtab
        have := hsub c hc
        have hc' : c.Node = a ∨ c.Node = n := by simpa using this
        rcases hc' with h | h
        · rw [h] at hck
          exact absurd hck hab
        · exact List.mem_map.2 ⟨c, hc, h⟩
  have hlen : ∀ e, entryOf R (buildIndex R nodes) host = some e → e.Candidates.length = 2 := by
    intro e he
    have := (hentry e he).2.2.1.length_eq
    simpa using this
  refine ⟨_, Match_eq R hosts nodes, ?_, ?_, ?_, ?_⟩
  · cases he : entryOf R (buildIndex R nodes) host with
    | none =>
      rw [entryOf_eq_none, firstAnswer_eq_none, hwin] at he
      cases he
    | some e =>
      refine ⟨e, ?_, (entryOf_spec R _ host e he).1⟩
      simp only
      rw [List.mem_filter]
      exact ⟨List.mem_filterMap.2 ⟨host, hhost, he⟩, by simp [hlen e he]⟩
  · intro e he hh
    simp only at he
    obtain ⟨he1, he2⟩ := List.mem_filter.1 he
    obtain ⟨host', _, he'⟩ := List.mem_filterMap.1 he1
    have := (entryOf_spec R _ host' e he').1
    rw [hh] at this
    subst this
    have h2 := hlen e he'
    simp [h2] at he2
  · simp only
    rw [List.mem_filter]
    rintro ⟨_, h⟩
    rw [Option.isNone_iff_eq_none, firstAnswer_eq_none, hwin] at h
    cases h
  · intro e he hh
    simp only at he
    obtain ⟨he1, _⟩ := List.mem_filter.1 he
    obtain ⟨host', _, he'⟩ := List.mem_filterMap.1 he1
    have := (entryOf_spec R _ host' e he').1
    rw [hh] at this
    subst this
    exact hentry e he'

theorem mem_hexRunes (c : Char) (h : isHexRune c = true) : c ∈ hexRunes := by
  have hc : c = Char.ofNat c.toNat := (Char.ofNat_toNat c).symm
  have hr : (48 ≤ c.toNat ∧ c.toNat ≤ 57) ∨ (97 ≤ c.toNat ∧ c.toNat ≤ 102) ∨
      (65 ≤ c.toNat ∧ c.toNat ≤ 70) := by
    simp only [isHexRune, Bool.or_eq_true, Bool.and_eq_true, decide_eq_true_eq, ge_iff_le,
      Char.le_def, Char.toNat] at h ⊢
    simp only [UInt32.le_def, Fin.le_def] at h
    rcases h with (h | h) | h
    · exact Or.inl h
    · exact Or.inr (Or.inl h)
    · exact Or.inr (Or.inr h)
  rw [hc]
  rcases hr with ⟨h1, h2⟩ | ⟨h1, h2⟩ | ⟨h1, h2⟩ <;>
  · interval_cases c.toNat <;> decide

theorem hexRunes_facts : ∀ c ∈ hexRunes,
    c.toNat < 128 ∧ notLowerHex c.toLower = false ∧ c.toLower.utf8Size = 1 ∧
      c.toLower ≠ '-' ∧ isSpace c = false ∧ c ≠ '.' := by
  decide

theorem TrimSpace_data (s : String) :
    (TrimSpace s).data = (s.data.dropWhile isSpace).rdropWhile isSpace := rfl

theorem trim_eq_self_iff (l : List Char) :
    (l.dropWhile isSpace).rdropWhile isSpace = l ↔
      l.dropWhile isSpace = l ∧ l.rdropWhile isSpace = l := by
  constructor
  · intro h
    have h1 : ((l.dropWhile isSpace).rdropWhile isSpace).length ≤ (l.dropWhile isSpace).length :=
      (List.rdropWhile_prefix isSpace _).length_le
    have h2 : (l.dropWhile isSpace).length ≤ l.length := (List.dropWhile_suffix isSpace).length_le
    rw [h] at h1
    have h3 : l.dropWhile isSpace = l :=
      (List.dropWhile_suffix isSpace).eq_of_length (le_antisymm h2 h1)
    rw [h3] at h
    exact ⟨h3, h⟩
  · rintro ⟨h1, h2⟩
    rw [h1, h2]

theorem TrimSpace_eq_self_iff (s : String) :
    TrimSpace s = s ↔ s.data.dropWhile isSpace = s.data ∧ s.data.rdropWhile isSpace = s.data := by
  rw [← trim_eq_self_iff, ← TrimSpace_data]
  constructor
  · intro h
    rw [h]
  · intro h
    exact String.ext h

theorem dropWhile_rdropWhile (l : List Char) :
    ((l.dropWhile isSpace).rdropWhile isSpace).dropWhile isSpace =
      (l.dropWhile isSpace).rdropWhile isSpace := by
  obtain ⟨u, hu⟩ := List.rdropWhile_prefix isSpace (l.dropWhile isSpace)
  have hhead := List.head?_dropWhile_not isSpace l
  rw [← hu] at hhead
  generalize List.rdropWhile isSpace (l.dropWhile isSpace) = t at hhead
  cases t with
  | nil => rfl
  | cons x xs =>
    simp only [List.cons_append, List.head?_cons] at hhead
    simp [List.dropWhile_cons, hhead]

/-- The function `strings.TrimSpace` is idempotent. -/
theorem TrimSpace_idem (s : String) : TrimSpace (TrimSpace s) = TrimSpace s := by
  rw [TrimSpace_eq_self_iff, TrimSpace_data]
  exact ⟨dropWhile_rdropWhile s.data, List.rdropWhile_idempotent _ _⟩

theorem dropWhile_append_self (a b : List Char) (ha : a ≠ [])
    (h : a.dropWhile isSpace = a) : (a ++ b).dropWhile isSpace = a ++ b := by
  cases a with
  | nil => exact absurd rfl ha
  | cons x xs =>
    have hx : isSpace x = false := by
      cases hx : isSpace x with
      | false => rfl
      | true =>
        rw [List.dropWhile_cons_of_pos hx] at h
        have := (List.dropWhile_suffix isSpace (l := xs)).length_le
        rw [h] at this
        simp at this
    simp [List.dropWhile_cons, hx]

theorem rdropWhile_append_self (a b : List Char) (hb : b ≠ [])
    (h : b.rdropWhile isSpace = b) : (a ++ b).rdropWhile isSpace = a ++ b := by
  rw [List.rdropWhile_eq_self_iff] at h ⊢
  intro hl
  rw [List.getLast_append_of_ne_nil hb]
  exact h hb

theorem mem_of_mem_TrimSpace (s : String) (c : Char) (h : c ∈ (TrimSpace s).data) :
    c ∈ s.data := by
  rw [TrimSpace_data] at h
  exact (List.dropWhile_suffix isSpace).subset ((List.rdropWhile_prefix isSpace _).subset h)

theorem TrimSpace_empty : TrimSpace "" = "" := rfl

theorem LastIndex_append (a b : List Char) (c : Char) (hb : c ∉ b) :
    LastIndex ⟨a ++ c :: b⟩ c = (a.length : Int) := by
  unfold LastIndex
  have hmem : c ∈ a ++ c :: b := by simp
  simp only [hmem, if_true]
  have hrev : (a ++ c :: b).reverse = b.reverse ++ c :: a.reverse := by simp
  rw [hrev]
  have hall : ∀ x ∈ b.reverse, (fun x => decide (x ≠ c)) x = true := by
    intro x hx
    have : x ≠ c := fun h => hb (h ▸ List.mem_reverse.1 hx)
    simpa using this
  rw [List.takeWhile_append_of_pos hall]
  simp only [List.takeWhile_cons, ne_eq, not_true_eq_false, decide_False, Bool.false_eq_true,
    if_false, List.append_nil, List.length_reverse, List.length_append, List.length_cons]
  push_cast
  omega

theorem LastIndex_not_mem (s : String) (c : Char) (h : c ∉ s.data) : LastIndex s c = -1 := by
  unfold LastIndex
  simp [h]

/-- The function `trimHexSuffix` drops a last `-`-separated segment of eight
lower-case hexadecimal digits. -/
theorem trimHexSuffix_append (a b : List Char) (ha : a ≠ []) (hb : '-' ∉ b)
    (hlen : byteLen ⟨b⟩ = 8) (hhex : ∀ c ∈ b, notLowerHex c = false) :
    trimHexSuffix ⟨a ++ '-' :: b⟩ = ⟨a⟩ := by
  unfold trimHexSuffix
  simp only [LastIndex_append a b '-' hb]
  have hpos : ¬ ((a.length : Int) ≤ 0) := by
    have : 0 < a.length := List.length_pos.2 ha
    omega
  simp only [hpos, if_false]
  have hfrom : sliceFrom ⟨a ++ '-' :: b⟩ ((a.length : Int) + 1) = ⟨b⟩ := by
    unfold sliceFrom
    have : ((a.length : Int) + 1).toNat = a.length + 1 := by omega
    rw [this]
    congr 1
    simp
  have hto : sliceTo ⟨a ++ '-' :: b⟩ (a.length : Int) = ⟨a⟩ := by
    unfold sliceTo
    congr 1
    simp
  rw [hfrom, hto]
  have hany : List.any b notLowerHex = false := by
    rw [List.any_eq_false]
    intro c hc
    simp [hhex c hc]
  simp [hlen, hany]

theorem ToLower_append (R : Runtime) (a b : String) :
    ToLower R (a ++ b) = ToLower R a ++ ToLower R b := by
  unfold ToLower
  apply String.ext
  simp

/-- Membership in `normalizedHostnames`: the canonical form, its part before
the first dot, and both without a hexadecimal suffix. -/
theorem mem_normalizedHostnames (R : Runtime) (value x : String) :
    x ∈ normalizedHostnames R value ↔
      normalizeHostname R value ≠ "" ∧
      (x = normalizeHostname R value ∨
       x = (if Index (normalizeHostname R value) '.' > 0
            then sliceTo (normalizeHostname R value) (Index (normalizeHostname R value) '.')
            else normalizeHostname R value) ∨
       x = trimHexSuffix (normalizeHostname R value) ∨
       x = trimHexSuffix (if Index (normalizeHostname R value) '.' > 0
            then sliceTo (normalizeHostname R value) (Index (normalizeHostname R value) '.')
            else normalizeHostname R value)) := by
  unfold normalizedHostnames
  simp only
  generalize normalizeHostname R value = full
  generalize (if Index full '.' > 0 then sliceTo full (Index full '.') else full) = short
  by_cases hfull : full = ""
  · simp [hfull]
  · simp only [hfull, if_false, ne_eq, not_false_eq_true, true_and, mem_uniqueSorted]
    by_cases h1 : short = full <;> by_cases h2 : trimHexSuffix full = full <;>
      by_cases h3 : trimHexSuffix short = short <;>
      simp [h1, h2, h3] <;> tauto

theorem normalizedHostnames_ne_nil (R : Runtime) (value : String)
    (h : normalizeHostname R value ≠ "") : normalizedHostnames R value ≠ [] := by
  intro h0
  have : normalizeHostname R value ∈ normalizedHostnames R value :=
    (mem_normalizedHostnames R value _).2 ⟨h, Or.inl rfl⟩
  rw [h0] at this
  cases this

theorem normalizedHostnames_empty (R : Runtime) : normalizedHostnames R "" = [] := by
  unfold normalizedHostnames normalizeHostname
  simp [TrimSpace_empty]

theorem normalizeID_empty (R : Runtime) : normalizeID R "" = "" := by
  unfold normalizeID
  simp [TrimSpace_empty]

theorem normalizedIDs_empty2 (R : Runtime) : normalizedIDs R ["", ""] = [] := by
  unfold normalizedIDs
  simp [normalizeID_empty, uniqueSorted]

theorem normalizedIDs_empty1 (R : Runtime) : normalizedIDs R [""] = [] := by
  unfold normalizedIDs
  simp [normalizeID_empty, uniqueSorted]

theorem normalizedIPs_nil (R : Runtime) : normalizedIPs R [] = [] := by
  unfold normalizedIPs
  simp [uniqueSorted]

theorem lookupHits_keys_nil (R : Runtime) (index : nodeIndex) (host : InventoryHost) (m : Method)
    (h : hostKeys R m host = []) : lookupHits R index host m = false := by
  unfold lookupHits
  rw [h]
  rfl

theorem eq_singleton_of_all_eq {α β : Type} (f : α → β) (l : List α) (hne : l ≠ [])
    (hnd : (l.map f).Nodup) (b : β) (hall : ∀ x ∈ l, f x = b) : ∃ x, l = [x] := by
  cases l with
  | nil => exact absurd rfl hne
  | cons x xs =>
    cases xs with
    | nil => exact ⟨x, rfl⟩
    | cons y ys =>
      exfalso
      simp only [List.map_cons, List.nodup_cons, List.mem_cons, not_or] at hnd
      apply hnd.1.1
      rw [hall x (List.mem_cons_self _ _),
        hall y (List.mem_cons_of_mem _ (List.mem_cons_self _ _))]

/-- One host against one node: when some strategy wins, the result is a single
definitive match, by that strategy, with the node as candidate. -/
theorem Match_single (R : Runtime) (host : InventoryHost) (node : K8sNode) (m : Method)
    (hw : winningStrategy R (buildIndex R [node]) host = some m) :
    ∃ c, c.Node = node ∧ c.Method = m ∧ c.Confidence = methodConfidence m ∧
      Match R [host] [node] = some
        { Matches := [HostMatch.mk host [c] m (methodConfidence m)]
          Ambiguous := []
          UnmatchedHosts := []
          UnmatchedNodes := [] } := by
  have hfa := firstAnswer_eq R host (buildIndex R [node])
  rw [hw] at hfa
  simp only [Option.some_bind] at hfa
  cases hs : strategy R m host (buildIndex R [node]) with
  | none =>
    have h1 := (firstAnswer_eq_none R (buildIndex R [node]) host).1 (hfa.trans hs)
    rw [hw] at h1
    cases h1
  | some found =>
    rw [hs] at hfa
    obtain ⟨hne, _, hnd, hc4, _⟩ := matchByKeys_some R _ _ _ _ _ hs
    have hnode : ∀ c ∈ found, c.Node = node := by
      intro c hc
      obtain ⟨key, _, n, hn, rfl⟩ := hc4 c hc
      have := (table_subset R m [node] key n hn).1
      simpa using this
    obtain ⟨c, hfound⟩ := eq_singleton_of_all_eq (fun c : NodeMatch => nodeKey c.Node) found hne
      hnd (nodeKey node) (fun c hc => by simp only [hnode c hc])
    subst hfound
    obtain ⟨hcm, hcc, _⟩ := strategy_candidates R m host _ _ hs c (List.mem_singleton_self c)
    have hcn := hnode c (List.mem_singleton_self c)
    refine ⟨c, hcn, hcm, hcc, ?_⟩
    rw [Match_eq]
    have hentry : entryOf R (buildIndex R [node]) host =
        some (HostMatch.mk host [c] m (methodConfidence m)) := by
      simp only [entryOf, hfa, hcm, hcc]
    have hseen : seenBy R (buildIndex R [node]) [host] (nodeKey node) = true := by
      simp [seenBy, hfa, hcn]
    simp [hentry, hfa, hseen]

theorem normalizeHostname_canonical (R : Runtime) (h : String) (hne : h ≠ "")
    (htrim : TrimSpace h = h) (hdot : h.data.getLast? ≠ some '.') (hlow : ToLower R h = h) :
    normalizeHostname R h = h := by
  unfold normalizeHostname
  simp only [htrim, hne, if_false]
  unfold TrimSuffixDot
  simp only [hdot, if_false, hlow]

theorem getLast?_mem_of_ne_nil (l : List Char) (hl : l ≠ []) :
    ∃ z ∈ l, l.getLast? = some z ∧ ∀ a : List Char, ∀ x : Char,
      (a ++ x :: l).getLast? = some z := by
  refine ⟨l.getLast hl, List.getLast_mem hl, List.getLast?_eq_getLast l hl, ?_⟩
  intro a x
  have h1 : a ++ x :: l = (a ++ [x]) ++ l := by simp
  rw [h1, List.getLast?_append_of_ne_nil _ hl, List.getLast?_eq_getLast l hl]

/-- The canonical form of a canonical hostname followed by `-` and eight
hexadecimal digits: the digits in lower case, nothing else changed. -/
theorem normalizeHostname_hex_suffix (R : Runtime) (h s : String) (hne : h ≠ "")
    (htrim : TrimSpace h = h) (hlow : ToLower R h = h)
    (hlen : s.length = 8) (hhex : ∀ c ∈ s.data, isHexRune c = true) :
    normalizeHostname R (h ++ "-" ++ s) = ⟨h.data ++ '-' :: s.data.map Char.toLower⟩ := by
  have hdata : (h ++ "-" ++ s).data = h.data ++ '-' :: s.data := by
    simp [String.data_append]
  have hhne : h.data ≠ [] := fun h0 => hne (String.ext h0)
  have hsne : s.data ≠ [] := by
    intro h0
    have : s.length = 0 := by
      show s.data.length = 0
      rw [h0]
      rfl
    omega
  obtain ⟨z, hz, _, hlast⟩ := getLast?_mem_of_ne_nil s.data hsne
  obtain ⟨_, _, _, _, hzsp, hzdot⟩ := hexRunes_facts z (mem_hexRunes z (hhex z hz))
  have hT : TrimSpace (h ++ "-" ++ s) = h ++ "-" ++ s := by
    rw [TrimSpace_eq_self_iff, hdata]
    refine ⟨dropWhile_append_self _ _ hhne ((TrimSpace_eq_self_iff h).1 htrim).1, ?_⟩
    apply rdropWhile_append_self _ _ (List.cons_ne_nil _ _)
    rw [List.rdropWhile_eq_self_iff]
    intro hl
    have h1 := hlast [] '-'
    simp only [List.nil_append] at h1
    rw [List.getLast?_eq_getLast _ hl] at h1
    injection h1 with h1
    rw [h1, hzsp]
    simp
  have hN : h ++ "-" ++ s ≠ "" := by
    intro h0
    have := congrArg String.data h0
    rw [hdata] at this
    simp at this
  have hD : TrimSuffixDot (h ++ "-" ++ s) = h ++ "-" ++ s := by
    unfold TrimSuffixDot
    rw [hdata, hlast]
    have : ¬ (some z = some '.') := by
      intro h0
      injection h0 with h0
      exact hzdot h0
    simp only [this, if_false]
  unfold normalizeHostname
  simp only [hT, hN, if_false, hD]
  unfold ToLower
  rw [hdata]
  congr 1
  rw [List.map_append, List.map_cons]
  have h1 : h.data.map R.toLowerRune = h.data := by
    have := congrArg String.data hlow
    exact this
  have h2 : R.toLowerRune '-' = '-' := by
    rw [R.toLowerRune_ascii '-' (by decide)]
    rfl
  have h3 : s.data.map R.toLowerRune = s.data.map Char.toLower := by
    apply List.map_congr_left
    intro c hc
    exact R.toLowerRune_ascii c (hexRunes_facts c (mem_hexRunes c (hhex c hc))).1
  rw [h1, h2, h3]

/-- C9: a host whose only identifier is a non-empty hostname `h` in canonical
form (no surrounding white space, no trailing dot, lower case), against the
single node named `h`, `-` and eight hexadecimal digits, gives exactly one
entry in Matches, of Method hostname, with that node as its candidate, and no
ambiguous entry, unmatched host or unmatched node. -/
theorem Match_hostname_hex_suffix (R : Runtime) (host : InventoryHost) (node : K8sNode)
    (h s : String) (hne : h ≠ "") (htrim : TrimSpace h = h)
    (hdot : h.data.getLast? ≠ some '.') (hlow : ToLower R h = h)
    (hlen : s.length = 8) (hhex : ∀ c ∈ s.data, isHexRune c = true)
    (hhost : host.Hostname = h ∧ host.MachineName = "" ∧ host.MachineID = "" ∧
      host.SystemUUID = "" ∧ host.ProviderID = "" ∧ host.IPs = [])
    (hnode : node.Name = h ++ "-" ++ s) :
    ∃ c, c.Node = node ∧ c.Method = MethodHostname ∧
      c.Confidence = methodConfidence MethodHostname ∧
      Match R [host] [node] = some
        { Matches := [HostMatch.mk host [c] MethodHostname (methodConfidence MethodHostname)]
          Ambiguous := []
          UnmatchedHosts := []
          UnmatchedNodes := [] } := by
  obtain ⟨hh1, hh2, hh3, hh4, hh5, hh6⟩ := hhost
  apply Match_single
  have h1 : lookupHits R (buildIndex R [node]) host MethodMachineID = false :=
    lookupHits_keys_nil R _ host _ (by simp only [hostKeys, hh3, hh4, normalizedIDs_empty2])
  have h2 : lookupHits R (buildIndex R [node]) host MethodProviderID = false :=
    lookupHits_keys_nil R _ host _ (by simp only [hostKeys, hh5, normalizedIDs_empty1])
  have h3 : lookupHits R (buildIndex R [node]) host MethodInternalIP = false :=
    lookupHits_keys_nil R _ host _ (by simp only [hostKeys, hh6, normalizedIPs_nil])
  have h4 : lookupHits R (buildIndex R [node]) host MethodExternalIP = false :=
    lookupHits_keys_nil R _ host _ (by simp only [hostKeys, hh6, normalizedIPs_nil])
  have h5 : lookupHits R (buildIndex R [node]) host MethodMachineName = false :=
    lookupHits_keys_nil R _ host _ (by simp only [hostKeys, hh2, normalizedHostnames_empty])
  have hkey : h ∈ hostKeys R MethodHostname host := by
    simp only [hostKeys, hh1]
    rw [mem_normalizedHostnames, normalizeHostname_canonical R h hne htrim hdot hlow]
    exact ⟨hne, Or.inl rfl⟩
  have hhne : h.data ≠ [] := fun h0 => hne (String.ext h0)
  have hfull := normalizeHostname_hex_suffix R h s hne htrim hlow hlen hhex
  have htrimmed : trimHexSuffix ⟨h.data ++ '-' :: s.data.map Char.toLower⟩ = h := by
    have := trimHexSuffix_append h.data (s.data.map Char.toLower) hhne ?_ ?_ ?_
    · exact this
    · intro hm
      obtain ⟨c, hc, hcl⟩ := List.mem_map.1 hm
      exact (hexRunes_facts c (mem_hexRunes c (hhex c hc))).2.2.2.1 hcl
    · unfold byteLen
      simp only [List.map_map]
      have hall : ∀ c ∈ s.data, (Char.utf8Size ∘ Char.toLower) c = 1 := fun c hc =>
        (hexRunes_facts c (mem_hexRunes c (hhex c hc))).2.2.1
      rw [List.map_congr_left hall]
      simp only [List.map_const', List.sum_replicate, smul_eq_mul, mul_one]
      exact hlen
    · intro c hc
      obtain ⟨d, hd, rfl⟩ := List.mem_map.1 hc
      exact (hexRunes_facts d (mem_hexRunes d (hhex d hd))).2.1
  have hnodekey : node ∈ table MethodHostname (buildIndex R [node]) h := by
    rw [table_buildIndex, List.mem_filter]
    refine ⟨List.mem_singleton_self _, ?_⟩
    simp only [nodeKeys, decide_eq_true_eq, hnode]
    rw [mem_normalizedHostnames, hfull]
    refine ⟨?_, Or.inr (Or.inr (Or.inl htrimmed.symm))⟩
    intro h0
    have := congrArg String.data h0
    simp at this
  have h6 := lookupHits_of_mem R _ host MethodHostname h node hkey hnodekey
  simp [winningStrategy, strategyOrder, List.find?, h1, h2, h3, h4, h5, h6]

theorem mem_foldl_variants (f : String → List String) (keys : List String) (acc : List String)
    (x : String) :
    x ∈ keys.foldl (fun variants key => if key = "" then variants else variants ++ f key) acc ↔
      x ∈ acc ∨ ∃ key ∈ keys, key ≠ "" ∧ x ∈ f key := by
  induction keys generalizing acc with
  | nil => simp
  | cons k ks ih =>
    rw [List.foldl_cons, ih]
    by_cases hk : k = ""
    · simp [hk]
    · simp only [hk, if_false, List.mem_append, List.mem_cons, exists_eq_or_imp, ne_eq,
        not_false_eq_true, true_and]
      tauto

/-- Membership in `nodeMachineNames`: the hostname variants of the
canonicalized machine-name values of the node. -/
theorem mem_nodeMachineNames (R : Runtime) (node : K8sNode) (x : String) :
    x ∈ nodeMachineNames R node ↔
      ∃ key ∈ [node.MachineName] ++ machineNameKeys.map (labelValue node.Labels) ++
          machineNameKeys.map (labelValue node.Annotations),
        key ≠ "" ∧ x ∈ normalizedHostnames R (normalizeMachineNameValue key) := by
  unfold nodeMachineNames
  simp only
  rw [mem_uniqueSorted, mem_foldl_variants]
  simp

theorem labelValue_of_lookup (values : List (String × String)) (k v : String)
    (h : values.lookup k = some v) (hv : TrimSpace v ≠ "") :
    labelValue values k = TrimSpace v := by
  unfold labelValue
  have hne : values.isEmpty = false := by
    cases values with
    | nil => simp at h
    | cons a as => rfl
  simp [hne, h, hv]

theorem normalizeMachineNameValue_plain (t : String) (htrim : TrimSpace t = t) (hne : t ≠ "")
    (hslash : '/' ∉ t.data) (hcolon : ':' ∉ t.data) : normalizeMachineNameValue t = t := by
  unfold normalizeMachineNameValue
  simp only [htrim, hne, if_false, LastIndex_not_mem t '/' hslash,
    LastIndex_not_mem t ':' hcolon]
  simp

theorem normalizedHostnames_congr (R : Runtime) (a b : String)
    (h : normalizeHostname R a = normalizeHostname R b) :
    normalizedHostnames R a = normalizedHostnames R b := by
  unfold normalizedHostnames
  rw [h]

theorem normalizeHostname_TrimSpace (R : Runtime) (v : String) :
    normalizeHostname R (TrimSpace v) = normalizeHostname R v := by
  unfold normalizeHostname
  rw [TrimSpace_idem]

theorem TrimSpace_ne_of_normalizeHostname (R : Runtime) (v : String)
    (h : normalizeHostname R v ≠ "") : TrimSpace v ≠ "" := by
  intro h0
  apply h
  unfold normalizeHostname
  simp [h0]

/-- C10: a host whose machine-ID, system-UUID, provider-ID and IPs are empty
and whose MachineName is `v`, without `/` and `:` and with a non-empty
canonical hostname form, against a single node whose labels or annotations map
one of the known machine-name keys to `v`, gives exactly one entry in Matches,
of Method machine-name, with that node as its candidate. -/
theorem Match_machine_name_label (R : Runtime) (host : InventoryHost) (node : K8sNode)
    (v k : String) (hslash : '/' ∉ v.data) (hcolon : ':' ∉ v.data)
    (hcanon : normalizeHostname R v ≠ "") (hk : k ∈ machineNameKeys)
    (hhost : host.MachineName = v ∧ host.MachineID = "" ∧ host.SystemUUID = "" ∧
      host.ProviderID = "" ∧ host.IPs = [])
    (hlab : node.Labels.lookup k = some v ∨ node.Annotations.lookup k = some v) :
    ∃ c, c.Node = node ∧ c.Method = MethodMachineName ∧
      c.Confidence = methodConfidence MethodMachineName ∧
      Match R [host] [node] = some
        { Matches :=
            [HostMatch.mk host [c] MethodMachineName (methodConfidence MethodMachineName)]
          Ambiguous := []
          UnmatchedHosts := []
          UnmatchedNodes := [] } := by
  obtain ⟨hh1, hh3, hh4, hh5, hh6⟩ := hhost
  apply Match_single
  have h1 : lookupHits R (buildIndex R [node]) host MethodMachineID = false :=
    lookupHits_keys_nil R _ host _ (by simp only [hostKeys, hh3, hh4, normalizedIDs_empty2])
  have h2 : lookupHits R (buildIndex R [node]) host MethodProviderID = false :=
    lookupHits_keys_nil R _ host _ (by simp only [hostKeys, hh5, normalizedIDs_empty1])
  have h3 : lookupHits R (buildIndex R [node]) host MethodInternalIP = false :=
    lookupHits_keys_nil R _ host _ (by simp only [hostKeys, hh6, normalizedIPs_nil])
  have h4 : lookupHits R (buildIndex R [node]) host MethodExternalIP = false :=
    lookupHits_keys_nil R _ host _ (by simp only [hostKeys, hh6, normalizedIPs_nil])
  have hkey : normalizeHostname R v ∈ hostKeys R MethodMachineName host := by
    simp only [hostKeys, hh1]
    rw [mem_normalizedHostnames]
    exact ⟨hcanon, Or.inl rfl⟩
  have ht : TrimSpace v ≠ "" := TrimSpace_ne_of_normalizeHostname R v hcanon
  have hplain : normalizeMachineNameValue (TrimSpace v) = TrimSpace v :=
    normalizeMachineNameValue_plain _ (TrimSpace_idem v) ht
      (fun h => hslash (mem_of_mem_TrimSpace v _ h))
      (fun h => hcolon (mem_of_mem_TrimSpace v _ h))
  have hnodekey : node ∈ table MethodMachineName (buildIndex R [node])
      (normalizeHostname R v) := by
    rw [table_buildIndex, List.mem_filter]
    refine ⟨List.mem_singleton_self _, ?_⟩
    simp only [nodeKeys, decide_eq_true_eq]
    rw [mem_nodeMachineNames]
    refine ⟨TrimSpace v, ?_, ht, ?_⟩
    · rcases hlab with h | h
      · rw [← labelValue_of_lookup node.Labels k v h ht]
        apply List.mem_append_left
        apply List.mem_append_right
        exact List.mem_map.2 ⟨k, hk, rfl⟩
      · rw [← labelValue_of_lookup node.Annotations k v h ht]
        apply List.mem_append_right
        exact List.mem_map.2 ⟨k, hk, rfl⟩
    · rw [hplain, normalizedHostnames_congr R _ v (normalizeHostname_TrimSpace R v),
        mem_normalizedHostnames]
      exact ⟨hcanon, Or.inl rfl⟩
  have h5 := lookupHits_of_mem R _ host MethodMachineName _ node hkey hnodekey
  simp [winningStrategy, strategyOrder, List.find?, h1, h2, h3, h4, h5]

/-- C6, witness: `hostAB` against `nodeA` and `nodeB`, which share the
machine-ID `mid-1` up to case. -/
theorem Match_shared_machineID_witness :
    [nodeA, nodeB].filter (fun n => decide (normalizeID Runtime.inOrder n.MachineID = "mid-1")) =
      [nodeA, nodeB] ∧
    nodeKey nodeA ≠ nodeKey nodeB ∧
    ∃ r, Match Runtime.inOrder [hostAB] [nodeA, nodeB] = some r ∧
      (∃ e ∈ r.Ambiguous, e.Host = hostAB) ∧
      (∀ e ∈ r.Matches, e.Host ≠ hostAB) ∧
      hostAB ∉ r.UnmatchedHosts ∧
      ∀ e ∈ r.Ambiguous, e.Host = hostAB →
        e.Method = MethodMachineID ∧
        (∀ c ∈ e.Candidates, c.Method = MethodMachineID) ∧
        (e.Candidates.map (fun c => c.Node)).Perm [nodeA, nodeB] ∧
        e.Candidates.Sorted (fun x y => x.Node.Name.data ≤ y.Node.Name.data) :=
  ⟨by decide, by decide,
    Match_shared_machineID Runtime.inOrder [hostAB] [nodeA, nodeB] hostAB nodeA nodeB "mid-1"
      (by decide) (by decide) (by decide) (by decide) (by decide) (by decide)⟩

/-- C8, the code at the failing input: two nodes with the same name, different
UIDs and the same machine-ID, and a host with that machine-ID.  The candidates
come out in one order when `range` visits the map `candidates` in insertion
order and in the other order when it visits it in reverse. -/
theorem Match_order_follows_range :
    nodeKey twinOne ≠ nodeKey twinTwo ∧
    (Match Runtime.inOrder [hostAB] [twinOne, twinTwo]).map (fun r => entryNodes r.Ambiguous) =
      some [(MethodMachineID, [twinOne, twinTwo])] ∧
    (Match Runtime.reversed [hostAB] [twinOne, twinTwo]).map (fun r => entryNodes r.Ambiguous) =
      some [(MethodMachineID, [twinTwo, twinOne])] := by
  decide

/-- C9, witness: the host and node of `TestMatchHostnameHexSuffix`. -/
theorem Match_hostname_hex_suffix_witness :
    ∃ c, c.Node = suffixNode ∧ c.Method = MethodHostname ∧
      c.Confidence = methodConfidence MethodHostname ∧
      Match Runtime.inOrder [suffixHost] [suffixNode] = some
        { Matches :=
            [HostMatch.mk suffixHost [c] MethodHostname (methodConfidence MethodHostname)]
          Ambiguous := []
          UnmatchedHosts := []
          UnmatchedNodes := [] } :=
  Match_hostname_hex_suffix Runtime.inOrder suffixHost suffixNode
    "smtl001-w-asus-1c32d8c7-cd47-2da5-19b7-bcfce773e4da" "62c86a9b"
    (by decide) (by decide) (by decide) (by decide) (by decide) (by decide) (by decide)
    (by decide)

/-- C10, witness: the host and node of `TestMatchMachineNameFromNodeLabels`. -/
theorem Match_machine_name_label_witness :
    ∃ c, c.Node = labelNode ∧ c.Method = MethodMachineName ∧
      c.Confidence = methodConfidence MethodMachineName ∧
      Match Runtime.inOrder [labelHost] [labelNode] = some
        { Matches :=
            [HostMatch.mk labelHost [c] MethodMachineName (methodConfidence MethodMachineName)]
          Ambiguous := []
          UnmatchedHosts := []
          UnmatchedNodes := [] } :=
  Match_machine_name_label Runtime.inOrder labelHost labelNode
    "shared-mtl-001-a9070xt-b26pf-v24bp" "cluster.x-k8s.io/machine"
    (by decide) (by decide) (by decide) (by decide) (by decide) (by decide)

/-! ## Where the order of map iteration cannot show -/

theorem normalizeID_runtime (R R' : Runtime) (hlow : R.toLowerRune = R'.toLowerRune)
    (value : String) : normalizeID R value = normalizeID R' value := by
  unfold normalizeID ToLower
  rw [hlow]

theorem normalizedIDs_runtime (R R' : Runtime) (hlow : R.toLowerRune = R'.toLowerRune)
    (values : List String) : normalizedIDs R values = normalizedIDs R' values := by
  unfold normalizedIDs
  rw [uniqueSorted_runtime R R']
  congr 3
  funext value
  exact normalizeID_runtime R R' hlow value

theorem normalizedHostnames_runtime (R R' : Runtime) (hlow : R.toLowerRune = R'.toLowerRune)
    (value : String) : normalizedHostnames R value = normalizedHostnames R' value := by
  have h : normalizeHostname R value = normalizeHostname R' value := by
    unfold normalizeHostname ToLower
    rw [hlow]
  unfold normalizedHostnames
  simp only [h, uniqueSorted_runtime R R']

theorem normalizedIPs_runtime (R R' : Runtime) (hip : R.parseIP = R'.parseIP)
    (values : List String) : normalizedIPs R values = normalizedIPs R' values := by
  unfold normalizedIPs
  simp only [hip, uniqueSorted_runtime R R']

theorem nodeMachineNames_runtime (R R' : Runtime) (hlow : R.toLowerRune = R'.toLowerRune)
    (node : K8sNode) : nodeMachineNames R node = nodeMachineNames R' node := by
  unfold nodeMachineNames
  simp only [uniqueSorted_runtime R R']
  congr 3
  funext variants key
  rw [normalizedHostnames_runtime R R' hlow]

theorem hostKeys_runtime (R R' : Runtime) (hlow : R.toLowerRune = R'.toLowerRune)
    (hip : R.parseIP = R'.parseIP) (m : Method) (host : InventoryHost) :
    hostKeys R m host = hostKeys R' m host := by
  cases m <;> simp only [hostKeys]
  · exact normalizedIDs_runtime R R' hlow _
  · exact normalizedIDs_runtime R R' hlow _
  · exact normalizedIPs_runtime R R' hip _
  · exact normalizedIPs_runtime R R' hip _
  · exact normalizedHostnames_runtime R R' hlow _
  · exact normalizedHostnames_runtime R R' hlow _

theorem buildIndex_runtime (R R' : Runtime) (hlow : R.toLowerRune = R'.toLowerRune)
    (hip : R.parseIP = R'.parseIP) (nodes : List K8sNode) :
    buildIndex R nodes = buildIndex R' nodes := by
  unfold buildIndex
  congr 1
  funext idx node
  unfold indexNode
  simp only [normalizeID_runtime R R' hlow, normalizedIPs_runtime R R' hip,
    nodeMachineNames_runtime R R' hlow, normalizedHostnames_runtime R R' hlow]

/-- The answer of `matchByKeys` does not depend on the order in which the
runtime visits the map `candidates`, provided nodes found under the keys that
have the same name have the same node key. -/
theorem matchByKeys_runtime (R R' : Runtime) (keys : List String)
    (index : String → List K8sNode) (method : Method) (reason : String)
    (hnames : ∀ k1 ∈ keys, ∀ a ∈ index k1, ∀ k2 ∈ keys, ∀ b ∈ index k2,
      a.Name = b.Name → nodeKey a = nodeKey b) :
    matchByKeys R keys index method reason = matchByKeys R' keys index method reason := by
  unfold matchByKeys
  split
  · rfl
  · simp only
    split
    · rfl
    · congr 1
      obtain ⟨h1, h2, _⟩ := collectCandidates_spec keys index method reason
      have hperm : ((R.rangeEntries (collectCandidates keys index method reason)).map
          Prod.snd).Perm ((R'.rangeEntries (collectCandidates keys index method reason)).map
          Prod.snd) :=
        ((R.rangeEntries_perm _).trans (R'.rangeEntries_perm _).symm).map _
      refine List.Perm.eq_of_sorted ?_ (stableMatchSort_sorted _) (stableMatchSort_sorted _)
        ((stableMatchSort_perm _).trans (hperm.trans (stableMatchSort_perm _).symm))
      intro x y hx hy hxy hyx
      have hx' : x ∈ (collectCandidates keys index method reason).map Prod.snd :=
        ((R.rangeEntries_perm _).map _).mem_iff.1 ((stableMatchSort_perm _).mem_iff.1 hx)
      have hy' : y ∈ (collectCandidates keys index method reason).map Prod.snd :=
        ((R'.rangeEntries_perm _).map _).mem_iff.1 ((stableMatchSort_perm _).mem_iff.1 hy)
      obtain ⟨ex, hex, rfl⟩ := List.mem_map.1 hx'
      obtain ⟨ey, hey, rfl⟩ := List.mem_map.1 hy'
      obtain ⟨kx, hkx, nx, hnx, hexeq⟩ := h2 ex hex
      obtain ⟨ky, hky, ny, hny, heyeq⟩ := h2 ey hey
      have hname : nx.Name = ny.Name := by
        have h3 : ex.2.Node.Name.data = ey.2.Node.Name.data := le_antisymm hxy hyx
        rw [hexeq, heyeq] at h3
        exact String.ext h3
      have hkey : ex.1 = ey.1 := by
        rw [hexeq, heyeq]
        exact hnames kx hkx nx hnx ky hky ny hny hname
      rw [List.inj_on_of_nodup_map h1 hex hey hkey]

/-- Two runs of `Match` on the same input give the same result, whatever the
order in which each visits its maps, when nodes of the list that have the same
name have the same node key. -/
theorem Match_runtime_independent (R R' : Runtime) (hlow : R.toLowerRune = R'.toLowerRune)
    (hip : R.parseIP = R'.parseIP) (hosts : List InventoryHost) (nodes : List K8sNode)
    (hnames : ∀ a ∈ nodes, ∀ b ∈ nodes, a.Name = b.Name → nodeKey a = nodeKey b) :
    Match R hosts nodes = Match R' hosts nodes := by
  have hstrat : ∀ m host, strategy R m host (buildIndex R nodes) =
      strategy R' m host (buildIndex R nodes) := by
    intro m host
    unfold strategy
    rw [hostKeys_runtime R R' hlow hip]
    apply matchByKeys_runtime
    intro k1 _ a ha k2 _ b hb hab
    exact hnames a (table_subset R m nodes k1 a ha).1 b (table_subset R m nodes k2 b hb).1 hab
  have hwin : ∀ host, winningStrategy R (buildIndex R nodes) host =
      winningStrategy R' (buildIndex R nodes) host := by
    intro host
    unfold winningStrategy
    congr 1
    funext m
    unfold lookupHits
    rw [hostKeys_runtime R R' hlow hip]
  have hfirst : ∀ host, firstAnswer R host (buildIndex R nodes) =
      firstAnswer R' host (buildIndex R nodes) := by
    intro host
    rw [firstAnswer_eq, firstAnswer_eq, hwin]
    congr 1
    funext m
    exact hstrat m host
  have hstep : matchHost R (buildIndex R nodes) = matchHost R' (buildIndex R nodes) := by
    funext st host
    unfold matchHost
    rw [hfirst]
  unfold Match
  simp only [← buildIndex_runtime R R' hlow hip nodes, hstep]

theorem methodConfidence_bounds (m : Method) :
    0 < methodConfidence m ∧ methodConfidence m ≤ 1 := by
  cases m <;> simp only [methodConfidence] <;> norm_num

/-- C11: every candidate of the result of `Match` carries the confidence that
the table `methodConfidence` gives its Method, which is 0.98, 0.95, 0.90, 0.85,
0.75 and 0.70 for machine-id, provider-id, internal-ip, external-ip,
machine-name and hostname; so each confidence is above 0 and at most 1, the
confidences decrease strictly along the priority order of the strategies, and
the Confidence of an entry is that of its first candidate. -/
theorem Match_confidence (R : Runtime) (hosts : List InventoryHost) (nodes : List K8sNode) :
    ∃ r, Match R hosts nodes = some r ∧
      (∀ e ∈ r.Matches ++ r.Ambiguous,
        (∀ c ∈ e.Candidates, c.Confidence = methodConfidence c.Method ∧
          0 < c.Confidence ∧ c.Confidence ≤ 1) ∧
        e.Candidates.head?.map (fun c => c.Confidence) = some e.Confidence) ∧
      strategyOrder.map methodConfidence =
        [98 / 100, 95 / 100, 90 / 100, 85 / 100, 75 / 100, 70 / 100] ∧
      (strategyOrder.map methodConfidence).Pairwise (fun a b => a > b) := by
  refine ⟨_, Match_eq R hosts nodes, ?_, ?_, ?_⟩
  · intro e he
    obtain ⟨host, _, he'⟩ := (mem_entries R _ hosts e).1 he
    refine ⟨?_, ?_⟩
    · obtain ⟨_, m, _, hs, _, _⟩ := entryOf_spec R _ host e he'
      intro c hc
      obtain ⟨hm, hconf, _⟩ := strategy_candidates R m host _ _ hs c hc
      rw [hconf, hm]
      exact ⟨rfl, methodConfidence_bounds m⟩
    · unfold entryOf at he'
      split at he'
      · injection he' with he'
        subst he'
        rfl
      · cases he'
  · simp only [strategyOrder, List.map, methodConfidence]
    norm_num
  · simp only [strategyOrder, List.map, methodConfidence]
    norm_num

/-- Every entry that the loops of `matchByKeys` add to the map `candidates` is
made for the first pair of key and node, in the order of the loops, whose node
has that node key. -/
theorem foldl_addCandidate_first (method : Method) (reason : String)
    (pairs : List (String × K8sNode)) (acc : List (String × NodeMatch)) :
    ∀ e ∈ pairs.foldl (fun candidates p => addCandidate method reason p.1 candidates p.2) acc,
      e ∈ acc ∨ (e.1 ∉ acc.map Prod.fst ∧ ∃ pre p post, pairs = pre ++ p :: post ∧
        e = (nodeKey p.2,
          { Node := p.2, Method := method, Confidence := methodConfidence method,
            Explanation := reason ++ "=" ++ p.1 }) ∧
        ∀ q ∈ pre, nodeKey q.2 ≠ nodeKey p.2) := by
  induction pairs generalizing acc with
  | nil =>
    intro e he
    exact Or.inl he
  | cons q qs ih =>
    intro e he
    simp only [List.foldl_cons] at he
    rcases ih (addCandidate method reason q.1 acc q.2) e he with h | ⟨hnot, pre, p, post, hqs, hep, hpre⟩
    · unfold addCandidate at h
      simp only at h
      split at h
      · exact Or.inl h
      · rename_i hany
        rcases List.mem_append.1 h with h | h
        · exact Or.inl h
        · right
          rw [List.mem_singleton] at h
          refine ⟨?_, [], q, qs, rfl, h, ?_⟩
          · intro hmem
            apply hany
            rw [List.any_eq_true]
            obtain ⟨x, hx, hfst⟩ := List.mem_map.1 hmem
            refine ⟨x, hx, ?_⟩
            rw [h] at hfst
            simpa using hfst
          · intro x hx
            cases hx
    · right
      have hsub : ∀ x ∈ acc, x ∈ addCandidate method reason q.1 acc q.2 :=
        fun x hx => addCandidate_mem_of_mem _ _ _ _ _ x hx
      refine ⟨?_, q :: pre, p, post, by rw [hqs]; rfl, hep, ?_⟩
      · intro hmem
        apply hnot
        obtain ⟨x, hx, hfst⟩ := List.mem_map.1 hmem
        exact List.mem_map.2 ⟨x, hsub x hx, hfst⟩
      · intro x hx
        rcases List.mem_cons.1 hx with rfl | hx
        · intro hk
          apply hnot
          obtain ⟨y, hy, hyk⟩ := addCandidate_has_key method reason x.1 acc x.2
          refine List.mem_map.2 ⟨y, hy, ?_⟩
          rw [hyk, hk, hep]
        · exact hpre x hx

theorem pairs_keys_sorted (keys : List String) (index : String → List K8sNode)
    (h : keys.Sorted (fun a b => a.data ≤ b.data)) :
    ((keys.flatMap (fun key => (index key).map (fun node => (key, node)))).map
      Prod.fst).Pairwise (fun a b => a.data ≤ b.data) := by
  induction keys with
  | nil => simp
  | cons k ks ih =>
    rw [List.flatMap_cons, List.map_append, List.pairwise_append]
    have hk := List.pairwise_cons.1 h
    refine ⟨?_, ih hk.2, ?_⟩
    · rw [List.map_map]
      rw [List.pairwise_map]
      exact List.pairwise_of_forall (fun _ _ => le_refl _)
    · intro a ha b hb
      obtain ⟨x, hx, rfl⟩ := List.mem_map.1 ha
      obtain ⟨n, _, rfl⟩ := List.mem_map.1 hx
      obtain ⟨y, hy, rfl⟩ := List.mem_map.1 hb
      rw [mem_pairs] at hy
      exact hk.1 _ hy.1

/-- The key in the explanation of a candidate of `matchByKeys`, for keys in
ascending order: a key under which the candidate node is found, and the
smallest of the keys under which a node with its node key is found. -/
theorem matchByKeys_explanation (R : Runtime) (keys : List String)
    (index : String → List K8sNode) (method : Method) (reason : String)
    (found : List NodeMatch) (hsorted : keys.Sorted (fun a b => a.data ≤ b.data))
    (h : matchByKeys R keys index method reason = some found) :
    ∀ c ∈ found, ∃ key ∈ keys, c.Node ∈ index key ∧ c.Method = method ∧
      c.Explanation = reason ++ "=" ++ key ∧
      ∀ key' ∈ keys, ∀ node ∈ index key', nodeKey node = nodeKey c.Node →
        key.data ≤ key'.data := by
  intro c hc
  obtain ⟨hperm, _, _⟩ := matchByKeys_perm R keys index method reason found h
  obtain ⟨e, he, rfl⟩ := List.mem_map.1 (hperm.mem_iff.1 hc)
  unfold collectCandidates at he
  rw [collectCandidates_eq] at he
  rcases foldl_addCandidate_first method reason _ [] e he with h0 | ⟨_, pre, p, post, hpairs, hep, hpre⟩
  · cases h0
  · have hp : p ∈ keys.flatMap (fun key => (index key).map (fun node => (key, node))) := by
      rw [hpairs]
      simp
    rw [mem_pairs] at hp
    subst hep
    refine ⟨p.1, hp.1, hp.2, rfl, rfl, ?_⟩
    intro key' hkey' node hnode hk
    have hq : (key', node) ∈ keys.flatMap (fun key => (index key).map (fun node => (key, node))) :=
      (mem_pairs keys index (key', node)).2 ⟨hkey', hnode⟩
    have hs := pairs_keys_sorted keys index hsorted
    rw [hpairs] at hq hs
    rcases List.mem_append.1 hq with hq | hq
    · exact absurd hk (hpre _ hq)
    · rcases List.mem_cons.1 hq with hq | hq
      · rw [← hq]
      · rw [List.map_append, List.pairwise_append] at hs
        have hs2 := List.pairwise_cons.1 hs.2.1
        exact hs2.1 key' (List.mem_map.2 ⟨(key', node), hq, rfl⟩)

theorem hostKeys_sorted (R : Runtime) (m : Method) (host : InventoryHost) :
    (hostKeys R m host).Sorted (fun a b => a.data ≤ b.data) := by
  cases m <;> simp only [hostKeys]
  · exact sorted_uniqueSorted _ _
  · exact sorted_uniqueSorted _ _
  · exact sorted_uniqueSorted _ _
  · exact sorted_uniqueSorted _ _
  · unfold normalizedHostnames
    simp only
    split
    · exact List.sorted_nil
    · exact sorted_uniqueSorted _ _
  · unfold normalizedHostnames
    simp only
    split
    · exact List.sorted_nil
    · exact sorted_uniqueSorted _ _

/-- C12: the Explanation of every candidate is the name of its Method, then
`=`, then a key: one of the canonical keys of the host for that strategy under
which the candidate node is indexed, and the smallest such key in
lexicographic order.  (It holds for every node list, with or without distinct
node keys.) -/
theorem Match_explanation (R : Runtime) (hosts : List InventoryHost) (nodes : List K8sNode) :
    ∃ r, Match R hosts nodes = some r ∧ ∀ e ∈ r.Matches ++ r.Ambiguous, ∀ c ∈ e.Candidates,
      ∃ key ∈ hostKeys R c.Method e.Host,
        c.Node ∈ table c.Method (buildIndex R nodes) key ∧
        c.Explanation = c.Method.text ++ "=" ++ key ∧
        ∀ key' ∈ hostKeys R c.Method e.Host,
          c.Node ∈ table c.Method (buildIndex R nodes) key' → key.data ≤ key'.data := by
  refine ⟨_, Match_eq R hosts nodes, ?_⟩
  intro e he c hc
  obtain ⟨host, _, he'⟩ := (mem_entries R _ hosts e).1 he
  obtain ⟨hh, m, _, hs, _, _⟩ := entryOf_spec R _ host e he'
  subst hh
  obtain ⟨key, hkey, hnode, hm, hex, hmin⟩ :=
    matchByKeys_explanation R _ _ _ _ _ (hostKeys_sorted R m e.Host) hs c hc
  rw [hm]
  exact ⟨key, hkey, hnode, hex, fun key' hkey' hn => hmin key' hkey' c.Node hn rfl⟩

theorem take_length_takeWhile (p : Char → Bool) (l : List Char) :
    l.take (l.takeWhile p).length = l.takeWhile p := by
  induction l with
  | nil => rfl
  | cons a as ih =>
    by_cases h : p a = true
    · simp [List.takeWhile_cons, h, ih]
    · simp [List.takeWhile_cons, h]

/-- The short form computed by `normalizedHostnames` is the guarded cut at the
first dot. -/
theorem short_eq_guardedShort (full : String) :
    (if Index full '.' > 0 then sliceTo full (Index full '.') else full) =
      guardedShort full := by
  unfold guardedShort specShort Index sliceTo
  cases hd : full.data with
  | nil =>
    have : full = "" := String.ext hd
    subst this
    rfl
  | cons a as =>
    by_cases ha : a = '.'
    · subst ha
      have hfull : full = ⟨'.' :: as⟩ := String.ext hd
      simp [hfull]
    · by_cases hmem : '.' ∈ as
      · have h1 : '.' ∈ a :: as := List.mem_cons_of_mem _ hmem
        simp only [h1, if_true, List.head?_cons, Option.some.injEq, ha, if_false]
        have hpos : ((List.takeWhile (fun x => decide (x ≠ '.')) (a :: as)).length : Int) > 0 := by
          simp [List.takeWhile_cons, ha]
        simp only [hpos, if_true, Int.toNat_ofNat]
        rw [take_length_takeWhile]
      · have h1 : '.' ∉ a :: as := by
          intro h
          rcases List.mem_cons.1 h with h | h
          · exact ha h.symm
          · exact hmem h
        simp only [h1, if_false, List.head?_cons, Option.some.injEq, ha]
        have h2 : List.takeWhile (fun c => decide (c ≠ '.')) (a :: as) = a :: as := by
          rw [List.takeWhile_eq_self_iff]
          intro x hx
          have : x ≠ '.' := fun h => h1 (h ▸ hx)
          simpa using this
        rw [h2]
        simp only [gt_iff_lt, Int.reduceNeg, Int.neg_neg_iff_pos, Int.lt_irrefl, if_false]
        exact String.ext hd

theorem lowerHex_facts (c : Char) (h : notLowerHex c = false) :
    isHexRune c = true ∧ c.utf8Size = 1 := by
  have hc : c = Char.ofNat c.toNat := (Char.ofNat_toNat c).symm
  have hr : (48 ≤ c.toNat ∧ c.toNat ≤ 57) ∨ (97 ≤ c.toNat ∧ c.toNat ≤ 102) := by
    simp only [notLowerHex, Bool.and_eq_false_iff, Bool.or_eq_false_iff, decide_eq_false_iff_not,
      Char.lt_def, gt_iff_lt, UInt32.lt_def, Fin.lt_def, not_lt] at h
    rcases h with ⟨ha, hb⟩ | ⟨ha, hb⟩
    · rw [BitVec.lt_def] at ha hb
      change ¬ c.toNat < 48 at ha
      change ¬ 57 < c.toNat at hb
      exact Or.inl ⟨by omega, by omega⟩
    · rw [BitVec.lt_def] at ha hb
      change ¬ c.toNat < 97 at ha
      change ¬ 102 < c.toNat at hb
      exact Or.inr ⟨by omega, by omega⟩
  rw [hc]
  rcases hr with ⟨h1, h2⟩ | ⟨h1, h2⟩ <;>
  · interval_cases c.toNat <;> decide

theorem hexRunes_lower : ∀ c ∈ hexRunes,
    c.utf8Size = 1 ∧ (c.isUpper = false → notLowerHex c = false) := by
  decide

theorem isHexSegment_iff (seg : String) (hup : ∀ c ∈ seg.data, c.isUpper = false) :
    isHexSegment seg = true ↔ byteLen seg = 8 ∧ seg.data.any notLowerHex = false := by
  unfold isHexSegment byteLen
  simp only [Bool.and_eq_true, decide_eq_true_eq, List.all_eq_true, List.any_eq_false]
  have hlen : (∀ c ∈ seg.data, c.utf8Size = 1) → (seg.data.map Char.utf8Size).sum = seg.length := by
    intro h
    rw [List.map_congr_left h]
    simp only [List.map_const', List.sum_replicate, smul_eq_mul, mul_one]
    rfl
  constructor
  · rintro ⟨h1, h2⟩
    have hall : ∀ c ∈ seg.data, c.utf8Size = 1 ∧ notLowerHex c = false := fun c hc =>
      ⟨(hexRunes_lower c (mem_hexRunes c (h2 c hc))).1,
        (hexRunes_lower c (mem_hexRunes c (h2 c hc))).2 (hup c hc)⟩
    refine ⟨?_, ?_⟩
    · rw [hlen (fun c hc => (hall c hc).1), h1]
    · intro c hc
      simp [(hall c hc).2]
  · rintro ⟨h1, h2⟩
    have hall : ∀ c ∈ seg.data, isHexRune c = true ∧ c.utf8Size = 1 := fun c hc =>
      lowerHex_facts c (by simpa using h2 c hc)
    refine ⟨?_, fun c hc => (hall c hc).1⟩
    rw [hlen (fun c hc => (hall c hc).2)] at h1
    exact h1

theorem length_takeWhile_lt (p : Char → Bool) (l : List Char) (x : Char) (hx : x ∈ l)
    (hp : p x = false) : (l.takeWhile p).length < l.length := by
  induction l with
  | nil => cases hx
  | cons a as ih =>
    by_cases ha : p a = true
    · rcases List.mem_cons.1 hx with rfl | h
      · rw [hp] at ha
        cases ha
      · simp only [List.takeWhile_cons, ha, if_true, List.length_cons]
        have := ih h
        omega
    · simp [List.takeWhile_cons, ha]

theorem LastIndex_bounds (s : String) (c : Char) (h : c ∈ s.data) :
    0 ≤ LastIndex s c ∧ LastIndex s c < (s.data.length : Int) := by
  unfold LastIndex
  simp only [h, if_true]
  have := length_takeWhile_lt (fun x => decide (x ≠ c)) s.data.reverse c
    (List.mem_reverse.2 h) (by simp)
  rw [List.length_reverse] at this
  omega

/-- On text without capital letters, `trimHexSuffix` is the guarded stripping
of a hexadecimal segment. -/
theorem trimHexSuffix_eq_guardedStrip (value : String)
    (hup : ∀ c ∈ value.data, c.isUpper = false) :
    trimHexSuffix value = guardedStrip value := by
  unfold trimHexSuffix guardedStrip specStrip
  simp only
  by_cases hmem : '-' ∈ value.data
  · obtain ⟨h0, h1⟩ := LastIndex_bounds value '-' hmem
    by_cases hz : LastIndex value '-' ≤ 0
    · have hz0 : LastIndex value '-' = 0 := by omega
      simp [hz0, sliceTo]
    · have hne : ¬ sliceTo value (LastIndex value '-') = "" := by
        intro h
        have h2 := congrArg (fun s : String => s.data.length) h
        simp only [sliceTo, List.length_take] at h2
        have h3 : (min (LastIndex value '-').toNat value.data.length) = 0 := h2
        omega
      have hsuf : ∀ c ∈ (sliceFrom value (LastIndex value '-' + 1)).data, c.isUpper = false :=
        fun c hc => hup c (List.mem_of_mem_drop hc)
      simp only [hz, if_false, hne, h0, ge_iff_le, true_and]
      by_cases hseg : isHexSegment (sliceFrom value (LastIndex value '-' + 1)) = true
      · obtain ⟨h2, h3⟩ := (isHexSegment_iff _ hsuf).1 hseg
        simp [hseg, h2, h3]
      · simp only [hseg, Bool.false_eq_true, if_false]
        have h4 := mt (isHexSegment_iff _ hsuf).2 hseg
        by_cases h5 : byteLen (sliceFrom value (LastIndex value '-' + 1)) = 8
        · have h6 : (sliceFrom value (LastIndex value '-' + 1)).data.any notLowerHex = true := by
            by_contra h7
            exact h4 ⟨h5, by simpa using h7⟩
          simp [h5, h6]
        · simp [h5]
  · have hidx := LastIndex_not_mem value '-' hmem
    simp [hidx, sliceTo]

theorem normalizeHostname_eq (R : Runtime) (v : String) :
    normalizeHostname R v = ToLower R (TrimSuffixDot (TrimSpace v)) := by
  unfold normalizeHostname
  simp only
  split
  · rename_i h
    rw [h]
    rfl
  · rfl

theorem normalizeHostname_not_upper (R : Runtime) (v : String) :
    ∀ c ∈ (normalizeHostname R v).data, c.isUpper = false := by
  rw [normalizeHostname_eq]
  intro c hc
  unfold ToLower at hc
  obtain ⟨x, _, rfl⟩ := List.mem_map.1 hc
  exact R.toLowerRune_not_upper x

theorem guardedShort_subset (s : String) : ∀ c ∈ (guardedShort s).data, c ∈ s.data := by
  intro c hc
  unfold guardedShort at hc
  split at hc
  · exact hc
  · exact (List.takeWhile_prefix _).subset hc

theorem guardedShort_ne (s : String) (h : s ≠ "") : guardedShort s ≠ "" := by
  unfold guardedShort
  split
  · exact h
  · rename_i hhead
    unfold specShort
    intro h0
    have h1 := congrArg String.data h0
    simp only at h1
    cases hd : s.data with
    | nil => exact h (String.ext hd)
    | cons a as =>
      rw [hd] at h1 hhead
      have ha : a ≠ '.' := by
        intro h2
        apply hhead
        rw [h2]
        rfl
      simp [List.takeWhile_cons, ha] at h1

theorem guardedStrip_ne (s : String) (h : s ≠ "") : guardedStrip s ≠ "" := by
  unfold guardedStrip
  split
  · exact h
  · rename_i hne
    unfold specStrip
    simp only
    split
    · exact hne
    · exact h

/-- C13, as amended: `normalizedHostnames(v)` is empty when the canonical form
of `v` (trimmed, one trailing `.` removed, lower-cased) is empty, and otherwise
is the duplicate-free, ascending list of exactly the values full, short,
strip(full), strip(short), all non-empty, where full is the canonical form,
short is full cut at its first `.` unless full begins with that `.` (then
short is full), and strip drops the segment after the last `-` when it is
exactly 8 hex characters and something precedes that `-`. -/
theorem normalizedHostnames_variants (R : Runtime) (v : String) :
    normalizeHostname R v = ToLower R (TrimSuffixDot (TrimSpace v)) ∧
    (normalizeHostname R v = "" → normalizedHostnames R v = []) ∧
    (normalizeHostname R v ≠ "" →
      (∀ x, x ∈ normalizedHostnames R v ↔
        x = normalizeHostname R v ∨ x = guardedShort (normalizeHostname R v) ∨
        x = guardedStrip (normalizeHostname R v) ∨
        x = guardedStrip (guardedShort (normalizeHostname R v))) ∧
      (normalizedHostnames R v).Nodup ∧
      (normalizedHostnames R v).Sorted (fun a b => a.data ≤ b.data) ∧
      ∀ x ∈ normalizedHostnames R v, x ≠ "") := by
  have hup := normalizeHostname_not_upper R v
  have hmem : ∀ x, x ∈ normalizedHostnames R v ↔ normalizeHostname R v ≠ "" ∧
      (x = normalizeHostname R v ∨ x = guardedShort (normalizeHostname R v) ∨
        x = guardedStrip (normalizeHostname R v) ∨
        x = guardedStrip (guardedShort (normalizeHostname R v))) := by
    intro x
    rw [mem_normalizedHostnames, short_eq_guardedShort,
      trimHexSuffix_eq_guardedStrip _ hup,
      trimHexSuffix_eq_guardedStrip _ (fun c hc => hup c (guardedShort_subset _ c hc))]
  refine ⟨normalizeHostname_eq R v, ?_, ?_⟩
  · intro h
    unfold normalizedHostnames
    simp [h]
  · intro h
    refine ⟨fun x => ?_, ?_, ?_, ?_⟩
    · rw [hmem]
      exact ⟨fun hx => hx.2, fun hx => ⟨h, hx⟩⟩
    · unfold normalizedHostnames
      simp only [h, if_false]
      exact nodup_uniqueSorted _ _
    · exact hostKeys_sorted R MethodHostname { Hostname := v }
    · intro x hx
      rcases ((hmem x).1 hx).2 with rfl | rfl | rfl | rfl
      · exact h
      · exact guardedShort_ne _ h
      · exact guardedStrip_ne _ h
      · exact guardedStrip_ne _ (guardedShort_ne _ h)

/-- C13, counterexample to the claim as stated.  For `.abc` the canonical form
is `.abc`, its cut at the first `.` is the empty string, and the list is
`[.abc]`: not the values full, short, strip(full), strip(short), and short is
empty.  For `-deadbeef` dropping the hexadecimal segment leaves the empty
string, and the list is `[-deadbeef]`. -/
theorem normalizedHostnames_variants_counterexample :
    (normalizeHostname Runtime.inOrder ".abc" ≠ "" ∧
      ¬ ∀ x, x ∈ normalizedHostnames Runtime.inOrder ".abc" ↔
        x = normalizeHostname Runtime.inOrder ".abc" ∨
        x = specShort (normalizeHostname Runtime.inOrder ".abc") ∨
        x = specStrip (normalizeHostname Runtime.inOrder ".abc") ∨
        x = specStrip (specShort (normalizeHostname Runtime.inOrder ".abc"))) ∧
    (normalizeHostname Runtime.inOrder "-deadbeef" ≠ "" ∧
      ¬ ∀ x, x ∈ normalizedHostnames Runtime.inOrder "-deadbeef" ↔
        x = normalizeHostname Runtime.inOrder "-deadbeef" ∨
        x = specShort (normalizeHostname Runtime.inOrder "-deadbeef") ∨
        x = specStrip (normalizeHostname Runtime.inOrder "-deadbeef") ∨
        x = specStrip (specShort (normalizeHostname Runtime.inOrder "-deadbeef"))) := by
  refine ⟨⟨by decide, ?_⟩, ⟨by decide, ?_⟩⟩
  · intro h
    have h1 := (h "").2 (Or.inr (Or.inl (by decide)))
    exact absurd h1 (by decide)
  · intro h
    have h1 := (h "").2 (Or.inr (Or.inr (Or.inl (by decide))))
    exact absurd h1 (by decide)

theorem LastIndex_unusable (t : String) (c : Char)
    (h : c ∉ t.data ∨ t.data.getLast? = some c) :
    ¬ (LastIndex t c ≥ 0 ∧ LastIndex t c < (t.length : Int) - 1) := by
  rcases h with h | h
  · rw [LastIndex_not_mem t c h]
    omega
  · have hne : t.data ≠ [] := by
      intro h0
      rw [h0] at h
      cases h
    obtain ⟨a, ha⟩ : ∃ a, t.data = a ++ [c] := by
      refine ⟨t.data.dropLast, ?_⟩
      have h1 := List.dropLast_append_getLast hne
      rw [List.getLast?_eq_getLast _ hne] at h
      injection h with h
      rw [h] at h1
      exact h1.symm
    have ht : t = ⟨a ++ c :: []⟩ := String.ext ha
    have hidx : LastIndex t c = (a.length : Int) := by
      rw [ht]
      exact LastIndex_append a [] c (by simp)
    have hlen : t.length = a.length + 1 := by
      show t.data.length = a.length + 1
      rw [ha]
      simp
    rw [hidx, hlen]
    push_cast
    omega

theorem LastIndex_usable (t : String) (a b : List Char) (c : Char)
    (h : t.data = a ++ c :: b) (hc : c ∉ b) (hb : b ≠ []) :
    (LastIndex t c ≥ 0 ∧ LastIndex t c < (t.length : Int) - 1) ∧
      sliceFrom t (LastIndex t c + 1) = ⟨b⟩ := by
  have ht : t = ⟨a ++ c :: b⟩ := String.ext h
  have hidx : LastIndex t c = (a.length : Int) := by
    rw [ht]
    exact LastIndex_append a b c hc
  have hlen : t.length = a.length + 1 + b.length := by
    show t.data.length = a.length + 1 + b.length
    rw [h]
    simp
    omega
  have hbl : 0 < b.length := List.length_pos.2 hb
  refine ⟨?_, ?_⟩
  · rw [hidx, hlen]
    push_cast
    omega
  · rw [hidx]
    unfold sliceFrom
    have : ((a.length : Int) + 1).toNat = a.length + 1 := by omega
    rw [this, h]
    congr 1
    simp

/-- C14, as amended: the three copies of the machine-name canonicalizer agree;
on a value whose trimmed form contains neither `/` nor `:` they return the
trimmed form; when a `/` occurs that is not its last character they return,
trimmed, what follows the last `/`; failing that, when a `:` occurs that is not
its last character they return, trimmed, what follows the last `:`; and
otherwise they return the trimmed form unchanged. -/
theorem normalizeMachineName_cases (v : String) :
    k8s.normalizeMachineName v = normalizeMachineNameValue v ∧
    rancher.normalizeMachineName v = normalizeMachineNameValue v ∧
    ('/' ∉ (TrimSpace v).data → ':' ∉ (TrimSpace v).data →
      normalizeMachineNameValue v = TrimSpace v) ∧
    (∀ a b : List Char, (TrimSpace v).data = a ++ '/' :: b → '/' ∉ b → b ≠ [] →
      normalizeMachineNameValue v = TrimSpace ⟨b⟩) ∧
    (∀ a b : List Char,
      ('/' ∉ (TrimSpace v).data ∨ (TrimSpace v).data.getLast? = some '/') →
      (TrimSpace v).data = a ++ ':' :: b → ':' ∉ b → b ≠ [] →
      normalizeMachineNameValue v = TrimSpace ⟨b⟩) ∧
    (('/' ∉ (TrimSpace v).data ∨ (TrimSpace v).data.getLast? = some '/') →
      (':' ∉ (TrimSpace v).data ∨ (TrimSpace v).data.getLast? = some ':') →
      normalizeMachineNameValue v = TrimSpace v) := by
  refine ⟨rfl, rfl, ?_, ?_, ?_, ?_⟩
  · intro h1 h2
    unfold normalizeMachineNameValue
    simp only [LastIndex_not_mem _ '/' h1, LastIndex_not_mem _ ':' h2]
    split
    · rename_i h
      exact h.symm
    · simp
  · intro a b h hc hb
    obtain ⟨h1, h2⟩ := LastIndex_usable (TrimSpace v) a b '/' h hc hb
    have hne : TrimSpace v ≠ "" := by
      intro h0
      rw [h0] at h
      simp at h
    unfold normalizeMachineNameValue
    simp only [hne, if_false, h1, and_self, if_true, h2]
  · intro a b hs h hc hb
    obtain ⟨h1, h2⟩ := LastIndex_usable (TrimSpace v) a b ':' h hc hb
    have h0 := LastIndex_unusable (TrimSpace v) '/' hs
    have hne : TrimSpace v ≠ "" := by
      intro h0
      rw [h0] at h
      simp at h
    unfold normalizeMachineNameValue
    simp only [hne, if_false, h0, h1, and_self, if_true, h2]
  · intro hs hcol
    have h0 := LastIndex_unusable (TrimSpace v) '/' hs
    have h1 := LastIndex_unusable (TrimSpace v) ':' hcol
    unfold normalizeMachineNameValue
    simp only [h0, h1, if_false]
    split
    · rename_i h
      exact h.symm
    · rfl

/-- C14, counterexample to the claim as stated: `abc/` contains a `/` and
nothing follows its last `/`, yet the three canonicalizers return `abc/`; and
of `a/b:c` they return `b:c`, not what follows the last of its separators. -/
theorem normalizeMachineName_counterexample :
    (specMachineName "abc/" = "" ∧
      normalizeMachineNameValue "abc/" ≠ specMachineName "abc/" ∧
      k8s.normalizeMachineName "abc/" ≠ specMachineName "abc/" ∧
      rancher.normalizeMachineName "abc/" ≠ specMachineName "abc/") ∧
    (specMachineName "a/b:c" = "c" ∧ normalizeMachineNameValue "a/b:c" = "b:c" ∧
      k8s.normalizeMachineName "a/b:c" = "b:c" ∧
      rancher.normalizeMachineName "a/b:c" = "b:c") := by
  decide

/-! ## The machine name of a node -/

theorem uuidRune_ascii (p : Nat × Char) (h : uuidRune p = true) : p.2.utf8Size = 1 := by
  unfold uuidRune at h
  split at h
  · have : p.2 = '-' := by simpa using h
    rw [this]
    decide
  · exact (hexRunes_lower p.2 (mem_hexRunes p.2 h)).1

theorem rangeString_eq_enumFrom (l : List Char) (offset : Nat)
    (h : ∀ c ∈ l, c.utf8Size = 1) : rangeString l offset = l.enumFrom offset := by
  induction l generalizing offset with
  | nil => rfl
  | cons c cs ih =>
    simp only [rangeString, List.enumFrom_cons]
    rw [h c (List.mem_cons_self _ _), ih _ (fun x hx => h x (List.mem_cons_of_mem _ hx))]

theorem rangeString_all_ascii (l : List Char) (offset : Nat)
    (h : (rangeString l offset).all uuidRune = true) : ∀ c ∈ l, c.utf8Size = 1 := by
  induction l generalizing offset with
  | nil =>
    intro c hc
    cases hc
  | cons a as ih =>
    simp only [rangeString, List.all_cons, Bool.and_eq_true] at h
    intro c hc
    rcases List.mem_cons.1 hc with rfl | hc
    · exact uuidRune_ascii _ h.1
    · exact ih _ h.2 c hc

theorem enumFrom_all_ascii (l : List Char) (offset : Nat)
    (h : (l.enumFrom offset).all uuidRune = true) : ∀ c ∈ l, c.utf8Size = 1 := by
  induction l generalizing offset with
  | nil =>
    intro c hc
    cases hc
  | cons a as ih =>
    simp only [List.enumFrom_cons, List.all_cons, Bool.and_eq_true] at h
    intro c hc
    rcases List.mem_cons.1 hc with rfl | hc
    · exact uuidRune_ascii _ h.1
    · exact ih _ h.2 c hc

theorem byteLen_ascii (s : String) (h : ∀ c ∈ s.data, c.utf8Size = 1) :
    byteLen s = s.length := by
  unfold byteLen
  rw [List.map_congr_left h]
  simp only [List.map_const', List.sum_replicate, smul_eq_mul, mul_one]
  rfl

/-- The function `isUUID`, which counts bytes, decides the pattern stated on
characters. -/
theorem isUUID_eq_uuidShaped (value : String) : isUUID value = uuidShaped value := by
  unfold isUUID uuidShaped List.enum
  cases h1 : (rangeString value.data 0).all uuidRune with
  | true =>
    have hasc := rangeString_all_ascii _ _ h1
    rw [rangeString_eq_enumFrom _ _ hasc] at h1
    rw [byteLen_ascii value hasc, h1]
    by_cases hl : value.length = 36
    · simp [hl]
    · simp [hl]
  | false =>
    cases h2 : (value.data.enumFrom 0).all uuidRune with
    | true =>
      have hasc := enumFrom_all_ascii _ _ h2
      rw [rangeString_eq_enumFrom _ _ hasc, h2] at h1
      cases h1
    | false => simp

theorem find?_congr_mem (l : List String) (p q : String → Bool)
    (h : ∀ x ∈ l, p x = q x) : l.find? p = l.find? q := by
  induction l with
  | nil => rfl
  | cons a as ih =>
    simp only [List.find?_cons, h a (List.mem_cons_self _ _)]
    rw [ih (fun x hx => h x (List.mem_cons_of_mem _ hx))]

theorem foldl_uniqueStrings (values : List String) (seen out : List String) :
    ∀ p : String → Bool, p "" = false →
      ((values.foldl
        (fun (st : List String × List String) value =>
          if value = "" then st
          else if value ∈ st.1 then st
          else (setInsert st.1 value, st.2 ++ [value])) (seen, out)).2).find? p =
      (out.find? p).or (values.find? (fun x => p x && decide (x ∉ seen))) := by
  induction values generalizing seen out with
  | nil =>
    intro p _
    simp
  | cons v vs ih =>
    intro p hp
    simp only [List.foldl_cons]
    by_cases hv : v = ""
    · subst hv
      simp only [if_true]
      rw [ih seen out p hp]
      simp [List.find?_cons, hp]
    · by_cases hs : v ∈ seen
      · simp only [hv, if_false, hs, if_true]
        rw [ih seen out p hp]
        simp [List.find?_cons, hs]
      · simp only [hv, if_false, hs]
        rw [ih _ _ p hp]
        have hins : setInsert seen v = seen ++ [v] := by
          unfold setInsert
          simp [hs]
        rw [hins, List.find?_append]
        cases hout : out.find? p with
        | some x => simp
        | none =>
          simp only [Option.none_or, List.find?_cons, List.find?_nil, hs, not_false_eq_true,
            decide_True, Bool.and_true]
          cases hpv : p v with
          | true => simp
          | false =>
            simp only [Option.none_or]
            apply find?_congr_mem
            intro x _
            by_cases hxv : x = v
            · subst hxv
              simp [hpv]
            · simp [hxv]

theorem find?_uniqueStrings (values : List String) (p : String → Bool) (hp : p "" = false) :
    (uniqueStrings values).find? p = values.find? p := by
  unfold uniqueStrings
  rw [foldl_uniqueStrings values [] [] p hp]
  simp

theorem head?_eq_find? (l : List String) (h : ∀ x ∈ l, x ≠ "") :
    l.head? = l.find? (fun x => decide (x ≠ "")) := by
  cases l with
  | nil => rfl
  | cons a as =>
    have := h a (List.mem_cons_self _ _)
    simp [List.find?_cons, this]

theorem foldl_uniqueStrings_ne (values : List String) (seen out : List String)
    (hout : ∀ x ∈ out, x ≠ "") :
    ∀ x ∈ (values.foldl
        (fun (st : List String × List String) value =>
          if value = "" then st
          else if value ∈ st.1 then st
          else (setInsert st.1 value, st.2 ++ [value])) (seen, out)).2, x ≠ "" := by
  induction values generalizing seen out with
  | nil => exact hout
  | cons v vs ih =>
    simp only [List.foldl_cons]
    by_cases hv : v = ""
    · simp only [hv, if_true]
      exact ih seen out hout
    · by_cases hs : v ∈ seen
      · simp only [hv, if_false, hs, if_true]
        exact ih seen out hout
      · simp only [hv, if_false, hs]
        apply ih
        intro x hx
        rcases List.mem_append.1 hx with hx | hx
        · exact hout x hx
        · rw [List.mem_singleton] at hx
          rw [hx]
          exact hv

theorem head?_uniqueStrings (values : List String) (h : ∀ x ∈ values, x ≠ "") :
    (uniqueStrings values).head? = values.head? := by
  have h1 : ∀ x ∈ uniqueStrings values, x ≠ "" :=
    foldl_uniqueStrings_ne values [] [] (fun x hx => by cases hx)
  rw [head?_eq_find? _ h1, head?_eq_find? _ h, find?_uniqueStrings _ _ (by simp)]

theorem isSpace_of_TrimSpace_empty (s : String) (h : TrimSpace s = "") :
    ∀ c ∈ s.data, isSpace c = true := by
  have h1 : (s.data.dropWhile isSpace).rdropWhile isSpace = [] := by
    rw [← TrimSpace_data, h]
  rw [List.rdropWhile_eq_nil_iff] at h1
  intro c hc
  rw [← List.takeWhile_append_dropWhile isSpace s.data] at hc
  rcases List.mem_append.1 hc with hc | hc
  · exact List.mem_takeWhile_imp hc
  · exact h1 c hc

theorem TrimSpace_last_not_space (v : String) (h : TrimSpace v ≠ "") :
    ∃ z, (TrimSpace v).data.getLast? = some z ∧ isSpace z = false := by
  have hne : (TrimSpace v).data ≠ [] := fun h0 => h (String.ext h0)
  refine ⟨(TrimSpace v).data.getLast hne, List.getLast?_eq_getLast _ hne, ?_⟩
  have h1 := List.rdropWhile_last_not isSpace (v.data.dropWhile isSpace) hne
  simpa using h1

/-- The canonical form of a non-blank machine name is not empty. -/
theorem normalizeMachineName_ne (v : String) (h : TrimSpace v ≠ "") :
    k8s.normalizeMachineName v ≠ "" := by
  obtain ⟨z, hz, hzs⟩ := TrimSpace_last_not_space v h
  have hslice : ∀ idx : Int, idx ≥ 0 ∧ idx < ((TrimSpace v).length : Int) - 1 →
      TrimSpace (sliceFrom (TrimSpace v) (idx + 1)) ≠ "" := by
    intro idx hidx h0
    have hall := isSpace_of_TrimSpace_empty _ h0
    have hlast : (sliceFrom (TrimSpace v) (idx + 1)).data.getLast? = some z := by
      unfold sliceFrom
      simp only
      rw [List.getLast?_drop]
      have hlen : ¬ (TrimSpace v).data.length ≤ (idx + 1).toNat := by
        have : (TrimSpace v).length = (TrimSpace v).data.length := rfl
        omega
      simp only [hlen, if_false, hz]
    have := hall z (List.mem_of_getLast?_eq_some hlast)
    rw [hzs] at this
    cases this
  unfold k8s.normalizeMachineName
  simp only [h, if_false]
  split
  · rename_i hidx
    exact hslice _ hidx
  · split
    · rename_i hidx
      exact hslice _ hidx
    · exact h

theorem normalizeMachineName_TrimSpace (v : String) :
    k8s.normalizeMachineName (TrimSpace v) = k8s.normalizeMachineName v := by
  unfold k8s.normalizeMachineName
  rw [TrimSpace_idem]

theorem foldl_appendCandidates (values : List (String × String)) (keys : List String)
    (candidates : List String) :
    keys.foldl
      (fun candidates key =>
        let value := TrimSpace (mapGet values key)
        if value ≠ "" then candidates ++ [k8s.normalizeMachineName value] else candidates)
      candidates =
    candidates ++ ((keys.map (mapGet values)).filter (fun value => TrimSpace value ≠ "")).map
      k8s.normalizeMachineName := by
  induction keys generalizing candidates with
  | nil => simp
  | cons k ks ih =>
    simp only [List.foldl_cons, List.map_cons]
    rw [ih]
    by_cases hk : TrimSpace (mapGet values k) = ""
    · simp [hk, List.filter_cons]
    · simp [hk, List.filter_cons, normalizeMachineName_TrimSpace]

theorem specValues_ne (values : List (String × String)) : ∀ x ∈ specValues values, x ≠ "" := by
  intro x hx
  unfold specValues at hx
  obtain ⟨v, hv, rfl⟩ := List.mem_map.1 hx
  have := (List.mem_filter.1 hv).2
  exact normalizeMachineName_ne v (by simpa using this)

/-- C15: `nodeMachineName` returns the first candidate that is not UUID-shaped
(36 characters, a `-` at the positions 8, 13, 18 and 23 and a hexadecimal digit
at every other), the candidates being the canonicalized non-blank values of the
known machine-name keys, in key order, first of the labels and then of the
annotations; the first candidate when all are UUID-shaped; and the empty
string when there is no candidate. -/
theorem nodeMachineName_eq_spec (labels annotations : List (String × String)) :
    nodeMachineName labels annotations = specNodeMachineName labels annotations := by
  have hcands : machineNameCandidates labels annotations =
      uniqueStrings (specValues labels ++ specValues annotations) := by
    unfold machineNameCandidates appendCandidates
    rw [foldl_appendCandidates, foldl_appendCandidates]
    rfl
  have hne : ∀ x ∈ specValues labels ++ specValues annotations, x ≠ "" := by
    intro x hx
    rcases List.mem_append.1 hx with hx | hx
    · exact specValues_ne labels x hx
    · exact specValues_ne annotations x hx
  unfold nodeMachineName specNodeMachineName
  simp only [hcands]
  rw [find?_uniqueStrings _ _ (by simp), head?_uniqueStrings _ hne]
  have hfind : (specValues labels ++ specValues annotations).find?
        (fun candidate => decide (candidate ≠ "") && !isUUID candidate) =
      (specValues labels ++ specValues annotations).find?
        (fun candidate => !uuidShaped candidate) := by
    apply find?_congr_mem
    intro x hx
    simp [hne x hx, isUUID_eq_uuidShaped]
  rw [hfind]

/-! ## Requests and retries -/

theorem readReply_retryable {α : Type} (reply : Reply α) (h : reply.retryable = true) :
    ∃ err, readReply reply = .error err ∧ shouldRetry err = true := by
  cases reply with
  | failed msg => exact ⟨.other msg, rfl, rfl⟩
  | answered status body =>
    have hs : status ≥ 500 := by simpa [Reply.retryable] using h
    have h1 : ¬ (status = 401 ∨ status = 403) := by omega
    have h2 : status < 200 ∨ status ≥ 300 := by omega
    refine ⟨.api status (statusError status), ?_, ?_⟩
    · simp only [readReply, h1, if_false, h2, if_true]
    · simpa [shouldRetry] using hs

theorem shouldRetry_iff (err : GoError) :
    shouldRetry err = true ↔
      (∃ msg, err = .other msg) ∨ ∃ status e, err = .api status e ∧ status ≥ 500 := by
  cases err with
  | api status e =>
    simp [shouldRetry]
  | other msg =>
    simp [shouldRetry]

theorem fetchPageFrom_run (server : Nat → Reply listResponse) (k : Nat) :
    ∀ (n attempt : Nat) (lastErr : Option GoError) (trace : List Event), k < n →
      (∀ j < k, (server (attempt + j)).retryable = true) →
      (∀ err, doRequest (server (attempt + k)) = .error err → shouldRetry err = false) →
      fetchPageFrom server n attempt lastErr trace =
        (doRequest (server (attempt + k)), trace ++ retryTrace attempt k ++ [.request]) := by
  induction k with
  | zero =>
    intro n attempt lastErr trace hn _ hfinal
    obtain ⟨m, rfl⟩ : ∃ m, n = m + 1 := ⟨n - 1, by omega⟩
    simp only [Nat.add_zero] at hfinal ⊢
    unfold fetchPageFrom
    cases hd : doRequest (server attempt) with
    | error err => simp [hfinal err hd, retryTrace]
    | ok resp => simp [retryTrace]
  | succ k ih =>
    intro n attempt lastErr trace hn hretry hfinal
    obtain ⟨m, rfl⟩ : ∃ m, n = m + 1 := ⟨n - 1, by omega⟩
    obtain ⟨err, herr, hsr⟩ := readReply_retryable (server attempt)
      (by simpa using hretry 0 (by omega))
    have hd : doRequest (server attempt) = .error err := herr
    unfold fetchPageFrom
    simp only [hd, hsr, if_true]
    have h1 : attempt + (k + 1) = attempt + 1 + k := by omega
    rw [ih m (attempt + 1) (some err) _ (by omega)
      (fun j hj => by
        have := hretry (j + 1) (by omega)
        rw [show attempt + (j + 1) = attempt + 1 + j by omega] at this
        exact this)
      (fun e he => hfinal e (by rw [h1]; exact he))]
    rw [h1]
    simp [retryTrace, List.append_assoc]

theorem fetchPageFrom_count (server : Nat → Reply listResponse) :
    ∀ (n attempt : Nat) (lastErr : Option GoError) (trace : List Event),
      requestCount (fetchPageFrom server n attempt lastErr trace).2 ≤ requestCount trace + n := by
  intro n
  induction n with
  | zero =>
    intro attempt lastErr trace
    simp [fetchPageFrom]
  | succ n ih =>
    intro attempt lastErr trace
    unfold fetchPageFrom
    cases hd : doRequest (server attempt) with
    | error err =>
      by_cases hs : shouldRetry err = true
      · simp only [hs, if_true]
        refine le_trans (ih _ _ _) ?_
        simp [requestCount, List.count_append, List.count_cons]
        omega
      · simp only [hs, if_false]
        simp [requestCount, List.count_append]
    | ok resp =>
      simp [requestCount, List.count_append]

theorem generateFrom_run (server : Nat → Reply (List (String × Value))) (k : Nat) :
    ∀ (n attempt : Nat) (lastErr : Option GoError) (trace : List Event), k < n →
      (∀ j < k, (server (attempt + j)).retryable = true) →
      (∀ err, doJSONRequest (server (attempt + k)) = .error err → shouldRetry err = false) →
      generateFrom server n attempt lastErr trace =
        (doJSONRequest (server (attempt + k)), trace ++ retryTrace attempt k ++ [.request]) := by
  induction k with
  | zero =>
    intro n attempt lastErr trace hn _ hfinal
    obtain ⟨m, rfl⟩ : ∃ m, n = m + 1 := ⟨n - 1, by omega⟩
    simp only [Nat.add_zero] at hfinal ⊢
    unfold generateFrom
    cases hd : doJSONRequest (server attempt) with
    | error err => simp [hfinal err hd, retryTrace]
    | ok resp => simp [retryTrace]
  | succ k ih =>
    intro n attempt lastErr trace hn hretry hfinal
    obtain ⟨m, rfl⟩ : ∃ m, n = m + 1 := ⟨n - 1, by omega⟩
    obtain ⟨err, herr, hsr⟩ := readReply_retryable (server attempt)
      (by simpa using hretry 0 (by omega))
    have hd : doJSONRequest (server attempt) = .error err := herr
    unfold generateFrom
    simp only [hd, hsr, if_true]
    have h1 : attempt + (k + 1) = attempt + 1 + k := by omega
    rw [ih m (attempt + 1) (some err) _ (by omega)
      (fun j hj => by
        have := hretry (j + 1) (by omega)
        rw [show attempt + (j + 1) = attempt + 1 + j by omega] at this
        exact this)
      (fun e he => hfinal e (by rw [h1]; exact he))]
    rw [h1]
    simp [retryTrace, List.append_assoc]

theorem readReply_success {α : Type} (status : Int) (payload : α) (h1 : 200 ≤ status)
    (h2 : status < 300) : readReply (.answered status (some payload)) = .ok payload := by
  have h3 : ¬ (status = 401 ∨ status = 403) := by omega
  have h4 : ¬ (status < 200 ∨ status ≥ 300) := by omega
  simp only [readReply, h3, h4, if_false]

theorem readReply_client_error {α : Type} (status : Int) (body : Option α) (h1 : 400 ≤ status)
    (h2 : status ≤ 499) :
    readReply (.answered status body) = .error (.api status (statusError status)) ∧
      shouldRetry (.api status (statusError status)) = false := by
  refine ⟨?_, ?_⟩
  · by_cases h3 : status = 401 ∨ status = 403
    · simp only [readReply, h3, if_true]
    · have h4 : status < 200 ∨ status ≥ 300 := by omega
      simp only [readReply, h3, if_false, h4, if_true]
  · simp only [shouldRetry, decide_eq_false_iff_not]
    omega

/-- C16: `fetchPage` issues at most three requests; when the first successful
attempt is among them and every attempt before it failed with a
transport-level error or a status of 500 or more, it returns the response of
that attempt, having waited after each failed attempt and not after the
successful one; and two answers of status 500 followed by one of status 200
give the response after three requests, with waits of 250ms before the second
and 600ms before the third. -/
theorem fetchPage_retries (server : Nat → Reply listResponse) :
    requestCount (fetchPage server).2 ≤ 3 ∧
    (∀ (k : Nat) (status : Int) (resp : listResponse), k < 3 →
      (∀ j < k, (server j).retryable = true) →
      server k = .answered status (some resp) → 200 ≤ status → status < 300 →
      fetchPage server = (.ok resp, retryTrace 0 k ++ [.request])) ∧
    (∀ (b0 b1 : Option listResponse) (resp : listResponse),
      server 0 = .answered 500 b0 → server 1 = .answered 500 b1 →
      server 2 = .answered 200 (some resp) →
      fetchPage server =
        (.ok resp, [.request, .sleep 250, .request, .sleep 600, .request])) := by
  have hgen : ∀ (k : Nat) (status : Int) (resp : listResponse), k < 3 →
      (∀ j < k, (server j).retryable = true) →
      server k = .answered status (some resp) → 200 ≤ status → status < 300 →
      fetchPage server = (.ok resp, retryTrace 0 k ++ [.request]) := by
    intro k status resp hk hretry hreply h1 h2
    have hd : doRequest (server (0 + k)) = .ok resp := by
      rw [Nat.zero_add, hreply]
      exact readReply_success status resp h1 h2
    unfold fetchPage
    rw [fetchPageFrom_run server k defaultRetries 0 none [] hk
      (fun j hj => by rw [Nat.zero_add]; exact hretry j hj)
      (fun err he => by rw [hd] at he; cases he), hd]
    simp
  refine ⟨?_, hgen, ?_⟩
  · have := fetchPageFrom_count server defaultRetries 0 none []
    simpa [requestCount, defaultRetries] using this
  · intro b0 b1 resp h0 h1 h2
    have hr : ∀ j < 2, (server j).retryable = true := by
      intro j hj
      have hj' : j = 0 ∨ j = 1 := by omega
      rcases hj' with rfl | rfl
      · rw [h0]
        rfl
      · rw [h1]
        rfl
    rw [hgen 2 200 resp (by omega) hr h2 (by omega) (by omega)]
    rfl

/-- C17: when an attempt of `fetchPage`, or of the retry loop of
`GenerateKubeconfig`, is answered with a status from 400 to 499 (401 and 403
among them), the call returns that error at once: the request of that attempt
is the last event, no wait and no request follows it; and a failure is retried
only when it is a transport-level error or has a status of 500 or more.  An
answer of status 500 followed by one of status 403 gives the error of status
403 after two requests and one wait. -/
theorem client_error_not_retried :
    (∀ (server : Nat → Reply listResponse) (k : Nat) (status : Int)
        (body : Option listResponse), k < 3 →
      (∀ j < k, (server j).retryable = true) →
      server k = .answered status body → 400 ≤ status → status ≤ 499 →
      fetchPage server = (.error (.api status (statusError status)), retryTrace 0 k ++ [.request])) ∧
    (∀ (c : Client) (url clusterID : String) (server : Nat → Reply (List (String × Value)))
        (k : Nat) (status : Int) (body : Option (List (String × Value))),
      clusterID ≠ "" → c.baseURL = some url → k < 3 →
      (∀ j < k, (server j).retryable = true) →
      server k = .answered status body → 400 ≤ status → status ≤ 499 →
      GenerateKubeconfig c server clusterID =
        (.error (.api status (statusError status)), retryTrace 0 k ++ [.request])) ∧
    (∀ err, shouldRetry err = true ↔
      (∃ msg, err = .other msg) ∨ ∃ status e, err = .api status e ∧ status ≥ 500) ∧
    (∀ (reply : Reply listResponse) (err : GoError), doRequest reply = .error err →
      shouldRetry err = true → reply.retryable = true) ∧
    fetchPage (fun attempt => if attempt = 0 then .answered 500 none else .answered 403 none) =
      (.error (.api 403 "status 403"), [.request, .sleep 250, .request]) := by
  refine ⟨?_, ?_, shouldRetry_iff, ?_, rfl⟩
  · intro server k status body hk hretry hreply h1 h2
    obtain ⟨hd, hs⟩ := readReply_client_error status body h1 h2
    have hd' : doRequest (server (0 + k)) = .error (.api status (statusError status)) := by
      rw [Nat.zero_add, hreply]
      exact hd
    unfold fetchPage
    rw [fetchPageFrom_run server k defaultRetries 0 none [] hk
      (fun j hj => by rw [Nat.zero_add]; exact hretry j hj)
      (fun err he => by
        rw [hd'] at he
        injection he with he
        rw [← he]
        exact hs), hd']
    simp
  · intro c url clusterID server k status body hid hurl hk hretry hreply h1 h2
    obtain ⟨hd, hs⟩ := readReply_client_error status body h1 h2
    have hd' : doJSONRequest (server (0 + k)) = .error (.api status (statusError status)) := by
      rw [Nat.zero_add, hreply]
      exact hd
    unfold GenerateKubeconfig
    rw [generateFrom_run server k defaultRetries 0 none [] hk
      (fun j hj => by rw [Nat.zero_add]; exact hretry j hj)
      (fun err he => by
        rw [hd'] at he
        injection he with he
        rw [← he]
        exact hs), hd']
    simp [hid, hurl]
  · intro reply err hd hs
    cases reply with
    | failed msg => rfl
    | answered status body =>
      simp only [doRequest, readReply] at hd
      split at hd
      · injection hd with hd
        subst hd
        simpa [shouldRetry, Reply.retryable] using hs
      · split at hd
        · injection hd with hd
          subst hd
          simpa [shouldRetry, Reply.retryable] using hs
        · rename_i h3 h4
          cases body with
          | none =>
            simp only at hd
            injection hd with hd
            subst hd
            simp only [shouldRetry, decide_eq_true_eq] at hs
            omega
          | some payload =>
            simp only at hd
            cases hd

theorem getValue_field (payload : List (String × Value)) :
    getValue payload "config" = lookupField payload "config" ∧
    getValue payload "kubeconfig" = lookupField payload "kubeconfig" := by
  have h1 : splitDots "config" = ["config"] := by decide
  have h2 : splitDots "kubeconfig" = ["kubeconfig"] := by decide
  constructor
  · unfold getValue
    rw [h1]
    unfold walk
    cases lookupField payload "config" with
    | none => rfl
    | some v => simp only [walk]
  · unfold getValue
    rw [h2]
    unfold walk
    cases lookupField payload "kubeconfig" with
    | none => rfl
    | some v => simp only [walk]

theorem getString_none (payload : List (String × Value)) (path : String)
    (h : getValue payload path = none ∨ getValue payload path = some (.str "")) :
    getString payload path = none := by
  rcases h with h | h <;> simp [getString, h]

theorem getString_some (payload : List (String × Value)) (path : String) (v : Value)
    (h : getValue payload path = some v) (hv : v ≠ .str "") :
    getString payload path = some (sprint v) := by
  unfold getString
  rw [h]
  cases v with
  | str s =>
    have hs : s ≠ "" := fun e => hv (by rw [e])
    simp [hs, sprint]
  | _ => rfl

theorem GenerateKubeconfig_ok (c : Client) (url clusterID : String)
    (server : Nat → Reply (List (String × Value))) (status : Int)
    (payload : List (String × Value)) (hid : clusterID ≠ "") (hurl : c.baseURL = some url)
    (hreply : server 0 = .answered status (some payload)) (h1 : 200 ≤ status)
    (h2 : status < 300) :
    GenerateKubeconfig c server clusterID =
      (if firstString payload ["config", "kubeconfig"] = "" then
          .error (.other "rancher kubeconfig response missing config")
        else .ok (firstString payload ["config", "kubeconfig"]), [.request]) := by
  have hd : doJSONRequest (server (0 + 0)) = .ok payload := by
    rw [Nat.zero_add, hreply]
    exact readReply_success status payload h1 h2
  have hg := generateFrom_run server 0 defaultRetries 0 none [] (by decide)
    (fun j hj => absurd hj (Nat.not_lt_zero j))
    (fun err he => by rw [hd] at he; cases he)
  rw [hd] at hg
  unfold GenerateKubeconfig
  rw [hg]
  have hu : ¬ (some url : Option String) = none := by simp
  simp only [hid, hurl, hu, if_false, retryTrace, List.append_nil, List.nil_append]
  by_cases hf : firstString payload ["config", "kubeconfig"] = ""
  · simp only [hf, if_true]
  · simp only [hf, if_false]

/-- On a successful first response whose fields `config` and `kubeconfig` are
each absent or text, `GenerateKubeconfig` returns the text of `config` when it
is not empty, otherwise the text of `kubeconfig` when that is not empty, and
fails with the missing-config error when each of the two is absent or empty;
and it fails without any request when the cluster ID is empty. -/
theorem GenerateKubeconfig_text (c : Client) (url clusterID : String)
    (server : Nat → Reply (List (String × Value))) (status : Int)
    (payload : List (String × Value)) (hid : clusterID ≠ "") (hurl : c.baseURL = some url)
    (hreply : server 0 = .answered status (some payload)) (h1 : 200 ≤ status)
    (h2 : status < 300) :
    (∀ s, lookupField payload "config" = some (.str s) → s ≠ "" →
      GenerateKubeconfig c server clusterID = (.ok s, [.request])) ∧
    (∀ s, lookupField payload "config" = none ∨ lookupField payload "config" = some (.str "") →
      lookupField payload "kubeconfig" = some (.str s) → s ≠ "" →
      GenerateKubeconfig c server clusterID = (.ok s, [.request])) ∧
    (lookupField payload "config" = none ∨ lookupField payload "config" = some (.str "") →
      lookupField payload "kubeconfig" = none ∨
        lookupField payload "kubeconfig" = some (.str "") →
      GenerateKubeconfig c server clusterID =
        (.error (.other "rancher kubeconfig response missing config"), [.request])) ∧
    (∀ (c0 : Client) (server0 : Nat → Reply (List (String × Value))),
      GenerateKubeconfig c0 server0 "" = (.error (.other "cluster ID is required"), [])) := by
  have hok := GenerateKubeconfig_ok c url clusterID server status payload hid hurl hreply h1 h2
  obtain ⟨hc, hk⟩ := getValue_field payload
  have hstr : ∀ s : String, s ≠ "" → Value.str s ≠ Value.str "" := by
    intro s hs h
    injection h with h
    exact hs h
  refine ⟨?_, ?_, ?_, ?_⟩
  · intro s hv hs
    have hf : firstString payload ["config", "kubeconfig"] = s := by
      simp only [firstString, getString_some payload "config" (.str s) (hc.trans hv) (hstr s hs),
        sprint]
    rw [hok, hf, if_neg hs]
  · intro s hcfg hv hs
    have hf : firstString payload ["config", "kubeconfig"] = s := by
      simp only [firstString, getString_none payload "config" (by rw [hc]; exact hcfg),
        getString_some payload "kubeconfig" (.str s) (hk.trans hv) (hstr s hs), sprint]
    rw [hok, hf, if_neg hs]
  · intro hcfg hkube
    have hf : firstString payload ["config", "kubeconfig"] = "" := by
      simp only [firstString, getString_none payload "config" (by rw [hc]; exact hcfg),
        getString_none payload "kubeconfig" (by rw [hk]; exact hkube)]
    rw [hok, hf, if_pos rfl]
  · intro c0 server0
    simp only [GenerateKubeconfig, if_true]

/-- C19, the code at the failing input.  A successful response whose `config`
field is `null` and that has no `kubeconfig` field contains neither field as
non-empty text: `getString` reports the `null` as found, with the text `<nil>`
of `%v`, so `GenerateKubeconfig` returns the bytes of `<nil>` instead of
failing with the missing-config error.  Likewise a response whose `config`
field is the number 42 and whose `kubeconfig` field is the text `yaml` gives
the text `42` and not `yaml`.  With the empty string in place of the `null`
the call fails as it should. -/
theorem GenerateKubeconfig_null_config :
    lookupField [("config", Value.null)] "config" = some .null ∧
    lookupField [("config", Value.null)] "kubeconfig" = none ∧
    getString [("config", Value.null)] "config" = some "<nil>" ∧
    GenerateKubeconfig ⟨some "https://rancher.example", "token"⟩
      (fun _ => .answered 200 (some [("config", .null)])) "c-1" = (.ok "<nil>", [.request]) ∧
    GenerateKubeconfig ⟨some "https://rancher.example", "token"⟩
      (fun _ => .answered 200 (some [("config", .number "42"), ("kubeconfig", .str "yaml")]))
      "c-1" = (.ok "42", [.request]) ∧
    GenerateKubeconfig ⟨some "https://rancher.example", "token"⟩
      (fun _ => .answered 200 (some [("config", .str "")])) "c-1" =
      (.error (.other "rancher kubeconfig response missing config"), [.request]) := by
  refine ⟨rfl, rfl, rfl, rfl, rfl, rfl⟩

theorem foldl_MachineNameMap (clusterName : String) (machines : List Machine) :
    ∀ (init : String → Option String) (n m : String),
      machines.foldl
        (fun mapByNode machine =>
          if clusterName ≠ "" ∧ machine.ClusterName ≠ "" ∧ machine.ClusterName ≠ clusterName then
            mapByNode
          else if machine.NodeName = "" ∨ machine.Name = "" then mapByNode
          else mapSet mapByNode machine.NodeName machine.Name) init n = some m →
      init n = some m ∨
        ∃ machine ∈ machines, machine.NodeName = n ∧ machine.Name = m ∧ n ≠ "" ∧ m ≠ "" ∧
          (clusterName ≠ "" → machine.ClusterName = clusterName ∨ machine.ClusterName = "") := by
  induction machines with
  | nil =>
    intro init n m h
    exact Or.inl h
  | cons machine rest ih =>
    intro init n m h
    rw [List.foldl_cons] at h
    rcases ih _ n m h with h1 | ⟨x, hx, hrest⟩
    · by_cases hskip : clusterName ≠ "" ∧ machine.ClusterName ≠ "" ∧
          machine.ClusterName ≠ clusterName
      · rw [if_pos hskip] at h1
        exact Or.inl h1
      · rw [if_neg hskip] at h1
        by_cases hempty : machine.NodeName = "" ∨ machine.Name = ""
        · rw [if_pos hempty] at h1
          exact Or.inl h1
        · rw [if_neg hempty] at h1
          unfold mapSet at h1
          by_cases hn : n = machine.NodeName
          · rw [if_pos hn] at h1
            injection h1 with h1
            refine Or.inr ⟨machine, List.mem_cons_self _ _, hn.symm, h1, ?_, ?_, ?_⟩
            · rw [hn]
              exact fun e => hempty (Or.inl e)
            · rw [← h1]
              exact fun e => hempty (Or.inr e)
            · intro hc
              by_contra hcon
              push_neg at hcon
              exact hskip ⟨hc, hcon.2, hcon.1⟩
          · rw [if_neg hn] at h1
            exact Or.inl h1
    · exact Or.inr ⟨x, List.mem_cons_of_mem _ hx, hrest⟩

/-- C18 (amended): `MachineNameMap(machines, c)` maps a node name `n` to a
machine name `m` only if some machine record has `NodeName = n` and
`Name = m`, both non-empty, and, when `c` is supplied (non-empty), that
record's `ClusterName` equals `c` or is empty. -/
theorem MachineNameMap_records (machines : List Machine) (c n m : String)
    (h : MachineNameMap machines c n = some m) :
    ∃ machine ∈ machines, machine.NodeName = n ∧ machine.Name = m ∧ n ≠ "" ∧ m ≠ "" ∧
      (c ≠ "" → machine.ClusterName = c ∨ machine.ClusterName = "") := by
  rcases foldl_MachineNameMap c machines (fun _ => none) n m h with h1 | h1
  · cases h1
  · exact h1

/-- C18, witness: two records of the cluster `prod` for the node `n1`, of which
the later one gives the machine name. -/
theorem MachineNameMap_records_witness :
    MachineNameMap
      [{ Name := "m1", NodeName := "n1", ClusterName := "prod" },
        { Name := "m2", NodeName := "n1", ClusterName := "prod" }] "prod" "n1" = some "m2" ∧
    ∃ machine ∈ ([{ Name := "m1", NodeName := "n1", ClusterName := "prod" },
        { Name := "m2", NodeName := "n1", ClusterName := "prod" }] : List Machine),
      machine.NodeName = "n1" ∧ machine.Name = "m2" ∧ "n1" ≠ "" ∧ "m2" ≠ "" ∧
        ("prod" ≠ "" → machine.ClusterName = "prod" ∨ machine.ClusterName = "") :=
  ⟨by decide, MachineNameMap_records _ "prod" "n1" "m2" (by decide)⟩

/-- C18, counterexample: a record without cluster name is used although the
cluster name `prod` is supplied, so the node `n1` is mapped to `m1` and no
record with `NodeName = n1` and `Name = m1` has the cluster name `prod`. -/
theorem MachineNameMap_records_counterexample :
    MachineNameMap [{ Name := "m1", NodeName := "n1", ClusterName := "" }] "prod" "n1" =
      some "m1" ∧
    ¬ ∃ machine ∈ ([{ Name := "m1", NodeName := "n1", ClusterName := "" }] : List Machine),
      machine.NodeName = "n1" ∧ machine.Name = "m1" ∧
        ("prod" ≠ "" → machine.ClusterName = "prod") := by
  refine ⟨by decide, ?_⟩
  rintro ⟨machine, hmem, -, -, hc⟩
  rw [List.mem_singleton] at hmem
  subst hmem
  exact absurd (hc (by decide)) (by decide)

theorem SaveCachedKubeconfig_ok (E : CacheEnv) (d d1 : Disk) (key : String)
    (data : List (Fin 256)) (hsave : SaveCachedKubeconfig E d key data = .ok d1) :
    d1.denied (kubeconfigCachePath E key) = false ∧ d1.now = d.now ∧ d1.denied = d.denied ∧
      d1.files = fun p =>
        if p = kubeconfigCachePath E key then some ⟨data, d.now⟩ else d.files p := by
  unfold SaveCachedKubeconfig MkdirAll WriteFile at hsave
  by_cases h1 : d.denied E.dir = true
  · simp [h1] at hsave
  · by_cases h2 : d.denied (kubeconfigCachePath E key) = true
    · simp [h1, h2] at hsave
    · simp only [h1, h2, if_false, Bool.false_eq_true] at hsave
      injection hsave with hsave
      subst hsave
      simp only [Bool.not_eq_true] at h2
      exact ⟨h2, rfl, rfl, rfl⟩

theorem LoadCachedKubeconfig_file (E : CacheEnv) (d : Disk) (key : String) (ttl : Int)
    (file : CacheFile) (hd : d.denied (kubeconfigCachePath E key) = false)
    (hf : d.files (kubeconfigCachePath E key) = some file) :
    LoadCachedKubeconfig E d key ttl =
      if ttl > 0 ∧ d.now - file.modTime > ttl then .ok ⟨none, d.now - file.modTime, false⟩
      else .ok ⟨some file.data, d.now - file.modTime, true⟩ := by
  simp only [LoadCachedKubeconfig, Stat, ReadFile, hd, hf, Bool.false_eq_true, if_false]

/-- C20: over a disk with a clock, after `SaveCachedKubeconfig(key, data)` has
succeeded and the time `elapsed` has passed, `LoadCachedKubeconfig(key, ttl)`
with a positive `ttl` returns a hit with exactly `data` and the age `elapsed`
when `elapsed` is at most `ttl`, and a miss with no data, and no error, when
`elapsed` exceeds `ttl`; after a later `SaveCachedKubeconfig` for the same key
the hit carries the bytes of the later call; and a key whose file does not
exist is a miss without error, which it remains after a save under another
path. -/
theorem kubeconfig_cache_roundtrip (E : CacheEnv) (d d1 : Disk) (key : String)
    (data : List (Fin 256)) (hsave : SaveCachedKubeconfig E d key data = .ok d1) :
    (∀ elapsed ttl : Int, 0 < ttl → elapsed ≤ ttl →
      LoadCachedKubeconfig E (d1.elapse elapsed) key ttl = .ok ⟨some data, elapsed, true⟩) ∧
    (∀ elapsed ttl : Int, 0 < ttl → ttl < elapsed →
      LoadCachedKubeconfig E (d1.elapse elapsed) key ttl = .ok ⟨none, elapsed, false⟩) ∧
    (∀ (between elapsed ttl : Int) (later : List (Fin 256)) (d2 : Disk),
      SaveCachedKubeconfig E (d1.elapse between) key later = .ok d2 → 0 < ttl → elapsed ≤ ttl →
      LoadCachedKubeconfig E (d2.elapse elapsed) key ttl = .ok ⟨some later, elapsed, true⟩) ∧
    (∀ (other : String) (ttl : Int),
      kubeconfigCachePath E other ≠ kubeconfigCachePath E key →
      d.files (kubeconfigCachePath E other) = none →
      d.denied (kubeconfigCachePath E other) = false →
      LoadCachedKubeconfig E d other ttl = .ok ⟨none, 0, false⟩ ∧
        ∀ elapsed : Int,
          LoadCachedKubeconfig E (d1.elapse elapsed) other ttl = .ok ⟨none, 0, false⟩) := by
  have hload : ∀ (d0 d3 : Disk) (bytes : List (Fin 256)) (elapsed ttl : Int),
      SaveCachedKubeconfig E d0 key bytes = .ok d3 → 0 < ttl →
      LoadCachedKubeconfig E (d3.elapse elapsed) key ttl =
        if elapsed > ttl then .ok ⟨none, elapsed, false⟩ else .ok ⟨some bytes, elapsed, true⟩ := by
    intro d0 d3 bytes elapsed ttl h3 httl
    obtain ⟨hden, hnow, -, hfiles⟩ := SaveCachedKubeconfig_ok E d0 d3 key bytes h3
    rw [LoadCachedKubeconfig_file E (d3.elapse elapsed) key ttl ⟨bytes, d0.now⟩ hden
      (by simp [Disk.elapse, hfiles])]
    have hage : (d3.elapse elapsed).now - d0.now = elapsed := by
      simp only [Disk.elapse, hnow]
      omega
    simp only [hage, httl, gt_iff_lt, true_and]
  refine ⟨?_, ?_, ?_, ?_⟩
  · intro elapsed ttl httl hle
    rw [hload d d1 data elapsed ttl hsave httl, if_neg (by omega)]
  · intro elapsed ttl httl hlt
    rw [hload d d1 data elapsed ttl hsave httl, if_pos (by omega)]
  · intro between elapsed ttl later d2 h2 httl hle
    rw [hload (d1.elapse between) d2 later elapsed ttl h2 httl, if_neg (by omega)]
  · intro other ttl hpath hnone hden
    obtain ⟨-, -, hdenied, hfiles⟩ := SaveCachedKubeconfig_ok E d d1 key data hsave
    refine ⟨?_, ?_⟩
    · simp [LoadCachedKubeconfig, Stat, hden, hnone]
    · intro elapsed
      simp [LoadCachedKubeconfig, Stat, Disk.elapse, hdenied, hden, hfiles, hpath, hnone]

/-- C20, witness: the bytes 1, 2 saved under the key `k` on the empty disk,
loaded five units of time later with a time to live of ten units. -/
theorem kubeconfig_cache_roundtrip_witness :
    SaveCachedKubeconfig plainEnv emptyDisk "k" [1, 2] =
      .ok { emptyDisk with
        files := fun p =>
          if p = kubeconfigCachePath plainEnv "k" then some ⟨[1, 2], emptyDisk.now⟩
          else emptyDisk.files p } ∧
    LoadCachedKubeconfig plainEnv
      (Disk.elapse { emptyDisk with
        files := fun p =>
          if p = kubeconfigCachePath plainEnv "k" then some ⟨[1, 2], emptyDisk.now⟩
          else emptyDisk.files p } 5) "k" 10 = .ok ⟨some [1, 2], 5, true⟩ :=
  ⟨rfl, (kubeconfig_cache_roundtrip plainEnv emptyDisk _ "k" [1, 2] rfl).1 5 10 (by decide)
    (by decide)⟩

theorem seenBy_append (R : Runtime) (index : nodeIndex) (h1 h2 : List InventoryHost)
    (key : String) :
    seenBy R index (h1 ++ h2) key = (seenBy R index h1 key || seenBy R index h2 key) := by
  unfold seenBy
  rw [List.any_append]

/-- C27: the outcome of each host depends only on that host and the node list.
The Matches, Ambiguous and UnmatchedHosts of `Match(h1 ++ h2, nodes)` are those
of `Match(h1, nodes)` followed by those of `Match(h2, nodes)`, and its
UnmatchedNodes are the nodes unmatched in both; and matching is not exclusive:
the two hosts `hostAB` and `hostTwo` are both definitively matched to the one
node `nodeA`. -/
theorem Match_append (R : Runtime) (h1 h2 : List InventoryHost) (nodes : List K8sNode) :
    (∃ r r1 r2, Match R (h1 ++ h2) nodes = some r ∧ Match R h1 nodes = some r1 ∧
      Match R h2 nodes = some r2 ∧
      r.Matches = r1.Matches ++ r2.Matches ∧
      r.Ambiguous = r1.Ambiguous ++ r2.Ambiguous ∧
      r.UnmatchedHosts = r1.UnmatchedHosts ++ r2.UnmatchedHosts ∧
      r.UnmatchedNodes = r1.UnmatchedNodes.filter (fun n => n ∈ r2.UnmatchedNodes) ∧
      ∀ n, n ∈ r.UnmatchedNodes ↔ n ∈ r1.UnmatchedNodes ∧ n ∈ r2.UnmatchedNodes) ∧
    (Match Runtime.inOrder [hostAB, hostTwo] [nodeA]).map
        (fun r => (r.Matches.map (fun e => (e.Host, e.Candidates.map (fun c => c.Node))),
          r.Ambiguous, r.UnmatchedHosts, r.UnmatchedNodes)) =
      some ([(hostAB, [nodeA]), (hostTwo, [nodeA])], [], [], []) := by
  refine ⟨⟨_, _, _, Match_eq R (h1 ++ h2) nodes, Match_eq R h1 nodes, Match_eq R h2 nodes,
    ?_, ?_, ?_, ?_, ?_⟩, by decide⟩
  · simp only [List.filterMap_append, List.filter_append]
  · simp only [List.filterMap_append, List.filter_append]
  · simp only [List.filter_append]
  · simp only [List.filter_filter]
    apply List.filter_congr
    intro n hn
    rw [seenBy_append]
    simp only [List.mem_filter, hn, true_and, Bool.not_or, Bool.decide_eq_true,
      Bool.and_comm]
  · intro n
    simp only [List.mem_filter, seenBy_append, Bool.not_or, Bool.and_eq_true]
    tauto

/-- C28: `Match` preserves input order: the hosts of Matches, of Ambiguous and of
UnmatchedHosts each appear in the relative order they have in the input host
list, and UnmatchedNodes is a subsequence of the input node list. -/
theorem Match_preserves_order (R : Runtime) (hosts : List InventoryHost)
    (nodes : List K8sNode) :
    ∃ r, Match R hosts nodes = some r ∧
      (r.Matches.map (fun e => e.Host)).Sublist hosts ∧
      (r.Ambiguous.map (fun e => e.Host)).Sublist hosts ∧
      r.UnmatchedHosts.Sublist hosts ∧
      r.UnmatchedNodes.Sublist nodes := by
  refine ⟨_, Match_eq R hosts nodes, ?_, ?_, ?_, ?_⟩
  · exact ((List.filter_sublist _).map _).trans
      (by rw [entries_hosts]; exact List.filter_sublist _)
  · exact ((List.filter_sublist _).map _).trans
      (by rw [entries_hosts]; exact List.filter_sublist _)
  · exact List.filter_sublist _
  · exact List.filter_sublist _

theorem splitDots_joinDots (segments : List String) (hne : segments ≠ [])
    (hdot : ∀ k ∈ segments, '.' ∉ k.data) : splitDots (joinDots segments) = segments := by
  unfold splitDots joinDots
  simp only
  rw [List.splitOn_intercalate]
  · rw [List.map_map]
    have : (String.mk ∘ String.data) = id := by
      funext s
      rfl
    rw [this, List.map_id]
  · intro l hl
    obtain ⟨k, hk, rfl⟩ := List.mem_map.1 hl
    exact hdot k hk
  · simpa using hne

theorem walk_iff_Reaches (segments : List String) (hne : segments ≠ []) :
    ∀ (current found : Value), walk current segments = some found ↔
      Reaches current segments found := by
  induction segments with
  | nil => exact absurd rfl hne
  | cons key rest ih =>
    intro current found
    cases current with
    | object fields =>
      cases hl : lookupField fields key with
      | none =>
        simp only [walk, hl]
        constructor
        · intro h
          cases h
        · intro h
          cases h with
          | leaf _ _ _ h1 => rw [hl] at h1; cases h1
          | step _ _ next _ _ h1 _ _ => rw [hl] at h1; cases h1
      | some next =>
        simp only [walk, hl]
        cases rest with
        | nil =>
          simp only [walk]
          constructor
          · intro h
            injection h with h
            subst h
            exact Reaches.leaf fields key next hl
          · intro h
            cases h with
            | leaf _ _ _ h1 =>
              rw [hl] at h1
              injection h1 with h1
              rw [h1]
            | step _ _ _ _ _ _ h2 _ => exact absurd rfl h2
        | cons key2 rest2 =>
          have hne2 : key2 :: rest2 ≠ [] := by simp
          rw [ih hne2 next found]
          constructor
          · intro h
            exact Reaches.step fields key next _ found hl hne2 h
          · intro h
            cases h with
            | step _ _ next2 _ _ h1 _ h3 =>
              rw [hl] at h1
              injection h1 with h1
              rw [h1]
              exact h3
    | _ =>
      simp only [walk]
      constructor
      · intro h
        cases h
      · intro h
        cases h

/-- C24: for every record and every dotted path `k1.k2...kn`, `getValue`
reports found with the leaf value exactly when the path resolves: the record
has the key `k1` and each value reached before the last segment is a keyed
container holding the next key.  It reports not found in every other case: a
missing key, or a value that is not a keyed container met before the last
segment. -/
theorem getValue_resolves (raw : List (String × Value)) (segments : List String)
    (hne : segments ≠ []) (hdot : ∀ k ∈ segments, '.' ∉ k.data) :
    (∀ found, getValue raw (joinDots segments) = some found ↔
      Reaches (.object raw) segments found) ∧
    (getValue raw (joinDots segments) = none ↔
      ∀ found, ¬ Reaches (.object raw) segments found) ∧
    (∀ (fields : List (String × Value)) (key : String) (rest : List String),
      lookupField fields key = none → walk (.object fields) (key :: rest) = none) ∧
    (∀ (current : Value) (key : String) (rest : List String),
      (∀ fields, current ≠ .object fields) → walk current (key :: rest) = none) := by
  have hwalk : ∀ found, getValue raw (joinDots segments) = some found ↔
      Reaches (.object raw) segments found := by
    intro found
    unfold getValue
    rw [splitDots_joinDots segments hne hdot]
    exact walk_iff_Reaches segments hne _ found
  refine ⟨hwalk, ?_, ?_, ?_⟩
  · constructor
    · intro h found hr
      rw [(hwalk found).2 hr] at h
      cases h
    · intro h
      cases hg : getValue raw (joinDots segments) with
      | none => rfl
      | some found => exact absurd ((hwalk found).1 hg) (h found)
  · intro fields key rest hl
    simp only [walk, hl]
  · intro current key rest hc
    cases current with
    | object fields => exact absurd rfl (hc fields)
    | _ => simp only [walk]

/-- C24, witness: the path `metadata.name` in a record whose `metadata` holds
the name `m1`. -/
theorem getValue_resolves_witness :
    joinDots ["metadata", "name"] = "metadata.name" ∧
    getValue [("metadata", .object [("name", .str "m1")])] "metadata.name" =
      some (.str "m1") ∧
    Reaches (.object [("metadata", .object [("name", .str "m1")])]) ["metadata", "name"]
      (.str "m1") :=
  ⟨by decide, rfl,
    ((getValue_resolves [("metadata", .object [("name", .str "m1")])] ["metadata", "name"]
      (by decide) (by decide)).1 (.str "m1")).1 rfl⟩

theorem firstString_skip (raw : List (String × Value)) (before rest : List String)
    (h : ∀ q ∈ before, getValue raw q = none ∨ getValue raw q = some (.str "")) :
    firstString raw (before ++ rest) = firstString raw rest := by
  induction before with
  | nil => rfl
  | cons q before ih =>
    rw [List.cons_append, firstString, getString_none raw q (h q (List.mem_cons_self _ _))]
    exact ih (fun x hx => h x (List.mem_cons_of_mem _ hx))

/-- What `firstString` returns by the values at the paths: the text of the first
path whose value `getString` reports as found, and the empty string when every
path is missing or holds the empty string. -/
theorem firstString_found (raw : List (String × Value)) :
    (∀ (before rest : List String) (path : String) (found : Value),
      (∀ q ∈ before, getValue raw q = none ∨ getValue raw q = some (.str "")) →
      getValue raw path = some found → found ≠ .str "" →
      firstString raw (before ++ path :: rest) = sprint found) ∧
    (∀ paths : List String,
      (∀ q ∈ paths, getValue raw q = none ∨ getValue raw q = some (.str "")) →
      firstString raw paths = "") ∧
    (∀ s, sprint (.str s) = s) := by
  refine ⟨?_, ?_, ?_⟩
  · intro before rest path found hbefore hfound hne
    rw [firstString_skip raw before _ hbefore, firstString,
      getString_some raw path found hfound hne]
  · intro paths h
    have := firstString_skip raw paths [] h
    rw [List.append_nil] at this
    rw [this]
    rfl
  · intro s
    simp only [sprint]

/-- C25, the code at the failing input.  In the record `{a: null, b: "x"}` the
first path, in the order `a`, `b`, that resolves to a non-empty value is `b`,
yet `firstString` returns `<nil>`: `getString` reports the `null` at `a` as
found, with the text of `%v`, so the earlier path shadows the later one.  An
empty list and an empty map at `a` do the same, with the texts `[]` and
`map[]`; the empty string and a missing key at `a` do not. -/
theorem firstString_null_shadows :
    getValue [("a", Value.null), ("b", .str "x")] "a" = some .null ∧
    getString [("a", Value.null), ("b", .str "x")] "a" = some "<nil>" ∧
    firstString [("a", .null), ("b", .str "x")] ["a", "b"] = "<nil>" ∧
    firstString [("a", .list []), ("b", .str "x")] ["a", "b"] = "[]" ∧
    firstString [("a", .object []), ("b", .str "x")] ["a", "b"] = "map[]" ∧
    firstString [("a", .str ""), ("b", .str "x")] ["a", "b"] = "x" ∧
    firstString [("b", .str "x")] ["a", "b"] = "x" := by
  refine ⟨rfl, rfl, rfl, rfl, rfl, rfl, rfl⟩

theorem foldl_filterStrings (values out : List String) :
    values.foldl
      (fun out value =>
        let trimmed := TrimSpace value
        if trimmed ≠ "" then out ++ [trimmed] else out) out =
      out ++ specTrimmed values := by
  induction values generalizing out with
  | nil => simp [specTrimmed]
  | cons value values ih =>
    rw [List.foldl_cons, ih]
    by_cases h : TrimSpace value = ""
    · simp [specTrimmed, h]
    · simp [specTrimmed, h]

theorem filterStrings_eq (values : List String) : filterStrings values = specTrimmed values := by
  unfold filterStrings
  rw [foldl_filterStrings, List.nil_append]

theorem extractIPStringsFromMap_eq (fields : List (String × Value)) :
    extractIPStringsFromMap fields = ((specEntryIP fields).map sprint).toList := by
  unfold extractIPStringsFromMap specEntryIP ipKeys
  simp only [extractIPStringsFromMapLoop]
  cases lookupField fields "address" with
  | some v => rfl
  | none =>
    cases lookupField fields "ip" with
    | some v => rfl
    | none =>
      cases lookupField fields "ipAddress" with
      | some v => rfl
      | none =>
        cases lookupField fields "value" with
        | some v => rfl
        | none => rfl

theorem extractIPItems_objects (records : List (List (String × Value))) :
    extractIPItems (records.map Value.object) =
      records.filterMap (fun fields => (specEntryIP fields).map sprint) := by
  induction records with
  | nil => rfl
  | cons fields records ih =>
    simp only [List.map_cons, extractIPItems, extractIPStrings, ih, extractIPStringsFromMap_eq,
      List.filterMap_cons]
    cases (specEntryIP fields).map sprint <;> rfl

theorem specTrimmed_extractIPItems (texts : List String) :
    specTrimmed (extractIPItems (texts.map Value.str)) = specTrimmed texts := by
  induction texts with
  | nil => rfl
  | cons s texts ih =>
    have hcons : ∀ (a : String) (l : List String),
        specTrimmed (a :: l) = specTrimmed [a] ++ specTrimmed l := by
      intro a l
      show specTrimmed ([a] ++ l) = specTrimmed [a] ++ specTrimmed l
      unfold specTrimmed
      rw [List.map_append, List.filter_append]
    simp only [List.map_cons, extractIPItems, extractIPStrings]
    by_cases hs : s = ""
    · subst hs
      rw [if_pos rfl, List.nil_append, ih, hcons "" texts]
      rfl
    · rw [if_neg hs, List.singleton_append, hcons, ih, ← hcons]

/-- C26: when the value at a path is a list of records, `getIPSlice` takes of
each record the value, as text, of the first key present among `address`, `ip`,
`ipAddress`, `value`, in that order, skips the records that have none of them,
trims the texts, drops the blank ones and keeps the order of the list, and it
reports not found when nothing remains; when the value is a list of plain
strings it yields those strings trimmed, in order, the blank ones dropped. -/
theorem getIPSlice_entries (raw : List (String × Value)) (path : String) :
    (∀ records : List (List (String × Value)),
      getValue raw path = some (.list (records.map Value.object)) →
      getIPSlice raw path =
        if specTrimmed (records.filterMap (fun fields => (specEntryIP fields).map sprint)) = []
        then none
        else some
          (specTrimmed (records.filterMap (fun fields => (specEntryIP fields).map sprint)))) ∧
    (∀ texts : List String,
      getValue raw path = some (.list (texts.map Value.str)) ∨
        getValue raw path = some (.strings texts) →
      getIPSlice raw path =
        if specTrimmed texts = [] then none else some (specTrimmed texts)) ∧
    getIPSlice
      [("status", .object [("addresses", .list
        [.object [("type", .str "InternalIP"), ("address", .str " 10.0.0.1 ")],
         .object [("type", .str "Hostname")],
         .object [("value", .str "10.0.0.9"), ("ip", .str "10.0.0.2")],
         .object [("ipAddress", .str "  ")]])])] "status.addresses" =
      some ["10.0.0.1", "10.0.0.2"] := by
  refine ⟨?_, ?_, by decide⟩
  · intro records h
    unfold getIPSlice
    simp only [h, extractIPStrings, extractIPItems_objects, filterStrings_eq,
      List.length_eq_zero]
  · intro texts h
    unfold getIPSlice
    rcases h with h | h
    · simp only [h, extractIPStrings, filterStrings_eq, specTrimmed_extractIPItems,
        List.length_eq_zero]
    · simp only [h, extractIPStrings, filterStrings_eq, List.length_eq_zero]

/-- C29, the code at the failing input: a raw machine record without
`spec.clusterName` and `status.clusterName` whose `metadata.labels` holds the
key `cluster.x-k8s.io/cluster-name` (or `provisioning.cattle.io/cluster-name`)
with the value `c`.  `getValue` splits the path
`metadata.labels.cluster.x-k8s.io/cluster-name` at every dot, so it looks the
keys `cluster`, `x-k8s` and `io/cluster-name` up one inside the other and does
not find the label: the ClusterName of the Machine is empty, whatever `c` is,
although the label is among its Labels. -/
theorem normalizeMachine_label_cluster (c : String) :
    getValue (labelledMachine c) "spec.clusterName" = none ∧
    getValue (labelledMachine c) "status.clusterName" = none ∧
    getValue (labelledMachine c) "metadata.labels" =
      some (.object [("cluster.x-k8s.io/cluster-name", .str c)]) ∧
    splitDots "metadata.labels.cluster.x-k8s.io/cluster-name" =
      ["metadata", "labels", "cluster", "x-k8s", "io/cluster-name"] ∧
    (normalizeMachine (labelledMachine c)).ClusterName = "" ∧
    (normalizeMachine (labelledMachine c)).Labels = [("cluster.x-k8s.io/cluster-name", c)] ∧
    (normalizeMachine (provisionedMachine c)).ClusterName = "" ∧
    (normalizeMachine (provisionedMachine c)).Labels =
      [("provisioning.cattle.io/cluster-name", c)] := by
  have s1 : splitDots "spec.clusterName" = ["spec", "clusterName"] := by decide
  have s2 : splitDots "status.clusterName" = ["status", "clusterName"] := by decide
  have s3 : splitDots "metadata.labels.cluster.x-k8s.io/cluster-name" =
      ["metadata", "labels", "cluster", "x-k8s", "io/cluster-name"] := by decide
  have s4 : splitDots "metadata.labels.provisioning.cattle.io/cluster-name" =
      ["metadata", "labels", "provisioning", "cattle", "io/cluster-name"] := by decide
  have s5 : splitDots "metadata.labels.cluster-name" = ["metadata", "labels", "cluster-name"] := by
    decide
  have s6 : splitDots "metadata.labels.cluster" = ["metadata", "labels", "cluster"] := by decide
  have s7 : splitDots "metadata.labels" = ["metadata", "labels"] := by decide
  refine ⟨?_, ?_, ?_, s3, ?_, ?_, ?_, ?_⟩
  · simp [getValue, s1, walk, lookupField, labelledMachine]
  · simp [getValue, s2, walk, lookupField, labelledMachine]
  · simp [getValue, s7, walk, lookupField, labelledMachine]
  · simp [normalizeMachine, firstString, getString, getValue, s1, s2, s3, s4, s5, s6, walk,
      lookupField, labelledMachine]
  · simp [normalizeMachine, firstStringMap, getStringMap, getValue, s7, walk, lookupField,
      labelledMachine, mergeLabels, entriesSet, sprint]
  · simp [normalizeMachine, firstString, getString, getValue, s1, s2, s3, s4, s5, s6, walk,
      lookupField, provisionedMachine]
  · simp [normalizeMachine, firstStringMap, getStringMap, getValue, s7, walk, lookupField,
      provisionedMachine, mergeLabels, entriesSet, sprint]

theorem resolveLoop_eq (identifier : String) (clusters : List Cluster) :
    ∀ nameMatches : List Cluster, resolveLoop identifier clusters nameMatches =
      match clusters.find? (fun cluster => cluster.ID = identifier) with
      | some cluster => .inl cluster
      | none => .inr (nameMatches ++ clusters.filter (fun cluster => cluster.Name = identifier)) := by
  induction clusters with
  | nil =>
    intro nameMatches
    simp [resolveLoop]
  | cons cluster rest ih =>
    intro nameMatches
    unfold resolveLoop
    by_cases hid : cluster.ID = identifier
    · simp [hid]
    · by_cases hname : cluster.Name = identifier
      · simp only [hid, if_false, hname, if_true, ih, List.find?_cons, decide_False,
          List.filter_cons, decide_True, List.append_assoc, List.singleton_append]
      · simp only [hid, if_false, hname, ih, List.find?_cons, decide_False, List.filter_cons]
        rfl

/-- C22: for every listed cluster list and non-empty identifier, `ResolveCluster`
returns a cluster whose ID equals the identifier whenever one exists, wherever
it stands in the list (the first of them); otherwise it returns the cluster
whose Name equals the identifier when there is exactly one, fails with the
not-found error when there is none, and fails with the multiple-clusters error
when there are two or more.  An empty identifier always fails. -/
theorem ResolveCluster_cases (clusters : List Cluster) (identifier : String)
    (hid : identifier ≠ "") :
    (∀ cluster, clusters.find? (fun x => x.ID = identifier) = some cluster →
      ResolveCluster (.ok clusters) identifier = .ok cluster) ∧
    ((∃ x ∈ clusters, x.ID = identifier) →
      ∃ cluster ∈ clusters, cluster.ID = identifier ∧
        ResolveCluster (.ok clusters) identifier = .ok cluster) ∧
    ((∀ x ∈ clusters, x.ID ≠ identifier) →
      (∀ cluster, clusters.filter (fun x => x.Name = identifier) = [cluster] →
        ResolveCluster (.ok clusters) identifier = .ok cluster) ∧
      (clusters.filter (fun x => x.Name = identifier) = [] →
        ResolveCluster (.ok clusters) identifier = .error (.notFound identifier)) ∧
      (2 ≤ (clusters.filter (fun x => x.Name = identifier)).length →
        ResolveCluster (.ok clusters) identifier =
          .error (.multiple identifier
            (joinClusterIDs (clusters.filter (fun x => x.Name = identifier)))))) ∧
    (∀ listed, ResolveCluster listed "" = .error .required) := by
  have hfound : ∀ cluster, clusters.find? (fun x => x.ID = identifier) = some cluster →
      ResolveCluster (.ok clusters) identifier = .ok cluster := by
    intro cluster h
    simp only [ResolveCluster, hid, if_false, resolveLoop_eq, h]
  refine ⟨hfound, ?_, ?_, ?_⟩
  · rintro ⟨x, hx, hxid⟩
    cases hf : clusters.find? (fun x => x.ID = identifier) with
    | none =>
      rw [List.find?_eq_none] at hf
      exact absurd (by simpa using hxid) (hf x hx)
    | some cluster =>
      have h1 := List.find?_some hf
      exact ⟨cluster, List.mem_of_find?_eq_some hf, by simpa using h1, hfound cluster hf⟩
  · intro hnone
    have hf : clusters.find? (fun x => x.ID = identifier) = none := by
      rw [List.find?_eq_none]
      intro x hx
      simpa using hnone x hx
    refine ⟨?_, ?_, ?_⟩
    · intro cluster h
      simp only [ResolveCluster, hid, if_false, resolveLoop_eq, hf, List.nil_append, h]
    · intro h
      simp only [ResolveCluster, hid, if_false, resolveLoop_eq, hf, List.nil_append, h]
    · intro h
      simp only [ResolveCluster, hid, if_false, resolveLoop_eq, hf, List.nil_append]
      generalize clusters.filter (fun x => x.Name = identifier) = found at h
      match found, h with
      | a :: b :: rest, _ => rfl
  · intro listed
    simp only [ResolveCluster, if_true]

/-- C22, witness: the identifier `prod` is the Name of the first cluster and the
ID of the second, which is returned. -/
theorem ResolveCluster_cases_witness :
    ResolveCluster (.ok [{ ID := "c-1", Name := "prod" }, { ID := "prod", Name := "other" }])
      "prod" = .ok { ID := "prod", Name := "other" } :=
  (ResolveCluster_cases [{ ID := "c-1", Name := "prod" }, { ID := "prod", Name := "other" }]
    "prod" (by decide)).1 _ (by decide)

theorem exists_last_occurrence (l : List Char) (c : Char) (h : c ∈ l) :
    ∃ a b, l = a ++ c :: b ∧ c ∉ b := by
  induction l with
  | nil => cases h
  | cons x xs ih =>
    by_cases hx : c ∈ xs
    · obtain ⟨a, b, hab, hb⟩ := ih hx
      exact ⟨x :: a, b, by rw [hab]; rfl, hb⟩
    · rcases List.mem_cons.1 h with rfl | h
      · exact ⟨[], xs, rfl, hx⟩
      · exact absurd h hx

theorem LastIndex_usable_iff (t : String) (c : Char) :
    (LastIndex t c ≥ 0 ∧ LastIndex t c < (t.length : Int) - 1) ↔
      ¬ (c ∉ t.data ∨ t.data.getLast? = some c) := by
  constructor
  · intro h hu
    exact LastIndex_unusable t c hu h
  · intro h
    push_neg at h
    obtain ⟨a, b, hab, hb⟩ := exists_last_occurrence t.data c h.1
    have hne : b ≠ [] := by
      intro h0
      subst h0
      apply h.2
      rw [hab]
      simp
    exact (LastIndex_usable t a b c hab hb hne).1

theorem TrimSpace_keeps_last (b : List Char) (z : Char) (hz : b.getLast? = some z)
    (hs : isSpace z = false) : (TrimSpace ⟨b⟩).data.getLast? = some z := by
  rw [TrimSpace_data]
  obtain ⟨u, hu⟩ : ∃ u, b = u ++ [z] := by
    rcases List.eq_nil_or_concat b with h | ⟨u, y, h⟩
    · rw [h] at hz
      cases hz
    · rw [h, List.concat_eq_append] at hz ⊢
      simp at hz
      exact ⟨u, by rw [hz]⟩
  subst hu
  have h1 : ∃ w, (u ++ [z]).dropWhile isSpace = w ++ [z] := by
    clear hz
    induction u with
    | nil => exact ⟨[], by simp [List.dropWhile, hs]⟩
    | cons x xs ih =>
      by_cases hx : isSpace x = true
      · obtain ⟨w, hw⟩ := ih
        exact ⟨w, by simp [List.dropWhile_cons, hx, hw]⟩
      · exact ⟨x :: xs, by simp [List.dropWhile_cons, hx]⟩
  obtain ⟨w, hw⟩ := h1
  have h2 : (w ++ [z]).rdropWhile isSpace = w ++ [z] := by
    exact List.rdropWhile_concat_neg isSpace w z (by simp [hs])
  show ((List.dropWhile isSpace (u ++ [z])).rdropWhile isSpace).getLast? = some z
  rw [hw, h2]
  simp

theorem TrimSpace_length_le (s : String) : (TrimSpace s).data.length ≤ s.data.length := by
  rw [TrimSpace_data]
  exact ((List.rdropWhile_prefix isSpace _).length_le).trans
    (List.dropWhile_suffix isSpace).length_le

/-- The canonical form of a machine name is trimmed, and a `/` in it, if any,
is its last character. -/
theorem normalizeMachineName_shape (v : String) :
    TrimSpace (k8s.normalizeMachineName v) = k8s.normalizeMachineName v ∧
      ('/' ∉ (k8s.normalizeMachineName v).data ∨
        (k8s.normalizeMachineName v).data.getLast? = some '/') := by
  unfold k8s.normalizeMachineName
  simp only
  by_cases h0 : TrimSpace v = ""
  · rw [if_pos h0]
    exact ⟨rfl, Or.inl (by simp)⟩
  · rw [if_neg h0]
    by_cases h1 : LastIndex (TrimSpace v) '/' ≥ 0 ∧
        LastIndex (TrimSpace v) '/' < ((TrimSpace v).length : Int) - 1
    · rw [if_pos h1]
      refine ⟨TrimSpace_idem _, Or.inl ?_⟩
      have h1' := (LastIndex_usable_iff _ _).1 h1
      push_neg at h1'
      obtain ⟨a, b, hab, hb⟩ := exists_last_occurrence _ _ h1'.1
      have hne : b ≠ [] := by
        intro hb0
        subst hb0
        apply h1'.2
        rw [hab]
        simp
      rw [(LastIndex_usable _ a b '/' hab hb hne).2]
      exact fun hmem => hb (mem_of_mem_TrimSpace _ _ hmem)
    · rw [if_neg h1]
      have hs := Classical.not_not.1 (fun hn => h1 ((LastIndex_usable_iff _ _).2 hn))
      by_cases h2 : LastIndex (TrimSpace v) ':' ≥ 0 ∧
          LastIndex (TrimSpace v) ':' < ((TrimSpace v).length : Int) - 1
      · rw [if_pos h2]
        refine ⟨TrimSpace_idem _, ?_⟩
        have h2' := (LastIndex_usable_iff _ _).1 h2
        push_neg at h2'
        obtain ⟨a, b, hab, hb⟩ := exists_last_occurrence _ _ h2'.1
        have hne : b ≠ [] := by
          intro hb0
          subst hb0
          apply h2'.2
          rw [hab]
          simp
        rw [(LastIndex_usable _ a b ':' hab hb hne).2]
        rcases hs with hs | hs
        · left
          intro hmem
          apply hs
          rw [hab]
          have := mem_of_mem_TrimSpace _ _ hmem
          simp [this]
        · right
          apply TrimSpace_keeps_last b '/' _ (by decide)
          rw [hab] at hs
          rw [← hs]
          have : a ++ ':' :: b = (a ++ [':']) ++ b := by simp
          rw [this, List.getLast?_append_of_ne_nil _ hne]
      · rw [if_neg h2]
        exact ⟨TrimSpace_idem _, hs⟩

/-- C30 (amended): applying the machine-name canonicalizer to a canonical form
`w = normalizeMachineName(v)` returns `w` again exactly when `w` contains no
`:` or ends in `:`; this is so whenever the trimmed `v` contains no `/` or ends
in `/`.  The three copies of the canonicalizer are the same function. -/
theorem normalizeMachineName_idempotent (v : String) :
    (k8s.normalizeMachineName (k8s.normalizeMachineName v) = k8s.normalizeMachineName v ↔
      (':' ∉ (k8s.normalizeMachineName v).data ∨
        (k8s.normalizeMachineName v).data.getLast? = some ':')) ∧
    ('/' ∉ (TrimSpace v).data ∨ (TrimSpace v).data.getLast? = some '/' →
      k8s.normalizeMachineName (k8s.normalizeMachineName v) = k8s.normalizeMachineName v) ∧
    normalizeMachineNameValue v = k8s.normalizeMachineName v ∧
    rancher.normalizeMachineName v = k8s.normalizeMachineName v := by
  obtain ⟨htrim, hslash⟩ := normalizeMachineName_shape v
  have hiff : k8s.normalizeMachineName (k8s.normalizeMachineName v) =
        k8s.normalizeMachineName v ↔
      (':' ∉ (k8s.normalizeMachineName v).data ∨
        (k8s.normalizeMachineName v).data.getLast? = some ':') := by
    generalize k8s.normalizeMachineName v = w at htrim hslash
    have h1 := LastIndex_unusable w '/' hslash
    constructor
    · intro hfix
      by_contra hcol
      have h2 := (LastIndex_usable_iff w ':').2 hcol
      push_neg at hcol
      obtain ⟨a, b, hab, hb⟩ := exists_last_occurrence _ _ hcol.1
      have hne : b ≠ [] := by
        intro hb0
        subst hb0
        apply hcol.2
        rw [hab]
        simp
      have hw0 : w ≠ "" := by
        intro h0
        rw [h0] at hab
        simp at hab
      unfold k8s.normalizeMachineName at hfix
      simp only [htrim, hw0, if_false, h1, h2, and_self, if_true,
        (LastIndex_usable w a b ':' hab hb hne).2] at hfix
      have hlen := TrimSpace_length_le ⟨b⟩
      rw [hfix, hab] at hlen
      simp at hlen
      omega
    · intro hcol
      have h2 := LastIndex_unusable w ':' hcol
      unfold k8s.normalizeMachineName
      simp only [htrim, h1, h2, if_false]
      split
      · rename_i h
        exact h.symm
      · rfl
  refine ⟨hiff, ?_, rfl, rfl⟩
  intro hs
  rw [hiff]
  have h1 := LastIndex_unusable (TrimSpace v) '/' hs
  unfold k8s.normalizeMachineName
  simp only [h1, if_false]
  by_cases h0 : TrimSpace v = ""
  · rw [if_pos h0]
    exact Or.inl (by simp)
  · rw [if_neg h0]
    by_cases h2 : LastIndex (TrimSpace v) ':' ≥ 0 ∧
        LastIndex (TrimSpace v) ':' < ((TrimSpace v).length : Int) - 1
    · rw [if_pos h2]
      left
      have h2' := (LastIndex_usable_iff _ _).1 h2
      push_neg at h2'
      obtain ⟨a, b, hab, hb⟩ := exists_last_occurrence _ _ h2'.1
      have hne : b ≠ [] := by
        intro hb0
        subst hb0
        apply h2'.2
        rw [hab]
        simp
      rw [(LastIndex_usable _ a b ':' hab hb hne).2]
      exact fun hmem => hb (mem_of_mem_TrimSpace _ _ hmem)
    · rw [if_neg h2]
      exact Classical.not_not.1 (fun hn => h2 ((LastIndex_usable_iff _ _).2 hn))

/-- C30, counterexample: the canonical form of `a/b:c` is `b:c`, and the
canonical form of `b:c` is `c`, for each of the three copies. -/
theorem normalizeMachineName_idempotent_counterexample :
    k8s.normalizeMachineName "a/b:c" = "b:c" ∧
    k8s.normalizeMachineName (k8s.normalizeMachineName "a/b:c") = "c" ∧
    k8s.normalizeMachineName (k8s.normalizeMachineName "a/b:c") ≠
      k8s.normalizeMachineName "a/b:c" ∧
    normalizeMachineNameValue (normalizeMachineNameValue "a/b:c") ≠
      normalizeMachineNameValue "a/b:c" ∧
    rancher.normalizeMachineName (rancher.normalizeMachineName "a/b:c") ≠
      rancher.normalizeMachineName "a/b:c" := by
  decide

theorem indexFrom_nonneg_iff (substr l : List Char) (offset : Nat) :
    indexFrom substr l offset ≥ 0 ↔ substr <:+: l := by
  induction l generalizing offset with
  | nil =>
    unfold indexFrom
    by_cases h : substr = []
    · simp [h]
    · simp [h]
  | cons c rest ih =>
    unfold indexFrom
    by_cases h : substr.isPrefixOf (c :: rest) = true
    · rw [if_pos h]
      have hp : substr <+: c :: rest := List.isPrefixOf_iff_prefix.1 h
      exact ⟨fun _ => hp.isInfix, fun _ => by omega⟩
    · rw [if_neg h, ih, List.infix_cons_iff]
      have hp : ¬ substr <+: c :: rest := fun hp => h (List.isPrefixOf_iff_prefix.2 hp)
      tauto

theorem Contains_iff (s substr : String) :
    Contains s substr = true ↔ substr.data <:+: s.data := by
  unfold Contains IndexString
  rw [decide_eq_true_iff]
  exact indexFrom_nonneg_iff _ _ 0

theorem byteLen_ge_length (l : List Char) : l.length ≤ byteLen ⟨l⟩ := by
  unfold byteLen
  induction l with
  | nil => simp
  | cons c cs ih =>
    have hc : 1 ≤ c.utf8Size := by
      have := Char.utf8Size_pos c
      omega
    simp only [List.map_cons, List.sum_cons, List.length_cons] at ih ⊢
    omega

/-- A plain pattern is neither a regular expression nor a wildcard for
`buildLabelMatchers`. -/
theorem plainPattern_not_regex (raw : String) (h : plainPattern raw = true) :
    regexPattern (TrimSpace raw) = none ∧ ContainsAny (TrimSpace raw) "*?" = false := by
  unfold plainPattern at h
  simp only [decide_eq_true_eq] at h
  obtain ⟨hstar, hq, hre, hregex, hslash⟩ := h
  constructor
  · unfold regexPattern
    simp only [TrimSpace_idem]
    have h1 : HasPrefix (TrimSpace raw) "re:" = false := by
      unfold HasPrefix
      rw [Bool.eq_false_iff]
      exact fun hp => hre (List.isPrefixOf_iff_prefix.1 hp)
    have h2 : HasPrefix (TrimSpace raw) "regex:" = false := by
      unfold HasPrefix
      rw [Bool.eq_false_iff]
      exact fun hp => hregex (List.isPrefixOf_iff_prefix.1 hp)
    have h3 : ¬ (byteLen (TrimSpace raw) ≥ 2 ∧ HasPrefix (TrimSpace raw) "/" = true ∧
        HasSuffix (TrimSpace raw) "/" = true) := by
      rintro ⟨hlen, hp, hsuf⟩
      apply hslash
      unfold HasPrefix at hp
      unfold HasSuffix at hsuf
      have hp' : "/".data <+: (TrimSpace raw).data := List.isPrefixOf_iff_prefix.1 hp
      have hs' : "/".data <:+ (TrimSpace raw).data := List.isSuffixOf_iff_suffix.1 hsuf
      obtain ⟨t, ht⟩ := hp'
      obtain ⟨u, hu⟩ := hs'
      have hhead : (TrimSpace raw).data.head? = some '/' := by
        rw [← ht]
        rfl
      have hlast : (TrimSpace raw).data.getLast? = some '/' := by
        rw [← hu]
        show (u ++ ['/']).getLast? = some '/'
        simp
      refine ⟨?_, hhead, hlast⟩
      by_contra hshort
      have hone : (TrimSpace raw).data = ['/'] := by
        rw [← ht] at hshort ⊢
        cases t with
        | nil => rfl
        | cons x xs =>
          exfalso
          apply hshort
          show 2 ≤ ("/".data ++ x :: xs).length
          simp [List.length_append]
      have hb : byteLen (TrimSpace raw) = 1 := by
        unfold byteLen
        rw [hone]
        rfl
      omega
    simp only [h1, h2, h3, if_false, Bool.false_eq_true]
  · unfold ContainsAny
    rw [Bool.eq_false_iff]
    intro hany
    rw [List.any_eq_true] at hany
    obtain ⟨c, hc, hmem⟩ := hany
    have hmem' : c ∈ "*?".data := by simpa using hmem
    have hc2 : c = '*' ∨ c = '?' := by
      have : "*?".data = ['*', '?'] := rfl
      rw [this] at hmem'
      simpa using hmem'
    rcases hc2 with rfl | rfl
    · exact hstar hc
    · exact hq hc

theorem buildLabelMatchersFrom_plain (R : Runtime) (lib : RegexLib) (patterns : List String)
    (hplain : ∀ raw ∈ patterns, plainPattern raw = true) :
    ∀ matchers : List labelMatcher,
      buildLabelMatchersFrom R lib patterns matchers =
        .ok (matchers ++
          (patterns.filter (fun raw => TrimSpace raw ≠ "")).map
            (fun raw => fun value => Contains (ToLower R value) (ToLower R (TrimSpace raw)))) := by
  induction patterns with
  | nil =>
    intro matchers
    simp [buildLabelMatchersFrom]
  | cons raw rest ih =>
    intro matchers
    have ih' := ih (fun x hx => hplain x (List.mem_cons_of_mem _ hx))
    obtain ⟨h1, h2⟩ := plainPattern_not_regex raw (hplain raw (List.mem_cons_self _ _))
    unfold buildLabelMatchersFrom
    by_cases hb : TrimSpace raw = ""
    · simp only [hb, if_true, ih']
      simp [List.filter_cons, hb]
    · simp only [hb, if_false, h1, h2, Bool.false_eq_true, ih']
      simp [List.filter_cons, hb]

theorem foldl_filterNodes (p : K8sNode → Bool) (nodes filtered : List K8sNode) :
    nodes.foldl (fun filtered node => if p node then filtered ++ [node] else filtered) filtered =
      filtered ++ nodes.filter p := by
  induction nodes generalizing filtered with
  | nil => simp
  | cons node nodes ih =>
    rw [List.foldl_cons, ih]
    cases hp : p node <;> simp [List.filter_cons, hp]

theorem labelsMatchAny_plain (R : Runtime) (patterns : List String) (node : K8sNode) :
    labelsMatchAny node.Labels
        ((patterns.filter (fun raw => TrimSpace raw ≠ "")).map
          (fun raw => fun value => Contains (ToLower R value) (ToLower R (TrimSpace raw)))) =
      decide (labelHit R patterns node) := by
  rw [Bool.eq_iff_iff, decide_eq_true_iff]
  unfold labelsMatchAny labelHit containsFold
  constructor
  · intro h
    split at h
    · cases h
    · simp only [List.any_eq_true, List.mem_map, List.mem_filter, Bool.or_eq_true] at h
      obtain ⟨label, hl, m, ⟨raw, ⟨hraw, hne⟩, rfl⟩, hm⟩ := h
      refine ⟨label, hl, raw, hraw, by simpa using hne, ?_⟩
      simpa only [Contains_iff] using hm
  · rintro ⟨label, hl, raw, hraw, hne, hm⟩
    have hlab : ¬ node.Labels.length = 0 := by
      intro h0
      rw [List.length_eq_zero] at h0
      rw [h0] at hl
      cases hl
    have hmem : raw ∈ patterns.filter (fun raw => TrimSpace raw ≠ "") := by
      rw [List.mem_filter]
      exact ⟨hraw, by simpa using hne⟩
    have hmat : ¬ ((patterns.filter (fun raw => TrimSpace raw ≠ "")).map
        (fun raw => fun value =>
          Contains (ToLower R value) (ToLower R (TrimSpace raw)))).length = 0 := by
      rw [List.length_map]
      intro h0
      rw [List.length_eq_zero] at h0
      rw [h0] at hmem
      cases hmem
    rw [if_neg (by tauto)]
    simp only [List.any_eq_true, List.mem_map, Bool.or_eq_true]
    exact ⟨label, hl, _, ⟨raw, hmem, rfl⟩, by simpa only [Contains_iff] using hm⟩

/-- C23: for every node list and every list of plain patterns,
`filterNodesByLabelPatterns` returns no error; when at least one pattern is
non-blank it returns, in input order, exactly the nodes that have at least one
label whose key or value contains some non-blank trimmed pattern, ignoring
case; and when every pattern is blank it returns the node list unchanged. -/
theorem filterNodesByLabelPatterns_plain (R : Runtime) (lib : RegexLib)
    (nodes : List K8sNode) (patterns : List String)
    (hplain : ∀ raw ∈ patterns, plainPattern raw = true) :
    ((∃ raw ∈ patterns, TrimSpace raw ≠ "") →
      filterNodesByLabelPatterns R lib nodes patterns =
        (nodes.filter (fun node => decide (labelHit R patterns node)), none)) ∧
    ((∀ raw ∈ patterns, TrimSpace raw = "") →
      filterNodesByLabelPatterns R lib nodes patterns = (nodes, none)) := by
  have hbuild := buildLabelMatchersFrom_plain R lib patterns hplain []
  rw [List.nil_append] at hbuild
  constructor
  · rintro ⟨raw, hraw, hne⟩
    unfold filterNodesByLabelPatterns buildLabelMatchers
    rw [hbuild]
    have hmem : raw ∈ patterns.filter (fun raw => TrimSpace raw ≠ "") := by
      rw [List.mem_filter]
      exact ⟨hraw, by simpa using hne⟩
    have hlen : ¬ ((patterns.filter (fun raw => TrimSpace raw ≠ "")).map
        (fun raw => fun value =>
          Contains (ToLower R value) (ToLower R (TrimSpace raw)))).length = 0 := by
      rw [List.length_map]
      intro h0
      rw [List.length_eq_zero] at h0
      rw [h0] at hmem
      cases hmem
    simp only [hlen, if_false]
    rw [foldl_filterNodes, List.nil_append]
    congr 1
    apply List.filter_congr
    intro node _
    exact labelsMatchAny_plain R patterns node
  · intro hblank
    unfold filterNodesByLabelPatterns buildLabelMatchers
    rw [hbuild]
    have hnil : patterns.filter (fun raw => TrimSpace raw ≠ "") = [] := by
      rw [List.filter_eq_nil_iff]
      intro raw hraw
      simp [hblank raw hraw]
    rw [hnil]
    rfl

/-- C23, witness: of a node without labels and a node with the zone label
`EU-West-1a`, the patterns ` ` and `eu-west` keep the second. -/
theorem filterNodesByLabelPatterns_plain_witness :
    (∀ raw ∈ [" ", " eu-west "], plainPattern raw = true) ∧
    filterNodesByLabelPatterns Runtime.inOrder RegexLib.absent [nodeA, zoneNode]
      [" ", " eu-west "] =
      ([nodeA, zoneNode].filter
        (fun node => decide (labelHit Runtime.inOrder [" ", " eu-west "] node)), none) ∧
    [nodeA, zoneNode].filter
      (fun node => decide (labelHit Runtime.inOrder [" ", " eu-west "] node)) = [zoneNode] :=
  ⟨by decide,
    (filterNodesByLabelPatterns_plain Runtime.inOrder RegexLib.absent [nodeA, zoneNode]
      [" ", " eu-west "] (by decide)).1 ⟨" eu-west ", by decide, by decide⟩,
    by decide⟩

theorem indexFrom_append (substr : List Char) (tail : List Char)
    (hat : substr.isPrefixOf tail = true) :
    ∀ (base : List Char) (offset : Nat),
      (∀ a b, base = a ++ b → b ≠ [] → substr.isPrefixOf (b ++ tail) = false) →
      indexFrom substr (base ++ tail) offset = ((offset + base.length : Nat) : Int) := by
  intro base
  induction base with
  | nil =>
    intro offset _
    cases tail with
    | nil =>
      have : substr = [] := by
        cases substr with
        | nil => rfl
        | cons x xs => simp [List.isPrefixOf] at hat
      simp [indexFrom, this]
    | cons c rest => simp [indexFrom, hat]
  | cons x xs ih =>
    intro offset hno
    have h0 := hno [] (x :: xs) rfl (by simp)
    rw [List.cons_append] at h0 ⊢
    unfold indexFrom
    rw [if_neg (by simp [h0])]
    rw [ih (offset + 1) (fun a b hab hb => hno (x :: a) b (by rw [hab]; rfl) hb)]
    simp only [List.length_cons]
    congr 1
    omega

theorem k8s_no_straddle (base more : List Char)
    (hbase : ¬ ['/', 'k', '8', 's'] <:+: base) :
    ∀ a b, base = a ++ b → b ≠ [] →
      List.isPrefixOf ['/', 'k', '8', 's', '/'] (b ++ '/' :: 'k' :: '8' :: 's' :: '/' :: more) =
        false := by
  intro a b hab hb
  rcases b with _ | ⟨x, _ | ⟨y, _ | ⟨z, _ | ⟨w, r⟩⟩⟩⟩
  · exact absurd rfl hb
  · simp [List.isPrefixOf]
  · simp [List.isPrefixOf]
  · simp [List.isPrefixOf]
  · rw [Bool.eq_false_iff]
    intro h
    simp only [List.cons_append, List.isPrefixOf, Bool.and_eq_true, beq_iff_eq] at h
    obtain ⟨rfl, rfl, rfl, rfl, _⟩ := h
    exact hbase ⟨a, r, by rw [hab]; simp⟩

theorem IndexString_k8s (base id : String) (hbase : ¬ "/k8s".data <:+: base.data) :
    IndexString (base ++ "/k8s/clusters/" ++ id) "/k8s/" = (base.data.length : Int) ∧
      sliceTo (base ++ "/k8s/clusters/" ++ id) (base.data.length : Int) = base := by
  have hdata : (base ++ "/k8s/clusters/" ++ id).data =
      base.data ++ ('/' :: 'k' :: '8' :: 's' :: '/' :: ("clusters/".data ++ id.data)) := by
    simp only [String.data_append]
    rw [List.append_assoc]
    rfl
  constructor
  · unfold IndexString
    rw [hdata]
    have := indexFrom_append ['/', 'k', '8', 's', '/']
      ('/' :: 'k' :: '8' :: 's' :: '/' :: ("clusters/".data ++ id.data)) (by simp [List.isPrefixOf])
      base.data 0 (k8s_no_straddle base.data _ hbase)
    rw [Nat.zero_add] at this
    exact this
  · unfold sliceTo
    apply String.ext
    rw [hdata]
    simp

theorem TrimSuffix_slash_head (base : String)
    (hslash : base = "" ∨ base.data.head? = some '/') :
    TrimSuffix base "/" = "" ∨ (TrimSuffix base "/").data.head? = some '/' := by
  unfold TrimSuffix
  split
  · rcases hslash with h | h
    · left
      rw [h]
      rfl
    · cases hd : base.data with
      | nil =>
        rw [hd] at h
        cases h
      | cons x xs =>
        rw [hd] at h
        cases xs with
        | nil =>
          left
          apply String.ext
          rfl
        | cons y ys =>
          right
          show ((x :: y :: ys).take ((x :: y :: ys).length - "/".data.length)).head? = some '/'
          have : (x :: y :: ys).length - "/".data.length = ys.length + 1 := by
            show ys.length + 2 - 1 = ys.length + 1
            omega
          rw [this]
          simpa using h
  · exact hslash

/-- The method `String` on a URL with scheme and host, without opaque part, user
information, query and fragment, whose path is empty or begins with `/`. -/
theorem URL_String_plain (lib : UrlLib) (u : URL) (hscheme : u.Scheme ≠ "")
    (hhost : u.Host ≠ "") (hnoOpq : u.Opaque = "") (huser : u.User = none)
    (hforce : u.ForceQuery = false) (hquery : u.RawQuery = "") (hfrag : u.Fragment = "")
    (hpath : lib.EscapedPath u = "" ∨ (lib.EscapedPath u).data.head? = some '/') :
    u.String lib = u.Scheme ++ "://" ++ lib.escapeHost u.Host ++ lib.EscapedPath u := by
  have hbuf : u.Scheme ++ ":" ++ "//" ++ lib.escapeHost u.Host ≠ "" := by
    intro h
    apply hscheme
    have hd := congrArg String.data h
    simp only [String.data_append] at hd
    apply String.ext
    have : u.Scheme.data = [] := by
      cases hs : u.Scheme.data with
      | nil => rfl
      | cons x xs =>
        rw [hs] at hd
        cases hd
    exact this
  have hhead : ¬ (¬ lib.EscapedPath u = "" ∧ ¬ (lib.EscapedPath u).data.head? = some '/') := by
    rintro ⟨h1, h2⟩
    rcases hpath with h | h
    · exact h1 h
    · exact h2 h
  unfold URL.String
  simp only [hscheme, hhost, hnoOpq, huser, hforce, hquery, hfrag, ne_eq, not_true_eq_false,
    not_false_eq_true, if_true, if_false, true_or, or_true, Bool.false_eq_true, false_and,
    or_self, and_false, and_true]
  rw [if_neg hhead, if_neg (fun h => hbuf h.1)]
  apply String.ext
  simp [String.data_append]

/-- C21 (amended): for a server string that `url.Parse` accepts with non-empty
scheme and host, without user information and without a bare `?` at its end,
whose host and path are written back as they are and whose path is `P` followed
by `/k8s/clusters/<id>`, `P` not containing `/k8s`, `BaseURLFromServer` returns
`scheme://host` followed by `P` less one trailing `/`, with no query and no
fragment, and `InventoryURLFromServer` returns that base, less one trailing
`/`, followed by `/v1/elemental.cattle.io.machineinventories`; and a server
string that is not parsed, or is parsed without scheme or without host, is
rejected with an error by both. -/
theorem BaseURLFromServer_base (lib : UrlLib) (server : String) (parsed : URL)
    (base id : String) (hparse : lib.Parse server = .ok parsed)
    (hscheme : parsed.Scheme ≠ "") (hhost : parsed.Host ≠ "") (hnoOpq : parsed.Opaque = "")
    (huser : parsed.User = none) (hforce : parsed.ForceQuery = false)
    (hpath : parsed.Path = base ++ "/k8s/clusters/" ++ id)
    (hslash : base = "" ∨ base.data.head? = some '/')
    (hbase : ¬ "/k8s".data <:+: base.data)
    (heschost : lib.escapeHost parsed.Host = parsed.Host)
    (hescpath : lib.EscapedPath
      { parsed with Path := TrimSuffix base "/", RawQuery := "", Fragment := "" } =
        TrimSuffix base "/") :
    BaseURLFromServer lib server =
      .ok (parsed.Scheme ++ "://" ++ parsed.Host ++ TrimSuffix base "/") ∧
    InventoryURLFromServer lib server =
      .ok (TrimSuffix (parsed.Scheme ++ "://" ++ parsed.Host ++ TrimSuffix base "/") "/" ++
        "/v1/elemental.cattle.io.machineinventories") ∧
    (∀ (lib0 : UrlLib) (server0 : String),
      (∃ err, lib0.Parse server0 = .error err) ∨
        (∃ u, lib0.Parse server0 = .ok u ∧ (u.Scheme = "" ∨ u.Host = "")) →
      (∃ err, BaseURLFromServer lib0 server0 = .error err) ∧
        ∃ err, InventoryURLFromServer lib0 server0 = .error err) := by
  obtain ⟨hidx, hslice⟩ := IndexString_k8s base id hbase
  have hb : BaseURLFromServer lib server =
      .ok (parsed.Scheme ++ "://" ++ parsed.Host ++ TrimSuffix base "/") := by
    unfold BaseURLFromServer
    have hnot : ¬ (parsed.Scheme = "" ∨ parsed.Host = "") := by tauto
    have hu := URL_String_plain lib
      { parsed with Path := TrimSuffix base "/", RawQuery := "", Fragment := "" }
      hscheme hhost hnoOpq huser hforce rfl rfl
      (by rw [hescpath]; exact TrimSuffix_slash_head base hslash)
    rw [hescpath] at hu
    simp only [heschost] at hu
    have hnn : (base.data.length : Int) ≥ 0 := by omega
    simp only [hparse, hnot, if_false, hpath, hidx, hnn, if_true, hslice, hu]
  refine ⟨hb, ?_, ?_⟩
  · unfold InventoryURLFromServer
    rw [hb]
    rfl
  · intro lib0 server0 h
    have hb0 : ∃ err, BaseURLFromServer lib0 server0 = .error err := by
      unfold BaseURLFromServer
      rcases h with ⟨err, he⟩ | ⟨u, hu, hempty⟩
      · rw [he]
        exact ⟨_, rfl⟩
      · rw [hu]
        simp only [hempty, if_true]
        exact ⟨_, rfl⟩
    refine ⟨hb0, ?_⟩
    obtain ⟨err, he⟩ := hb0
    unfold InventoryURLFromServer
    rw [he]
    exact ⟨_, rfl⟩

/-- C21, witness: the server string of the test `TestBaseURLFromServerSubpath`. -/
theorem BaseURLFromServer_base_witness :
    BaseURLFromServer sampleUrlLib "https://rancher.example.com/rancher/k8s/clusters/c-123" =
      .ok "https://rancher.example.com/rancher" ∧
    InventoryURLFromServer sampleUrlLib
        "https://rancher.example.com/rancher/k8s/clusters/c-123" =
      .ok "https://rancher.example.com/rancher/v1/elemental.cattle.io.machineinventories" :=
  ⟨(BaseURLFromServer_base sampleUrlLib "https://rancher.example.com/rancher/k8s/clusters/c-123"
      { Scheme := "https", Host := "rancher.example.com", Path := "/rancher/k8s/clusters/c-123" }
      "/rancher" "c-123" rfl (by decide) (by decide) rfl rfl rfl rfl (by decide) (by decide)
      rfl rfl).1,
    (BaseURLFromServer_base sampleUrlLib "https://rancher.example.com/rancher/k8s/clusters/c-123"
      { Scheme := "https", Host := "rancher.example.com", Path := "/rancher/k8s/clusters/c-123" }
      "/rancher" "c-123" rfl (by decide) (by decide) rfl rfl rfl rfl (by decide) (by decide)
      rfl rfl).2.1⟩

/-- C21, counterexample.  When `P` ends in two `/`, as in
`/rancher///k8s/clusters/local`, the base keeps one of them and the inventory
URL is not that base followed by the inventory path, which would have `//`;
and with user information in the server string the base is not `scheme://host`
followed by `P`. -/
theorem BaseURLFromServer_base_counterexample :
    BaseURLFromServer sampleUrlLib "https://rancher.example.com/rancher///k8s/clusters/local" =
      .ok "https://rancher.example.com/rancher/" ∧
    InventoryURLFromServer sampleUrlLib
        "https://rancher.example.com/rancher///k8s/clusters/local" =
      .ok "https://rancher.example.com/rancher/v1/elemental.cattle.io.machineinventories" ∧
    "https://rancher.example.com/rancher/v1/elemental.cattle.io.machineinventories" ≠
      "https://rancher.example.com/rancher/" ++ "/v1/elemental.cattle.io.machineinventories" ∧
    sampleParse "https://admin@rancher.example.com/k8s/clusters/local" =
      .ok { Scheme := "https", User := some "admin", Host := "rancher.example.com",
            Path := "/k8s/clusters/local" } ∧
    BaseURLFromServer sampleUrlLib "https://admin@rancher.example.com/k8s/clusters/local" =
      .ok "https://admin@rancher.example.com" ∧
    "https://admin@rancher.example.com" ≠ "https" ++ "://" ++ "rancher.example.com" ++ "" :=
  ⟨rfl, rfl, by decide, rfl, rfl, by decide⟩

/-- The server string that ends in a bare `?`: `RawQuery` is emptied but
`ForceQuery` stays set, so the base ends in `?` and the inventory path lands
after it. -/
theorem BaseURLFromServer_bare_query :
    BaseURLFromServer sampleUrlLib "https://rancher.example.com/k8s/clusters/local?" =
      .ok "https://rancher.example.com?" ∧
    InventoryURLFromServer sampleUrlLib "https://rancher.example.com/k8s/clusters/local?" =
      .ok "https://rancher.example.com?/v1/elemental.cattle.io.machineinventories" ∧
    BaseURLFromServer sampleUrlLib "https://rancher.example.com/k8s/clusters/local?x=1#top" =
      .ok "https://rancher.example.com" ∧
    InventoryURLFromServer sampleUrlLib "https://rancher.example.com/k8s/clusters/local" =
      .ok "https://rancher.example.com/v1/elemental.cattle.io.machineinventories" ∧
    BaseURLFromServer sampleUrlLib "rancher.example.com/k8s/clusters/local" =
      .error "invalid kubeconfig server URL: rancher.example.com/k8s/clusters/local" ∧
    BaseURLFromServer sampleUrlLib "https:///k8s/clusters/local" =
      .error "invalid kubeconfig server URL: https:///k8s/clusters/local" :=
  ⟨rfl, rfl, rfl, rfl, rfl, rfl⟩

end ElementalNodeMap
